import Mathlib

/-!
Verification development for the intelligence-bot signal pipeline.

Shallow embedding of the core pipeline components (signal ranker, feature
tagging, deduplicator, sqlite store, pipeline orchestration, URL
normalization) and proofs of the specified properties about them.

Python floats are modelled as real numbers; Python ints as integers;
dynamic (dict-typed) fields as sum/option types; operations that can raise
return Except values.
-/

namespace Intel

/-- Dynamic value for duck-typed signal dict fields: absent/None, int, or str.
Used where the Python code reads a field whose runtime type is not fixed. -/
inductive PyVal where
  | none
  | int (n : ℤ)
  | str (s : String)
deriving DecidableEq, Repr

/-- Python s.lower() (modelled on ASCII letters, which is what the keyword
tables and strip-params contain). -/
def pyLower (s : List Char) : List Char := s.map Char.toLower

/-- Does hay start with needle. -/
def listStartsWith : List Char → List Char → Bool
  | _, [] => true
  | [], _ :: _ => false
  | c :: cs, d :: ds => decide (c = d) && listStartsWith cs ds

/-- Python substring test: needle in hay. -/
def listHasSub (needle : List Char) : List Char → Bool
  | [] => needle.isEmpty
  | c :: t => listStartsWith (c :: t) needle || listHasSub needle t

/-- any(k in text for k in kws) -/
def matchesAny (kws : List String) (t : List Char) : Bool :=
  kws.any fun k => listHasSub k.data t

/-- SignalRanker.__init__: self.ecosystem_keywords (insertion order preserved). -/
def ecosystemKeywords : List (String × List String) :=
  [("ethereum_l2s", ["arbitrum", "optimism", "base", "zksync", "scroll",
      "starknet", "linea", "polygon", "l2", "rollup"]),
   ("solana", ["solana", "spl", "jupiter", "raydium", "sol"]),
   ("bitcoin_l2s", ["bitcoin l2", "bitvm", "stacks", "lightning", "babylon",
      "rootstock", "rgb"])]

/-- SignalRanker.__init__: self.sector_keywords (insertion order preserved). -/
def sectorKeywords : List (String × List String) :=
  [("defi", ["dex", "amm", "lending", "borrow", "perps", "derivatives",
      "yield", "liquidity", "tvl", "vault"]),
   ("infrastructure", ["rpc", "indexer", "node", "oracle", "bridge",
      "sequencer", "data availability", "zk", "rollup", "infra"]),
   ("ai_crypto", ["agent", "agents", "ai", "llm", "gpu", "inference",
      "model", "data", "compute"]),
   ("gaming", ["game", "gaming", "metaverse"]),
   ("nft", ["nft", "collection", "mint"])]

/-- The for-loop with break in SignalRanker._detect_tags: first table row one
of whose keywords occurs in the text, else the "unknown" fallback. -/
def detectFirst (table : List (String × List String)) (t : List Char) : String :=
  match table.find? (fun p => matchesAny p.2 t) with
  | some p => p.1
  | Option.none => "unknown"

/-- A signal as seen by SignalRanker: the dict fields it reads.
timestamp is seconds-since-epoch for datetime values; Option.none models a
field that is absent or not a datetime instance. -/
structure Signal where
  title : String := ""
  text : String := ""
  description : String := ""
  source : String := "unknown"
  timestamp : Option ℝ := Option.none
  likes : PyVal := PyVal.none
  retweets : PyVal := PyVal.none
  replies : PyVal := PyVal.none
  stars : PyVal := PyVal.none
  forks : PyVal := PyVal.none
  detectedEcosystem : Option String := Option.none
  detectedSector : Option String := Option.none
  signalScore : Option ℝ := Option.none

/-- Python (v or d) for an optional string v: None and "" are falsy. -/
def pyOr (v : Option String) (d : String) : String :=
  match v with
  | Option.none => d
  | some x => if x = "" then d else x

/-- " ".join(str(signal.get(k, "")) for k in ("title", "text", "description")).lower() -/
def tagText (s : Signal) : List Char :=
  pyLower (s.title.data ++ ' ' :: (s.text.data ++ ' ' :: s.description.data))

/-- SignalRanker._detect_tags: detects ecosystem and sector from the text,
keeping a pre-existing truthy tag if present. -/
def detectTags (s : Signal) : Signal :=
  let t := tagText s
  { s with
    detectedEcosystem := some (pyOr s.detectedEcosystem (detectFirst ecosystemKeywords t)),
    detectedSector := some (pyOr s.detectedSector (detectFirst sectorKeywords t)) }

/-- SignalRanker._source_weight (dict .get with default 0.6). -/
noncomputable def sourceWeight (src : String) : ℝ :=
  let s := if src = "" then "unknown" else src
  if s = "news" then 1.0
  else if s = "github" then 0.9
  else if s = "funding" then 1.0
  else if s = "ecosystem" then 0.85
  else if s = "twitter" then 0.7
  else if s = "unknown" then 0.6
  else 0.6

/-- SignalRanker._ecosystem_weight (falsy argument coerced to "unknown"). -/
noncomputable def ecosystemWeight (eco : Option String) : ℝ :=
  let e := pyOr eco "unknown"
  if e = "ethereum_l2s" then 1.0
  else if e = "solana" then 0.95
  else if e = "bitcoin_l2s" then 0.95
  else if e = "unknown" then 0.7
  else 0.7

/-- SignalRanker._sector_weight (falsy argument coerced to "unknown"). -/
noncomputable def sectorWeight (sec : Option String) : ℝ :=
  let s := pyOr sec "unknown"
  if s = "defi" then 1.0
  else if s = "infrastructure" then 0.95
  else if s = "ai_crypto" then 0.9
  else if s = "gaming" then 0.6
  else if s = "nft" then 0.5
  else if s = "unknown" then 0.7
  else 0.7

/-- SignalRanker._recency_score: non-datetime timestamp yields 0.3, else
exp(-hours/24) with hours clamped at 0. now is the utcnow() instant. -/
noncomputable def recencyScore (now : ℝ) (ts : Option ℝ) : ℝ :=
  match ts with
  | Option.none => 0.3
  | some t =>
    let hours := max ((now - t) / 3600) 0
    Real.exp (-(hours / 24))

/-- int(signal.get(field, 0) or 0): absent/falsy gives 0, int passes through,
a non-numeric string raises (modelled as error). -/
def intOfPy : PyVal → Except Unit ℤ
  | PyVal.none => Except.ok 0
  | PyVal.int n => Except.ok n
  | PyVal.str s =>
    if s = "" then Except.ok 0
    else match s.toInt? with
      | some n => Except.ok n
      | Option.none => Except.error ()

/-- The raw weighted engagement count of SignalRanker._engagement_score:
likes + 2*retweets + replies + 5*stars + 3*forks, with each int() conversion
able to raise. -/
def rawEngagement (s : Signal) : Except Unit ℤ := do
  let likes ← intOfPy s.likes
  let retweets ← intOfPy s.retweets
  let replies ← intOfPy s.replies
  let stars ← intOfPy s.stars
  let forks ← intOfPy s.forks
  pure (likes + 2 * retweets + replies + 5 * stars + 3 * forks)

/-- SignalRanker._engagement_score: log10(raw + 1) / 3. math.log10 raises on
a non-positive argument; a raising int() conversion propagates. -/
noncomputable def engagementScoreE (s : Signal) : Except Unit ℝ :=
  match rawEngagement s with
  | Except.error e => Except.error e
  | Except.ok raw =>
    if raw + 1 ≤ 0 then Except.error ()
    else Except.ok (Real.logb 10 ((raw : ℝ) + 1) / 3)

/-- The arithmetic of SignalRanker.score after all terms are gathered:
base = 0.45*recency + 0.35*engagement + 0.20*srcW, weighted by the
ecosystem and sector multipliers, capped at max_score = 100. -/
noncomputable def combineScore (recency engagement srcW ecoW secW : ℝ) : ℝ :=
  let base := 0.45 * recency + 0.35 * engagement + 0.20 * srcW
  let weighted := base * ecoW * secW
  min (weighted * 100) 100

/-- SignalRanker.score: tags the signal (mutation kept in the first
component), then combines recency, engagement and weights. The Except
propagates an engagement-term exception. -/
noncomputable def scoreSignal (now : ℝ) (sig : Signal) : Signal × Except Unit ℝ :=
  let s := detectTags sig
  (s, (engagementScoreE s).map fun engagement =>
    combineScore (recencyScore now s.timestamp) engagement (sourceWeight s.source)
      (ecosystemWeight s.detectedEcosystem) (sectorWeight s.detectedSector))

/-- round(x, 2) modelled over the reals. -/
noncomputable def roundTo2 (x : ℝ) : ℝ := (round (x * 100) : ℤ) / 100

/-- One iteration of the rank_batch loop: signal_score is round(score, 2), or
the 0.0 fallback when scoring raised. -/
noncomputable def scoreStep (now : ℝ) (sig : Signal) : Signal :=
  let p := scoreSignal now sig
  { p.1 with
    signalScore := some (match p.2 with
      | Except.ok v => roundTo2 v
      | Except.error _ => 0) }

/-- The signal_score value rank_batch assigns: round(score, 2), or the 0.0
fallback when scoring raised. -/
noncomputable def assignedScore (now : ℝ) (sig : Signal) : ℝ :=
  match (scoreSignal now sig).2 with
  | Except.ok v => roundTo2 v
  | Except.error _ => 0

/-- x.get("signal_score", 0), the sort key of rank_batch. -/
noncomputable def sortKeyScore (s : Signal) : ℝ := s.signalScore.getD 0

/-- SignalRanker.rank_batch: score every signal (with fallback), then a
stable descending sort by signal_score. -/
noncomputable def rankBatch (now : ℝ) (sigs : List Signal) : List Signal :=
  (sigs.map (scoreStep now)).insertionSort (fun a b => sortKeyScore b ≤ sortKeyScore a)

/-- Python str.strip(): whitespace removed from both ends. -/
def pyStrip (s : String) : String :=
  String.mk (((s.data.dropWhile Char.isWhitespace).reverse.dropWhile
    Char.isWhitespace).reverse)

/-! ### datetime model

Python naive/aware datetimes, with the parts of fromisoformat, isoformat,
astimezone(timezone.utc) and utcfromtimestamp used by the repository.
Civil-calendar conversion follows the standard days-from-civil algorithm.
-/

/-- A datetime.datetime value. tzOffsetMinutes is the utcoffset in minutes
(Option.none = naive). Sub-minute offsets do not occur in the repository
inputs and are not modelled. -/
structure PyDateTime where
  year : ℤ
  month : ℕ
  day : ℕ
  hour : ℕ := 0
  minute : ℕ := 0
  second : ℕ := 0
  microsecond : ℕ := 0
  tzOffsetMinutes : Option ℤ := Option.none
deriving DecidableEq, Repr

def isLeap (y : ℤ) : Bool := (y % 4 = 0 && y % 100 ≠ 0) || y % 400 = 0

def daysInMonth (y : ℤ) (m : ℕ) : ℕ :=
  if m = 2 then (if isLeap y then 29 else 28)
  else if m = 4 ∨ m = 6 ∨ m = 9 ∨ m = 11 then 30
  else 31

/-- datetime constructor validation (MINYEAR..MAXYEAR, field ranges). -/
def validDateTime (d : PyDateTime) : Bool :=
  1 ≤ d.year && d.year ≤ 9999 && 1 ≤ d.month && d.month ≤ 12 &&
  1 ≤ d.day && d.day ≤ daysInMonth d.year d.month &&
  d.hour ≤ 23 && d.minute ≤ 59 && d.second ≤ 59 && d.microsecond ≤ 999999 &&
  (match d.tzOffsetMinutes with
   | Option.none => true
   | some off => decide (-1439 ≤ off ∧ off ≤ 1439))

/-- Serial day number of a civil date (days since 1970-01-01). -/
def daysFromCivil (y : ℤ) (m d : ℕ) : ℤ :=
  let yAdj : ℤ := if m ≤ 2 then y - 1 else y
  let era : ℤ := (if 0 ≤ yAdj then yAdj else yAdj - 399).tdiv 400
  let yoe : ℤ := yAdj - era * 400
  let mp : ℤ := ((m : ℤ) + 9) % 12
  let doy : ℤ := (153 * mp + 2).tdiv 5 + (d : ℤ) - 1
  let doe : ℤ := yoe * 365 + yoe.tdiv 4 - yoe.tdiv 100 + doy
  era * 146097 + doe - 719468

/-- Civil date from a serial day number (inverse of daysFromCivil). -/
def civilFromDays (z0 : ℤ) : ℤ × ℕ × ℕ :=
  let z := z0 + 719468
  let era : ℤ := (if 0 ≤ z then z else z - 146096).tdiv 146097
  let doe : ℤ := z - era * 146097
  let yoe : ℤ := (doe - doe.tdiv 1460 + doe.tdiv 36524 - doe.tdiv 146096).tdiv 365
  let y : ℤ := yoe + era * 400
  let doy : ℤ := doe - (365 * yoe + yoe.tdiv 4 - yoe.tdiv 100)
  let mp : ℤ := (5 * doy + 2).tdiv 153
  let d : ℤ := doy - (153 * mp + 2).tdiv 5 + 1
  let m : ℤ := if mp < 10 then mp + 3 else mp - 9
  (if m ≤ 2 then y + 1 else y, m.toNat, d.toNat)

/-- Comparison of (naive) datetimes: field-lexicographic, as in CPython. -/
def dtLt (a b : PyDateTime) : Bool :=
  if a.year ≠ b.year then decide (a.year < b.year)
  else if a.month ≠ b.month then decide (a.month < b.month)
  else if a.day ≠ b.day then decide (a.day < b.day)
  else if a.hour ≠ b.hour then decide (a.hour < b.hour)
  else if a.minute ≠ b.minute then decide (a.minute < b.minute)
  else if a.second ≠ b.second then decide (a.second < b.second)
  else decide (a.microsecond < b.microsecond)

/-- dt.replace(tzinfo=None): drop the offset, keep the wall-clock fields. -/
def dropTz (d : PyDateTime) : PyDateTime := { d with tzOffsetMinutes := Option.none }

/-- dt.astimezone(timezone.utc).replace(tzinfo=None) for an aware datetime;
the identity on naive datetimes (the repository only converts aware ones). -/
def toNaiveUtc (dt : PyDateTime) : PyDateTime :=
  match dt.tzOffsetMinutes with
  | Option.none => dt
  | some off =>
    let totalMin : ℤ :=
      daysFromCivil dt.year dt.month dt.day * 1440 + dt.hour * 60 + dt.minute - off
    let days := totalMin.fdiv 1440
    let rem := (totalMin - days * 1440).toNat
    let c := civilFromDays days
    { year := c.1, month := c.2.1, day := c.2.2, hour := rem / 60, minute := rem % 60,
      second := dt.second, microsecond := dt.microsecond,
      tzOffsetMinutes := Option.none }

/-- datetime.utcfromtimestamp for integral epoch seconds. -/
def utcfromtimestamp (n : ℤ) : PyDateTime :=
  let days := n.fdiv 86400
  let rem := (n - days * 86400).toNat
  let c := civilFromDays days
  { year := c.1, month := c.2.1, day := c.2.2,
    hour := rem / 3600, minute := rem % 3600 / 60, second := rem % 60 }

def padNum (width n : ℕ) : String :=
  let s := toString n
  String.mk (List.replicate (width - s.length) '0') ++ s

/-- datetime.isoformat() for naive values (the only ones serialized here):
YYYY-MM-DDTHH:MM:SS, with .ffffff appended when microsecond is nonzero. -/
def isoformat (dt : PyDateTime) : String :=
  padNum 4 dt.year.toNat ++ "-" ++ padNum 2 dt.month ++ "-" ++ padNum 2 dt.day ++ "T" ++
  padNum 2 dt.hour ++ ":" ++ padNum 2 dt.minute ++ ":" ++ padNum 2 dt.second ++
  (if dt.microsecond = 0 then "" else "." ++ padNum 6 dt.microsecond)

def digitVal (c : Char) : ℕ := c.toNat - 48

/-- Exactly n digits from the front. -/
def parseDigits : ℕ → List Char → Option (ℕ × List Char)
  | 0, cs => some (0, cs)
  | _ + 1, [] => Option.none
  | n + 1, c :: cs =>
    if c.isDigit then
      match parseDigits n cs with
      | some (v, rest) => some (digitVal c * 10 ^ n + v, rest)
      | Option.none => Option.none
    else Option.none

/-- _parse_isoformat_date: exactly YYYY-MM-DD. -/
def parseIsoDate (cs : List Char) : Option (ℤ × ℕ × ℕ) := do
  let (y, r1) ← parseDigits 4 cs
  match r1 with
  | '-' :: r2 => do
    let (m, r3) ← parseDigits 2 r2
    match r3 with
    | '-' :: r4 => do
      let (d, r5) ← parseDigits 2 r4
      if r5.isEmpty then some ((y : ℤ), m, d) else Option.none
    | _ => Option.none
  | _ => Option.none

/-- _parse_hh_mm_ss_ff: HH[:MM[:SS[.fff or .ffffff]]], consuming everything. -/
def parseHMSF (cs : List Char) : Option (ℕ × ℕ × ℕ × ℕ) := do
  let (hh, r1) ← parseDigits 2 cs
  match r1 with
  | [] => some (hh, 0, 0, 0)
  | ':' :: r2 => do
    let (mm, r3) ← parseDigits 2 r2
    match r3 with
    | [] => some (hh, mm, 0, 0)
    | ':' :: r4 => do
      let (ss, r5) ← parseDigits 2 r4
      match r5 with
      | [] => some (hh, mm, ss, 0)
      | '.' :: r6 =>
        match parseDigits 6 r6 with
        | some (us, []) => some (hh, mm, ss, us)
        | _ =>
          match parseDigits 3 r6 with
          | some (ms, []) => some (hh, mm, ss, ms * 1000)
          | _ => Option.none
      | _ => Option.none
    | _ => Option.none
  | _ => Option.none

/-- Index of the first occurrence of c, if any. -/
def findChar (c : Char) : List Char → Option ℕ
  | [] => Option.none
  | d :: ds =>
    if d = c then some 0
    else match findChar c ds with
      | some i => some (i + 1)
      | Option.none => Option.none

/-- The datetime(...) constructor call at the end of fromisoformat:
build the value, validating field ranges. -/
def mkValidated (y : ℤ) (m d hh mm ss us : ℕ) (off : Option ℤ) : Option PyDateTime :=
  let dt : PyDateTime := { year := y
                           month := m
                           day := d
                           hour := hh
                           minute := mm
                           second := ss
                           microsecond := us
                           tzOffsetMinutes := off }
  if validDateTime dt then some dt else Option.none

/-- datetime.fromisoformat (pre-3.11 grammar): YYYY-MM-DD, optionally a
single separator character plus HH[:MM[:SS[.fff[fff]]]], optionally a
+HH:MM / -HH:MM offset; validated by the datetime constructor. -/
def fromisoformat (s : String) : Option PyDateTime := do
  let cs := s.data
  let (y, m, d) ← parseIsoDate (cs.take 10)
  let mk := mkValidated y m d
  if cs.length = 10 then
    mk 0 0 0 0 Option.none
  else
    let tstr := cs.drop 11
    if tstr.isEmpty then Option.none
    else
      let tzPos := match findChar '-' tstr with
        | some i => some i
        | Option.none => findChar '+' tstr
      match tzPos with
      | Option.none => do
        let (hh, mm, ss, us) ← parseHMSF tstr
        mk hh mm ss us Option.none
      | some i => do
        let timePart := tstr.take i
        let tzSign : ℤ := if tstr.get? i = some '-' then -1 else 1
        let tzStr := tstr.drop (i + 1)
        let (hh, mm, ss, us) ← parseHMSF timePart
        if tzStr.length = 5 then do
          let (oh, om, _, _) ← parseHMSF tzStr
          mk hh mm ss us (some (tzSign * ((oh : ℤ) * 60 + om)))
        else Option.none

/-- published_at.replace("Z", "+00:00"): every Z expanded. -/
def replaceZ (s : String) : String :=
  String.mk (s.data.flatMap fun c => if c = 'Z' then "+00:00".data else [c])

/-! ### SQLiteStore model (storage/sqlite_store.py) -/

/-- The published_at value handed to _normalize_ts: absent/None, a datetime,
or a string. -/
inductive TsVal where
  | none
  | dt (d : PyDateTime)
  | str (s : String)
deriving Repr

def endsWithZ (s : String) : Bool :=
  match s.data.getLast? with
  | some c => c = 'Z'
  | Option.none => false

def dropLastChar (s : String) : String := String.mk s.data.dropLast

/-- _normalize_ts: None becomes now; datetimes are converted to naive UTC and
serialized; strings are stripped, Z-expanded, parsed and re-serialized, with
unparseable strings returned unchanged. -/
def normalizeTs (nowDt : PyDateTime) (v : TsVal) : String :=
  match v with
  | TsVal.none => isoformat nowDt
  | TsVal.dt d => isoformat (toNaiveUtc d)
  | TsVal.str s0 =>
    let s1 := pyStrip s0
    let s2 := if endsWithZ s1 then dropLastChar s1 ++ "+00:00" else s1
    match fromisoformat s2 with
    | some dt => isoformat (toNaiveUtc dt)
    | Option.none => s0

/-- The sentiment value on an incoming signal: absent (get default 0.0),
numeric, or a textual label. -/
inductive SentVal where
  | missing
  | num (x : ℝ)
  | label (s : String)

/-- The sentiment conversion in insert_signals: numbers pass through, labels
go through the fallback map, unknown labels map to 0.0. -/
noncomputable def sentimentValue : SentVal → ℝ
  | SentVal.missing => 0.0
  | SentVal.num x => x
  | SentVal.label s =>
    let k := String.mk (pyLower (pyStrip s).data)
    if k = "very_bearish" then -1.0
    else if k = "bearish" then -0.5
    else if k = "negative" then -0.5
    else if k = "neutral" then 0.0
    else if k = "positive" then 0.5
    else if k = "bullish" then 0.5
    else if k = "very_bullish" then 1.0
    else 0.0

/-- A signal dict as read by SQLiteStore.insert_signals. score is the numeric
score or absent (the 0.0 get-default; _as_float of non-numeric payloads also
falls back to the default). tags is the list shape (non-list tags were
already normalized upstream). -/
structure StoreSignal where
  title : String := ""
  url : String := ""
  source : String := "unknown"
  description : String := ""
  publishedAt : TsVal := TsVal.none
  score : Option ℝ := Option.none
  sentiment : SentVal := SentVal.missing
  ecosystem : String := ""
  tags : List String := []

/-- A row of the signals table. raw_json = json.dumps(s) is modelled by
keeping the serialized signal value itself. -/
structure StoredRow where
  title : String
  url : String
  source : String
  description : String
  publishedAt : String
  score : ℝ
  sentiment : ℝ
  ecosystem : String
  tags : List String
  rawJson : StoreSignal

/-- The signals table (insertion order = autoincrement id order). -/
structure Store where
  rows : List StoredRow := []

/-- SELECT 1 FROM signals WHERE url = ? LIMIT 1. -/
def urlExists (st : Store) (url : String) : Bool :=
  st.rows.any fun r => r.url = url

/-- The row built by one iteration of the insert_signals loop. -/
noncomputable def rowOf (nowDt : PyDateTime) (s : StoreSignal) : StoredRow :=
  { title := pyStrip s.title
    url := pyStrip s.url
    source := if pyStrip s.source = "" then "unknown" else pyStrip s.source
    description := s.description
    publishedAt := normalizeTs nowDt s.publishedAt
    score := s.score.getD 0.0
    sentiment := sentimentValue s.sentiment
    ecosystem := s.ecosystem
    tags := s.tags
    rawJson := s }

/-- Is a signal kept by the blank-title/url guard of insert_signals. -/
def keptByInsert (s : StoreSignal) : Bool :=
  decide (¬ (pyStrip s.title = "" ∨ pyStrip s.url = ""))

/-- One iteration of the insert_signals loop: skip blank title/url, skip an
already-present url, otherwise insert one row; returns the new state and the
contribution to the inserted counter. -/
noncomputable def insertOne (nowDt : PyDateTime) (st : Store) (s : StoreSignal) :
    Store × ℕ :=
  if pyStrip s.title = "" ∨ pyStrip s.url = "" then (st, 0)
  else if urlExists st (pyStrip s.url) then (st, 0)
  else ({ rows := st.rows ++ [rowOf nowDt s] }, 1)

/-- SQLiteStore.insert_signals: fold over the batch with the inserted
counter. -/
noncomputable def insertSignals (nowDt : PyDateTime) (st : Store) :
    List StoreSignal → Store × ℕ
  | [] => (st, 0)
  | s :: rest =>
    let p := insertOne nowDt st s
    let q := insertSignals nowDt p.1 rest
    (q.1, p.2 + q.2)

/-! ### Pipeline normalizer (engine/pipeline.py _normalize_signal) -/

/-- A raw adapter signal as seen by _normalize_signal: Option.none per field
models a missing dict key. -/
structure RawSignal where
  source : Option String := Option.none
  title : Option String := Option.none
  url : Option String := Option.none
  description : Option String := Option.none
  ecosystem : Option String := Option.none
  tags : Option (List String) := Option.none
  publishedAt : Option String := Option.none
  timestamp : Option PyDateTime := Option.none

/-- _normalize_signal: fill the defaults; a falsy published_at falls back to
the timestamp (tz dropped) or utcnow, serialized as ISO text. -/
def normalizeSignal (nowDt : PyDateTime) (r : RawSignal) : StoreSignal :=
  let fallback : String := match r.timestamp with
    | some d => isoformat (dropTz d)
    | Option.none => isoformat nowDt
  { title := r.title.getD "(untitled)"
    url := r.url.getD ""
    source := r.source.getD "unknown"
    description := r.description.getD ""
    ecosystem := r.ecosystem.getD ""
    tags := r.tags.getD []
    publishedAt := TsVal.str (match r.publishedAt with
      | some s => if s = "" then fallback else s
      | Option.none => fallback) }

/-! ### urllib model (urlparse, parse_qs, urlencode, quote/unquote)

The parts of CPython urllib.parse used by processing/deduplicator.py,
modelled over List Char.
-/

/-- urlsplit removes every tab, CR and LF before parsing. -/
def removeUnsafeBytes (cs : List Char) : List Char :=
  cs.filter fun c => !(c = '\t' || c = '\r' || c = '\n')

/-- scheme_chars: ASCII letters, digits and the three punctuation chars. -/
def isSchemeChar (c : Char) : Bool :=
  c.isAlpha || c.isDigit || c = '+' || c = '-' || c = '.'

/-- Index of the first occurrence of c at or after position start. -/
def findCharFrom (c : Char) (start : ℕ) (cs : List Char) : Option ℕ :=
  match findChar c (cs.drop start) with
  | some i => some (start + i)
  | Option.none => Option.none

/-- Index of the last occurrence of c, if any. -/
def rfindChar (c : Char) (cs : List Char) : Option ℕ :=
  match findChar c cs.reverse with
  | some i => some (cs.length - 1 - i)
  | Option.none => Option.none

/-- Split once at the first occurrence of c. -/
def splitOnceChar (c : Char) (cs : List Char) : Option (List Char × List Char) :=
  match findChar c cs with
  | some i => some (cs.take i, cs.drop (i + 1))
  | Option.none => Option.none

/-- urlsplit scheme detection: a leading alpha-started run of scheme chars
before the first colon (lowercased); no scheme otherwise. -/
def splitScheme (url : List Char) : List Char × List Char :=
  match findChar ':' url with
  | Option.none => ([], url)
  | some i =>
    if 0 < i then
      let pre := url.take i
      match pre with
      | [] => ([], url)
      | c :: _ =>
        if c.isAlpha && pre.all isSchemeChar then (pyLower pre, url.drop (i + 1))
        else ([], url)
    else ([], url)

def isNetlocDelim (c : Char) : Bool := c = '/' || c = '?' || c = '#'

/-- _splitnetloc: the netloc runs to the first of / ? # (or the end). -/
def splitNetloc (url : List Char) : List Char × List Char :=
  let netloc := url.takeWhile fun c => !isNetlocDelim c
  (netloc, url.drop netloc.length)

/-- urlsplit raises ValueError when exactly one of the brackets appears. -/
def bracketsOk (netloc : List Char) : Bool :=
  decide (('[' ∈ netloc) ↔ (']' ∈ netloc))

structure SplitParts where
  scheme : List Char
  netloc : List Char
  path : List Char
  query : List Char
  fragment : List Char
deriving DecidableEq, Repr

/-- urllib.parse.urlsplit; Option.none models the ValueError on bad
brackets. -/
def pyUrlsplit (url0 : List Char) : Option SplitParts :=
  let url1 := removeUnsafeBytes url0
  let p1 := splitScheme url1
  let p2 := if (p1.2.take 2) = ['/', '/'] then splitNetloc (p1.2.drop 2) else ([], p1.2)
  if !bracketsOk p2.1 then Option.none
  else
    let p3 := match splitOnceChar '#' p2.2 with
      | some q => q
      | Option.none => (p2.2, [])
    let p4 := match splitOnceChar '?' p3.1 with
      | some q => q
      | Option.none => (p3.1, [])
    some { scheme := p1.1, netloc := p2.1, path := p4.1, query := p4.2,
           fragment := p3.2 }

structure UrlParts where
  scheme : List Char
  netloc : List Char
  path : List Char
  params : List Char
  query : List Char
  fragment : List Char
deriving DecidableEq, Repr

/-- _splitparams: split at the first semicolon of the last path segment. -/
def splitParams (url : List Char) : List Char × List Char :=
  match rfindChar '/' url with
  | some ls =>
    (match findCharFrom ';' ls url with
     | some i => (url.take i, url.drop (i + 1))
     | Option.none => (url, []))
  | Option.none =>
    (match findChar ';' url with
     | some i => (url.take i, url.drop (i + 1))
     | Option.none => (url, []))

/-- urllib.parse.urlparse. -/
def pyUrlparse (url : List Char) : Option UrlParts :=
  match pyUrlsplit url with
  | Option.none => Option.none
  | some sp =>
    let pq := if ';' ∈ sp.path then splitParams sp.path else (sp.path, [])
    some { scheme := sp.scheme, netloc := sp.netloc, path := pq.1,
           params := pq.2, query := sp.query, fragment := sp.fragment }

/-- urlunsplit. -/
def urlunsplit (scheme netloc url query fragment : List Char) : List Char :=
  let url1 :=
    if netloc ≠ [] ∨ (url ≠ [] ∧ url.take 2 = ['/', '/']) then
      let url0 := if url ≠ [] ∧ url.take 1 ≠ ['/'] then '/' :: url else url
      '/' :: '/' :: (netloc ++ url0)
    else url
  let url2 := if scheme ≠ [] then scheme ++ ':' :: url1 else url1
  let url3 := if query ≠ [] then url2 ++ '?' :: query else url2
  if fragment ≠ [] then url3 ++ '#' :: fragment else url3

/-- urlunparse. -/
def urlunparse (p : UrlParts) : List Char :=
  let url := if p.params ≠ [] then p.path ++ ';' :: p.params else p.path
  urlunsplit p.scheme p.netloc url p.query p.fragment

/-- The composite params handling of a parse/unparse cycle on a path: the
conditional _splitparams of pyUrlparse followed by the semicolon rejoin of
urlunparse. -/
def reconstructParams (x : List Char) : List Char :=
  let pq := if ';' ∈ x then splitParams x else (x, [])
  if pq.2 ≠ [] then pq.1 ++ ';' :: pq.2 else pq.1

/-- _ALWAYS_SAFE of urllib.parse.quote. -/
def alwaysSafe (c : Char) : Bool :=
  c.isAlpha || c.isDigit || c = '_' || c = '.' || c = '-' || c = '~'

/-- UTF-8 encoding of one scalar value, as byte values. -/
def utf8Bytes (c : Char) : List ℕ :=
  let n := c.toNat
  if n < 128 then [n]
  else if n < 2048 then [192 + n / 64, 128 + n % 64]
  else if n < 65536 then [224 + n / 4096, 128 + n / 64 % 64, 128 + n % 64]
  else [240 + n / 262144, 128 + n / 4096 % 64, 128 + n / 64 % 64, 128 + n % 64]

def hexDigitUpper (n : ℕ) : Char :=
  if n < 10 then Char.ofNat (48 + n) else Char.ofNat (55 + n)

def pctEncodeByte (b : ℕ) : List Char := ['%', hexDigitUpper (b / 16), hexDigitUpper (b % 16)]

/-- urllib.parse.quote with a safe set: safe and always-safe characters pass,
everything else is %XX-encoded bytewise over UTF-8. -/
def quoteWith (safe : List Char) (s : List Char) : List Char :=
  s.flatMap fun c =>
    if alwaysSafe c || c ∈ safe then [c]
    else (utf8Bytes c).flatMap pctEncodeByte

/-- urllib.parse.quote_plus with safe = the empty string (as in urlencode). -/
def quotePlus (s : List Char) : List Char :=
  if ' ' ∈ s then (quoteWith [' '] s).map fun c => if c = ' ' then '+' else c
  else quoteWith [] s

def isHexDigitCh (c : Char) : Bool :=
  c.isDigit || ('a' ≤ c && c ≤ 'f') || ('A' ≤ c && c ≤ 'F')

def hexVal (c : Char) : ℕ :=
  if c.isDigit then c.toNat - 48
  else if 'a' ≤ c && c ≤ 'f' then c.toNat - 87
  else c.toNat - 55

/-- The percent scan of unquote: ASCII characters become bytes (with valid
%XX triples collapsed to one byte), non-ASCII characters pass through. -/
def pctScan : List Char → List (Sum ℕ Char)
  | [] => []
  | c :: rest =>
    if c = '%' then
      match rest with
      | c1 :: c2 :: rest2 =>
        if isHexDigitCh c1 && isHexDigitCh c2 then
          Sum.inl (16 * hexVal c1 + hexVal c2) :: pctScan rest2
        else Sum.inl 37 :: pctScan (c1 :: c2 :: rest2)
      | [c1] => Sum.inl 37 :: pctScan [c1]
      | [] => [Sum.inl 37]
    else (if c.toNat < 128 then Sum.inl c.toNat else Sum.inr c) :: pctScan rest
termination_by l => l.length

def replChar : Char := Char.ofNat 65533

def contByte (b : ℕ) : Bool := 128 ≤ b && b ≤ 191

/-- UTF-8 decoding with errors="replace": valid sequences decode, anything
else contributes a U+FFFD per maximal invalid subpart. -/
def utf8DecodeReplace : List ℕ → List Char
  | [] => []
  | b :: rest =>
    if b < 128 then Char.ofNat b :: utf8DecodeReplace rest
    else if 194 ≤ b && b ≤ 223 then
      match rest with
      | b1 :: rest2 =>
        if contByte b1 then
          Char.ofNat ((b - 192) * 64 + (b1 - 128)) :: utf8DecodeReplace rest2
        else replChar :: utf8DecodeReplace (b1 :: rest2)
      | [] => [replChar]
    else if 224 ≤ b && b ≤ 239 then
      match rest with
      | b1 :: rest2 =>
        if (if b = 224 then 160 else 128) ≤ b1 &&
            b1 ≤ (if b = 237 then 159 else 191) then
          match rest2 with
          | b2 :: rest3 =>
            if contByte b2 then
              Char.ofNat ((b - 224) * 4096 + (b1 - 128) * 64 + (b2 - 128)) ::
                utf8DecodeReplace rest3
            else replChar :: utf8DecodeReplace (b2 :: rest3)
          | [] => [replChar]
        else replChar :: utf8DecodeReplace (b1 :: rest2)
      | [] => [replChar]
    else if 240 ≤ b && b ≤ 244 then
      match rest with
      | b1 :: rest2 =>
        if (if b = 240 then 144 else 128) ≤ b1 &&
            b1 ≤ (if b = 244 then 143 else 191) then
          match rest2 with
          | b2 :: rest3 =>
            if contByte b2 then
              match rest3 with
              | b3 :: rest4 =>
                if contByte b3 then
                  Char.ofNat ((b - 240) * 262144 + (b1 - 128) * 4096 +
                    (b2 - 128) * 64 + (b3 - 128)) :: utf8DecodeReplace rest4
                else replChar :: utf8DecodeReplace (b3 :: rest4)
              | [] => [replChar]
            else replChar :: utf8DecodeReplace (b2 :: rest3)
          | [] => [replChar]
        else replChar :: utf8DecodeReplace (b1 :: rest2)
      | [] => [replChar]
    else replChar :: utf8DecodeReplace rest
termination_by l => l.length

/-- Decode the percent scan: byte runs are UTF-8-decoded with replacement,
non-ASCII characters pass through (the ASCII-run splitting of unquote). -/
def decodeScanAux : List ℕ → List (Sum ℕ Char) → List Char
  | acc, [] => utf8DecodeReplace acc.reverse
  | acc, Sum.inl b :: rest => decodeScanAux (b :: acc) rest
  | acc, Sum.inr c :: rest => utf8DecodeReplace acc.reverse ++ c :: decodeScanAux [] rest

/-- urllib.parse.unquote (utf-8, errors="replace"). -/
def pyUnquote (s : List Char) : List Char := decodeScanAux [] (pctScan s)

/-- urllib.parse.unquote_plus. -/
def unquotePlus (s : List Char) : List Char :=
  pyUnquote (s.map fun c => if c = '+' then ' ' else c)

/-- Python str.split(sep) for a one-character separator. -/
def splitOnChar (c : Char) : List Char → List (List Char)
  | [] => [[]]
  | d :: rest =>
    if d = c then [] :: splitOnChar c rest
    else match splitOnChar c rest with
      | [] => [[d]]
      | g :: gs => (d :: g) :: gs

/-- One name=value chunk of parse_qsl (keep_blank_values=False): empty
chunks, chunks without '=', and blank values are all skipped; names and
values are unquote_plus-decoded. -/
def qslPiece (nv : List Char) : Option (List Char × List Char) :=
  if nv.isEmpty then Option.none
  else match splitOnceChar '=' nv with
    | Option.none => Option.none
    | some p =>
      if p.2.isEmpty then Option.none
      else some (unquotePlus p.1, unquotePlus p.2)

/-- urllib.parse.parse_qsl with keep_blank_values=False. -/
def parseQsl (qs : List Char) : List (List Char × List Char) :=
  (splitOnChar '&' qs).filterMap qslPiece

/-- dict aggregation of parse_qs: values grouped per key, insertion order. -/
def addToDict (d : List (List Char × List (List Char))) (k v : List Char) :
    List (List Char × List (List Char)) :=
  match d with
  | [] => [(k, [v])]
  | (k0, vs) :: rest =>
    if k0 = k then (k0, vs ++ [v]) :: rest
    else (k0, vs) :: addToDict rest k v

/-- urllib.parse.parse_qs (keep_blank_values=False). -/
def parseQs (qs : List Char) : List (List Char × List (List Char)) :=
  (parseQsl qs).foldl (fun d p => addToDict d p.1 p.2) []

/-- _STRIP_PARAMS of processing/deduplicator.py. -/
def stripParamsList : List String :=
  ["utm_source", "utm_medium", "utm_campaign", "utm_content", "utm_term",
   "fbclid", "gclid", "msclkid", "mc_cid", "mc_eid",
   "ref", "referer", "source", "_ga", "igshid"]

/-- k.lower() in _STRIP_PARAMS. -/
def isStripParam (k : List Char) : Bool :=
  stripParamsList.any fun p => p.data = pyLower k

/-- Code-point lexicographic string comparison (Python str ordering). -/
def lexLeCh : List Char → List Char → Bool
  | [], _ => true
  | _ :: _, [] => false
  | a :: as, b :: bs => if a = b then lexLeCh as bs else decide (a < b)

/-- Stable insertion into a key-sorted association list. -/
def orderedInsertQs (p : List Char × List (List Char)) :
    List (List Char × List (List Char)) → List (List Char × List (List Char))
  | [] => [p]
  | q :: rest =>
    if lexLeCh p.1 q.1 then p :: q :: rest else q :: orderedInsertQs p rest

/-- sorted(clean_qs.items()): a stable sort by key (keys are unique, so the
tuple comparison never reaches the values). -/
def sortQs : List (List Char × List (List Char)) → List (List Char × List (List Char))
  | [] => []
  | p :: rest => orderedInsertQs p (sortQs rest)

/-- Python "&".join. -/
def joinAmp : List (List Char) → List Char
  | [] => []
  | [x] => x
  | x :: xs => x ++ '&' :: joinAmp xs

/-- urllib.parse.urlencode(items, doseq=True) over string-list values. -/
def urlencodeSorted (items : List (List Char × List (List Char))) : List Char :=
  joinAmp (items.flatMap fun p => p.2.map fun v => quotePlus p.1 ++ '=' :: quotePlus v)

/-- processing/deduplicator.py normalize_url: drop tracking params and the
fragment, re-encode the remaining query sorted by key; parse failures return
the input unchanged. -/
def normalizeUrl (url : String) : String :=
  if url = "" then url
  else
    match pyUrlparse url.data with
    | Option.none => url
    | some p =>
      let cleanQs := (parseQs p.query).filter fun kv => !isStripParam kv.1
      let newQuery := urlencodeSorted (sortQs cleanQs)
      String.mk (urlunparse { p with query := newQuery, fragment := [] })

/-! ### Deduplicator model (processing/deduplicator.py) -/

/-- SHA-256 hex digest, modelled as an injective tag of the hashed text
(the ideal collision-free hash); the code only ever compares digests for
equality. -/
def sha256Hex (s : List Char) : List Char := s

/-- A signal dict as read by the Deduplicator. -/
structure DedupSignal where
  tweetId : Option String := Option.none
  id : Option String := Option.none
  repoId : Option String := Option.none
  source : String := "unknown"
  url : String := ""
  title : String := ""
  description : String := ""
  dedupKey : Option String := Option.none
  contentHash : Option String := Option.none
deriving DecidableEq, Repr

/-- Truthiness of an optional string: absent/None and "" are falsy. -/
def truthyStr : Option String → Option String
  | some s => if s = "" then Option.none else some s
  | Option.none => Option.none

/-- Deduplicator.key: a stable external id (tweet_id, id, repo_id in order),
else the normalized url, else the first 400 chars of title+description, all
namespaced by source. -/
def dedupKeyOf (s : DedupSignal) : String :=
  match truthyStr s.tweetId with
  | some v => s.source ++ ":" ++ String.mk (sha256Hex v.data)
  | Option.none =>
  match truthyStr s.id with
  | some v => s.source ++ ":" ++ String.mk (sha256Hex v.data)
  | Option.none =>
  match truthyStr s.repoId with
  | some v => s.source ++ ":" ++ String.mk (sha256Hex v.data)
  | Option.none =>
    let normUrl := normalizeUrl s.url
    if normUrl ≠ "" then s.source ++ ":" ++ String.mk (sha256Hex normUrl.data)
    else s.source ++ ":" ++
      String.mk (sha256Hex ((s.title ++ s.description).data.take 400))

/-- content_hash: first 300 chars of stripped+lowercased title-space-
description, hashed. -/
def contentHashOf (s : DedupSignal) : String :=
  let title := pyLower (pyStrip s.title).data
  let desc := pyLower (pyStrip s.description).data
  String.mk (sha256Hex ((title ++ ' ' :: desc).take 300))

/-- The store handle as the Deduplicator uses it: content_hash_exists
returns a boolean or raises (Except.error). -/
structure DedupStoreIface where
  contentHashExists : String → Except Unit Bool

/-- The methods defined on storage/sqlite_store.py SQLiteStore. -/
def sqliteStoreMethods : List String :=
  ["__init__", "_init_db", "_ensure_signals_schema_compat", "_migrate",
   "insert_signals", "get_signals_since", "purge_older_than",
   "set_last_run", "get_last_run", "get_manual_run_count",
   "increment_manual_run_count"]

/-- The handle the pipeline passes to Deduplicator(store=store): attribute
lookup of content_hash_exists on an SQLiteStore instance. The name is not
among the class methods, so every call raises AttributeError. -/
def sqliteStoreIface (_st : Store) : DedupStoreIface :=
  { contentHashExists := fun _ =>
      if "content_hash_exists" ∈ sqliteStoreMethods then
        Except.ok false
      else Except.error () }

/-- Deduplicator instance state (seen_urls is initialized by __init__ but
never consulted by dedup). -/
structure DedupState where
  seenKeys : List String := []
  seenUrls : List String := []
  seenHashes : List String := []
  droppedUrl : ℕ := 0
  droppedContent : ℕ := 0
deriving DecidableEq, Repr

/-- One iteration of the Deduplicator.dedup loop. -/
def dedupStep (store : Option DedupStoreIface) (st : DedupState)
    (s0 : DedupSignal) : DedupState × Option DedupSignal :=
  let norm := normalizeUrl s0.url
  let s := if norm ≠ s0.url then { s0 with url := norm } else s0
  let k := dedupKeyOf s
  if k ∈ st.seenKeys then
    ({ st with droppedUrl := st.droppedUrl + 1 }, Option.none)
  else
    let st1 := { st with seenKeys := k :: st.seenKeys }
    let ch := contentHashOf s
    if ch ∈ st1.seenHashes then
      ({ st1 with droppedContent := st1.droppedContent + 1 }, Option.none)
    else
      let st2 := { st1 with seenHashes := ch :: st1.seenHashes }
      let persistentDrop :=
        match store with
        | Option.none => false
        | some iface =>
          match iface.contentHashExists ch with
          | Except.ok b => b
          | Except.error _ => false
      if persistentDrop then
        ({ st2 with droppedContent := st2.droppedContent + 1 }, Option.none)
      else
        (st2, some { s with dedupKey := some k, contentHash := some ch })

/-- The Deduplicator.dedup loop over a batch. -/
def dedupList (store : Option DedupStoreIface) (st : DedupState) :
    List DedupSignal → DedupState × List DedupSignal
  | [] => (st, [])
  | s :: rest =>
    let p := dedupStep store st s
    let q := dedupList store p.1 rest
    (q.1, match p.2 with
      | some kept => kept :: q.2
      | Option.none => q.2)

/-- Deduplicator(store=store).dedup(signals) on a fresh instance. -/
def dedupRun (store : Option DedupStoreIface) (sigs : List DedupSignal) :
    DedupState × List DedupSignal :=
  dedupList store {} sigs

/-! ### Pipeline orchestration model (engine/pipeline.py run_pipeline) -/

inductive PyError where
  | attributeError (cls attr : String)
  | typeError (msg : String)
deriving DecidableEq, Repr

/-- The methods defined on processing/feature_engine.py FeatureEngine. -/
def featureEngineMethods : List String :=
  ["__init__", "_extract_text_features", "_extract_temporal_features",
   "_extract_engagement_features", "_extract_account_features",
   "_extract_content_features", "_extract_ecosystem_features",
   "extract_features", "extract_batch", "to_feature_vector",
   "get_feature_names"]

/-- The methods defined on processing/signal_ranker.py SignalRanker. -/
def signalRankerMethods : List String :=
  ["__init__", "_detect_tags", "_recency_score", "_source_weight",
   "_sector_weight", "_ecosystem_weight", "_engagement_score", "score",
   "rank_batch"]

/-- The methods defined on processing/sentiment_analyzer.py
SentimentAnalyzer. -/
def sentimentAnalyzerMethods : List String :=
  ["__init__", "add_sentiment", "analyze", "_add_one"]

/-- getattr on an instance of a class with the given method table. -/
def getattrCheck (methods : List String) (cls attr : String) :
    Except PyError Unit :=
  if attr ∈ methods then Except.ok ()
  else Except.error (PyError.attributeError cls attr)

/-- One adapter invocation handed to the fan-out: its ingest either returns
items or raises. -/
structure IngestOutcome where
  name : String
  result : Except String (List DedupSignal)

/-- _run_ingester_timed: an adapter exception is caught and converted to zero
items plus an error entry (wall-clock timing not modelled). -/
def runIngesterTimed (r : IngestOutcome) :
    String × List DedupSignal × Option String :=
  match r.result with
  | Except.ok items => (r.name, items, Option.none)
  | Except.error e => (r.name, [], some e)

structure PipelineSummary where
  ingestionCounts : List (String × ℕ)
  totalSeen : ℕ
  kept : ℕ
  inserted : ℕ
deriving DecidableEq, Repr

/-- run_pipeline after the HTTP session is constructed: gather all adapters
(each exception contained), merge the outputs, apply the shape-filling
normalizer (pure; the merged list is carried in its dedup view), dedup
against the store, then call fe.enrich, sa.add_sentiment and ranker.rank via
attribute lookup. FeatureEngine defines no enrich and SignalRanker defines no
rank, so the stage after dedup raises AttributeError; the summary
construction and store insert that follow in the source are not reached. -/
def runPipelineModel (st : Store) (ingesters : List IngestOutcome) :
    Except PyError PipelineSummary := do
  let results := ingesters.map runIngesterTimed
  let rawSignals := results.foldl (fun acc r => acc ++ r.2.1) []
  let totalSeen := rawSignals.length
  let dedupRes := dedupRun (some (sqliteStoreIface st)) rawSignals
  let deduped := dedupRes.2
  let _ ← if deduped.isEmpty then Except.ok ()
    else getattrCheck featureEngineMethods "FeatureEngine" "enrich"
  let _ ← getattrCheck sentimentAnalyzerMethods "SentimentAnalyzer" "add_sentiment"
  let _ ← getattrCheck signalRankerMethods "SignalRanker" "rank"
  pure { ingestionCounts := results.map fun r => (r.1, r.2.1.length)
         totalSeen := totalSeen
         kept := deduped.length
         inserted := 0 }

/-! ### get_signals_since call compatibility (C3) -/

/-- The parameter list of SQLiteStore.get_signals_since as defined. -/
def getSignalsSinceParams : List String := ["self", "since"]

/-- A call shape: number of positional arguments and keyword names. -/
structure PyCall where
  numPositional : ℕ
  keywordNames : List String
deriving DecidableEq, Repr

/-- CPython argument binding for a plain def (no *args/**kwargs): excess
positional arguments or a keyword naming no parameter raise TypeError. -/
def bindCall (params : List String) (c : PyCall) : Except PyError Unit :=
  if params.length < c.numPositional then
    Except.error (PyError.typeError "too many positional arguments")
  else if c.keywordNames.any (fun k => !params.contains k) then
    Except.error (PyError.typeError "got an unexpected keyword argument")
  else Except.ok ()

/-! ### Funding since-window filter (ingestion/api_sources.py) -/

/-- _iso_or_none: None stays None; strings are stripped with "" becoming
None; epoch numbers become UTC ISO text with a Z suffix. -/
def isoOrNone : PyVal → Option String
  | PyVal.none => Option.none
  | PyVal.str s => let t := pyStrip s; if t = "" then Option.none else some t
  | PyVal.int n => some (isoformat (utcfromtimestamp n) ++ "Z")

/-- The date handling of one funding raise record in
funding_from_defillama_raises: a 10-character published value parses as a
date-only datetime (start of day), anything else is Z-expanded, parsed and
has its offset dropped; the record is kept iff not (dt < since); a parse
failure skips the record (Option.none). -/
def fundingKeptOfPublished (since : PyDateTime) (publishedAt : String) :
    Option Bool :=
  if publishedAt.length = 10 then
    match fromisoformat publishedAt with
    | some dt => some (!dtLt dt since)
    | Option.none => Option.none
  else
    match fromisoformat (replaceZ publishedAt) with
    | some dt => some (!dtLt (dropTz dt) since)
    | Option.none => Option.none

/-- published_at = _iso_or_none(r.get("date")) or _iso_or_none(
r.get("announcedAt")); records without either are skipped. -/
def fundingRecordKept (since : PyDateTime) (date announcedAt : PyVal) :
    Option Bool :=
  match isoOrNone date with
  | some p => fundingKeptOfPublished since p
  | Option.none =>
    match isoOrNone announcedAt with
    | some p => fundingKeptOfPublished since p
    | Option.none => Option.none

instance instTotalByScore :
    IsTotal Signal (fun a b => sortKeyScore b ≤ sortKeyScore a) :=
  ⟨fun a b => le_total (sortKeyScore b) (sortKeyScore a)⟩

instance instTransByScore :
    IsTrans Signal (fun a b => sortKeyScore b ≤ sortKeyScore a) :=
  ⟨fun _ _ _ h1 h2 => le_trans h2 h1⟩

/-- The first match returned by the detection loop is a maximal-weight match
whenever the table is ordered by non-increasing weight. -/
theorem detectFirst_max (w : String → ℝ) (t : List Char) :
    ∀ table : List (String × List String),
      table.Pairwise (fun p q => w q.1 ≤ w p.1) →
      (∃ p ∈ table, matchesAny p.2 t = true) →
      (∃ p ∈ table, p.1 = detectFirst table t ∧ matchesAny p.2 t = true) ∧
      (∀ p ∈ table, matchesAny p.2 t = true → w p.1 ≤ w (detectFirst table t)) := by
  intro table
  induction table with
  | nil => intro _ h; simp at h
  | cons hd tl ih =>
    intro hord hex
    rw [List.pairwise_cons] at hord
    by_cases h : matchesAny hd.2 t = true
    · have hd_eq : detectFirst (hd :: tl) t = hd.1 := by
        simp [detectFirst, List.find?_cons_of_pos, h]
      refine ⟨⟨hd, by simp, hd_eq.symm, h⟩, ?_⟩
      intro p hp hm
      rw [hd_eq]
      rcases List.mem_cons.mp hp with rfl | hp
      · exact le_refl _
      · exact hord.1 p hp
    · have hd_eq : detectFirst (hd :: tl) t = detectFirst tl t := by
        simp [detectFirst, List.find?_cons_of_neg, h]
      have hex2 : ∃ p ∈ tl, matchesAny p.2 t = true := by
        rcases hex with ⟨p, hp, hm⟩
        rcases List.mem_cons.mp hp with rfl | hp
        · exact absurd hm h
        · exact ⟨p, hp, hm⟩
      obtain ⟨h1, h2⟩ := ih hord.2 hex2
      refine ⟨?_, ?_⟩
      · rcases h1 with ⟨p, hp, he, hm⟩
        exact ⟨p, List.mem_cons_of_mem _ hp, by rw [hd_eq]; exact he, hm⟩
      · intro p hp hm
        rw [hd_eq]
        rcases List.mem_cons.mp hp with rfl | hp
        · exact absurd hm h
        · exact h2 p hp hm

theorem ecoW_ethereum : ecosystemWeight (some "ethereum_l2s") = 1.0 := by rfl

theorem ecoW_solana : ecosystemWeight (some "solana") = 0.95 := by rfl

theorem ecoW_bitcoin : ecosystemWeight (some "bitcoin_l2s") = 0.95 := by rfl

theorem secW_defi : sectorWeight (some "defi") = 1.0 := by rfl

theorem secW_infrastructure : sectorWeight (some "infrastructure") = 0.95 := by rfl

theorem secW_ai : sectorWeight (some "ai_crypto") = 0.9 := by rfl

theorem secW_gaming : sectorWeight (some "gaming") = 0.6 := by rfl

theorem secW_nft : sectorWeight (some "nft") = 0.5 := by rfl

theorem ecoTable_sorted :
    ecosystemKeywords.Pairwise
      (fun p q => ecosystemWeight (some q.1) ≤ ecosystemWeight (some p.1)) := by
  refine List.Pairwise.cons ?_ (List.Pairwise.cons ?_ ?_)
  · intro q hq
    rcases List.mem_cons.mp hq with rfl | hq2
    · show ecosystemWeight (some "solana") ≤ ecosystemWeight (some "ethereum_l2s")
      rw [ecoW_solana, ecoW_ethereum]; norm_num
    · obtain rfl := List.mem_singleton.mp hq2
      show ecosystemWeight (some "bitcoin_l2s") ≤ ecosystemWeight (some "ethereum_l2s")
      rw [ecoW_bitcoin, ecoW_ethereum]; norm_num
  · intro q hq
    obtain rfl := List.mem_singleton.mp hq
    show ecosystemWeight (some "bitcoin_l2s") ≤ ecosystemWeight (some "solana")
    rw [ecoW_bitcoin, ecoW_solana]
  · exact List.pairwise_singleton _ _

theorem sectorTable_sorted :
    sectorKeywords.Pairwise
      (fun p q => sectorWeight (some q.1) ≤ sectorWeight (some p.1)) := by
  refine List.Pairwise.cons ?_
    (List.Pairwise.cons ?_ (List.Pairwise.cons ?_ (List.Pairwise.cons ?_ ?_)))
  · intro q hq
    rcases List.mem_cons.mp hq with rfl | hq2
    · show sectorWeight (some "infrastructure") ≤ sectorWeight (some "defi")
      rw [secW_infrastructure, secW_defi]; norm_num
    rcases List.mem_cons.mp hq2 with rfl | hq3
    · show sectorWeight (some "ai_crypto") ≤ sectorWeight (some "defi")
      rw [secW_ai, secW_defi]; norm_num
    rcases List.mem_cons.mp hq3 with rfl | hq4
    · show sectorWeight (some "gaming") ≤ sectorWeight (some "defi")
      rw [secW_gaming, secW_defi]; norm_num
    obtain rfl := List.mem_singleton.mp hq4
    show sectorWeight (some "nft") ≤ sectorWeight (some "defi")
    rw [secW_nft, secW_defi]; norm_num
  · intro q hq
    rcases List.mem_cons.mp hq with rfl | hq2
    · show sectorWeight (some "ai_crypto") ≤ sectorWeight (some "infrastructure")
      rw [secW_ai, secW_infrastructure]; norm_num
    rcases List.mem_cons.mp hq2 with rfl | hq3
    · show sectorWeight (some "gaming") ≤ sectorWeight (some "infrastructure")
      rw [secW_gaming, secW_infrastructure]; norm_num
    obtain rfl := List.mem_singleton.mp hq3
    show sectorWeight (some "nft") ≤ sectorWeight (some "infrastructure")
    rw [secW_nft, secW_infrastructure]; norm_num
  · intro q hq
    rcases List.mem_cons.mp hq with rfl | hq2
    · show sectorWeight (some "gaming") ≤ sectorWeight (some "ai_crypto")
      rw [secW_gaming, secW_ai]; norm_num
    obtain rfl := List.mem_singleton.mp hq2
    show sectorWeight (some "nft") ≤ sectorWeight (some "ai_crypto")
    rw [secW_nft, secW_ai]; norm_num
  · intro q hq
    obtain rfl := List.mem_singleton.mp hq
    show sectorWeight (some "nft") ≤ sectorWeight (some "gaming")
    rw [secW_nft, secW_gaming]; norm_num
  · exact List.pairwise_singleton _ _

theorem ecoTable_no_unknown :
    ∀ p ∈ ecosystemKeywords, p.1 ≠ "unknown" := by
  decide

theorem sectorTable_no_unknown :
    ∀ p ∈ sectorKeywords, p.1 ≠ "unknown" := by
  decide

/-- C5: on a signal with no pre-existing tags, the tagging step assigns
detectFirst of each table, and whenever any candidate matches the text, the
assigned candidate is itself a match, is not the "unknown" fallback, and has
the highest multiplier weight among all matching candidates. -/
theorem tagging_assigns_highest_weight_match (s : Signal)
    (he : s.detectedEcosystem = Option.none) (hs : s.detectedSector = Option.none) :
    (detectTags s).detectedEcosystem = some (detectFirst ecosystemKeywords (tagText s)) ∧
    (detectTags s).detectedSector = some (detectFirst sectorKeywords (tagText s)) ∧
    ((∃ p ∈ ecosystemKeywords, matchesAny p.2 (tagText s) = true) →
      detectFirst ecosystemKeywords (tagText s) ≠ "unknown" ∧
      (∃ p ∈ ecosystemKeywords, p.1 = detectFirst ecosystemKeywords (tagText s) ∧
        matchesAny p.2 (tagText s) = true) ∧
      (∀ p ∈ ecosystemKeywords, matchesAny p.2 (tagText s) = true →
        ecosystemWeight (some p.1) ≤
          ecosystemWeight (some (detectFirst ecosystemKeywords (tagText s))))) ∧
    ((∃ p ∈ sectorKeywords, matchesAny p.2 (tagText s) = true) →
      detectFirst sectorKeywords (tagText s) ≠ "unknown" ∧
      (∃ p ∈ sectorKeywords, p.1 = detectFirst sectorKeywords (tagText s) ∧
        matchesAny p.2 (tagText s) = true) ∧
      (∀ p ∈ sectorKeywords, matchesAny p.2 (tagText s) = true →
        sectorWeight (some p.1) ≤
          sectorWeight (some (detectFirst sectorKeywords (tagText s))))) := by
  refine ⟨by simp [detectTags, he, pyOr], by simp [detectTags, hs, pyOr], ?_, ?_⟩
  · intro hex
    obtain ⟨h1, h2⟩ :=
      detectFirst_max (fun n => ecosystemWeight (some n)) (tagText s)
        ecosystemKeywords ecoTable_sorted hex
    refine ⟨?_, h1, h2⟩
    rcases h1 with ⟨p, hp, hpe, _⟩
    exact hpe ▸ ecoTable_no_unknown p hp
  · intro hex
    obtain ⟨h1, h2⟩ :=
      detectFirst_max (fun n => sectorWeight (some n)) (tagText s)
        sectorKeywords sectorTable_sorted hex
    refine ⟨?_, h1, h2⟩
    rcases h1 with ⟨p, hp, hpe, _⟩
    exact hpe ▸ sectorTable_no_unknown p hp

/-- Witness for C5: a concrete signal matching two ecosystem candidates
(solana and bitcoin_l2s) and two sector candidates (defi and ai_crypto). -/
theorem tagging_assigns_highest_weight_match_witness :
    ({ title := "Solana dex adds bitvm agent support" : Signal }.detectedEcosystem
        = Option.none) ∧
    (detectTags { title := "Solana dex adds bitvm agent support" : Signal }).detectedEcosystem
        = some (detectFirst ecosystemKeywords
            (tagText { title := "Solana dex adds bitvm agent support" : Signal })) := by
  refine ⟨rfl, ?_⟩
  exact (tagging_assigns_highest_weight_match
    { title := "Solana dex adds bitvm agent support" } rfl rfl).1

theorem sourceWeight_pos (s : String) : 0 < sourceWeight s := by
  unfold sourceWeight
  dsimp only
  split_ifs <;> norm_num

theorem ecosystemWeight_pos (e : Option String) : 0 < ecosystemWeight e := by
  unfold ecosystemWeight
  dsimp only
  split_ifs <;> norm_num

theorem sectorWeight_pos (s : Option String) : 0 < sectorWeight s := by
  unfold sectorWeight
  dsimp only
  split_ifs <;> norm_num

theorem recencyScore_pos (now : ℝ) (ts : Option ℝ) : 0 < recencyScore now ts := by
  cases ts with
  | none => norm_num [recencyScore]
  | some t => exact Real.exp_pos _

theorem recencyScore_mono (now t1 t2 : ℝ) (h : t1 ≤ t2) :
    recencyScore now (some t1) ≤ recencyScore now (some t2) := by
  simp only [recencyScore]
  apply Real.exp_le_exp.mpr
  have h1 : (now - t2) / 3600 ≤ (now - t1) / 3600 := by linarith
  have h2 : max ((now - t2) / 3600) 0 ≤ max ((now - t1) / 3600) 0 :=
    max_le_max h1 le_rfl
  linarith

theorem engagementScoreE_ok_nonneg (s : Signal) {v : ℝ}
    (h : engagementScoreE s = Except.ok v) : 0 ≤ v := by
  unfold engagementScoreE at h
  cases hr : rawEngagement s with
  | error e => rw [hr] at h; cases h
  | ok raw =>
    rw [hr] at h
    dsimp only at h
    by_cases hle : raw + 1 ≤ 0
    · rw [if_pos hle] at h; cases h
    · simp only [if_neg hle] at h
      have h1 : (1 : ℝ) ≤ (raw : ℝ) + 1 := by exact_mod_cast (by omega : (1 : ℤ) ≤ raw + 1)
      have h2 : 0 ≤ Real.logb 10 ((raw : ℝ) + 1) :=
        Real.logb_nonneg (by norm_num) h1
      have h3 : Real.logb 10 ((raw : ℝ) + 1) / 3 = v := by
        exact Except.ok.inj h
      rw [← h3]
      linarith

theorem combineScore_mono {r1 r2 e1 e2 src eco sec : ℝ} (hr : r1 ≤ r2) (he : e1 ≤ e2)
    (heco : 0 ≤ eco) (hsec : 0 ≤ sec) :
    combineScore r1 e1 src eco sec ≤ combineScore r2 e2 src eco sec := by
  unfold combineScore
  dsimp only
  have hb : 0.45 * r1 + 0.35 * e1 + 0.20 * src ≤ 0.45 * r2 + 0.35 * e2 + 0.20 * src := by
    linarith
  have hw : (0.45 * r1 + 0.35 * e1 + 0.20 * src) * eco * sec ≤
      (0.45 * r2 + 0.35 * e2 + 0.20 * src) * eco * sec :=
    mul_le_mul_of_nonneg_right (mul_le_mul_of_nonneg_right hb heco) hsec
  exact min_le_min (by linarith) le_rfl

theorem combineScore_bounds {r e src eco sec : ℝ} (hr : 0 ≤ r) (he : 0 ≤ e)
    (hsrc : 0 ≤ src) (heco : 0 ≤ eco) (hsec : 0 ≤ sec) :
    0 ≤ combineScore r e src eco sec ∧ combineScore r e src eco sec ≤ 100 := by
  unfold combineScore
  dsimp only
  constructor
  · apply le_min _ (by norm_num)
    have hb : 0 ≤ 0.45 * r + 0.35 * e + 0.20 * src := by linarith
    have := mul_nonneg (mul_nonneg (mul_nonneg hb heco) hsec) (by norm_num : (0:ℝ) ≤ 100)
    linarith [this]
  · exact min_le_right _ _

theorem roundTo2_mono {x y : ℝ} (h : x ≤ y) : roundTo2 x ≤ roundTo2 y := by
  unfold roundTo2
  have hr : round (x * 100) ≤ round (y * 100) := by
    rw [round_eq, round_eq]
    exact Int.floor_mono (by linarith)
  have hc : ((round (x * 100) : ℤ) : ℝ) ≤ ((round (y * 100) : ℤ) : ℝ) := by
    exact_mod_cast hr
  linarith

theorem roundTo2_bounds {x : ℝ} (h0 : 0 ≤ x) (h100 : x ≤ 100) :
    0 ≤ roundTo2 x ∧ roundTo2 x ≤ 100 := by
  unfold roundTo2
  constructor
  · have hz : (0 : ℤ) ≤ round (x * 100) := by
      rw [round_eq]
      have := Int.floor_mono (show (0 : ℝ) ≤ x * 100 + 1 / 2 by linarith)
      simpa using this
    have hc : (0 : ℝ) ≤ ((round (x * 100) : ℤ) : ℝ) := by exact_mod_cast hz
    linarith
  · have hle : ((round (x * 100) : ℤ) : ℝ) ≤ x * 100 + 1 / 2 := by
      rw [round_eq]
      exact Int.floor_le _
    have hlt : ((round (x * 100) : ℤ) : ℝ) < 10001 := by linarith
    have hi : round (x * 100) < 10001 := by exact_mod_cast hlt
    have h1 : round (x * 100) ≤ 10000 := by omega
    have hc : ((round (x * 100) : ℤ) : ℝ) ≤ 10000 := by exact_mod_cast h1
    linarith

/-- The second component of scoreSignal unfolded. -/
theorem scoreSignal_snd (now : ℝ) (sig : Signal) :
    (scoreSignal now sig).2 = (engagementScoreE (detectTags sig)).map fun engagement =>
      combineScore (recencyScore now (detectTags sig).timestamp) engagement
        (sourceWeight (detectTags sig).source)
        (ecosystemWeight (detectTags sig).detectedEcosystem)
        (sectorWeight (detectTags sig).detectedSector) := rfl

theorem assignedScore_bounds (now : ℝ) (sig : Signal) :
    0 ≤ assignedScore now sig ∧ assignedScore now sig ≤ 100 := by
  unfold assignedScore
  cases hs : (scoreSignal now sig).2 with
  | error e => norm_num
  | ok v =>
    rw [scoreSignal_snd] at hs
    cases he : engagementScoreE (detectTags sig) with
    | error e2 => rw [he] at hs; exact absurd hs (by simp [Except.map])
    | ok eng =>
      rw [he] at hs
      simp only [Except.map, Except.ok.injEq] at hs
      have hbounds := combineScore_bounds
        (le_of_lt (recencyScore_pos now (detectTags sig).timestamp))
        (engagementScoreE_ok_nonneg _ he)
        (le_of_lt (sourceWeight_pos (detectTags sig).source))
        (le_of_lt (ecosystemWeight_pos (detectTags sig).detectedEcosystem))
        (le_of_lt (sectorWeight_pos (detectTags sig).detectedSector))
      rw [← hs]
      exact roundTo2_bounds hbounds.1 hbounds.2

theorem scoreStep_signalScore (now : ℝ) (sig : Signal) :
    (scoreStep now sig).signalScore = some (assignedScore now sig) := rfl

/-- C8: after rank_batch, every signal carries a signal_score in [0, 100]
(the fallback 0.0 included), and the returned list is sorted in descending
order of signal_score. -/
theorem rankBatch_bounded_and_sorted (now : ℝ) (sigs : List Signal) :
    (∀ s ∈ rankBatch now sigs,
      ∃ v, s.signalScore = some v ∧ 0 ≤ v ∧ v ≤ 100) ∧
    List.Pairwise (fun a b => sortKeyScore b ≤ sortKeyScore a)
      (rankBatch now sigs) := by
  constructor
  · intro s hs
    have hmem : s ∈ sigs.map (scoreStep now) := by
      have hperm := List.perm_insertionSort
        (fun a b => sortKeyScore b ≤ sortKeyScore a) (sigs.map (scoreStep now))
      exact hperm.mem_iff.mp hs
    obtain ⟨x, _, rfl⟩ := List.mem_map.mp hmem
    obtain ⟨hb1, hb2⟩ := assignedScore_bounds now x
    exact ⟨assignedScore now x, scoreStep_signalScore now x, hb1, hb2⟩
  · exact List.sorted_insertionSort _ _

/-- C6: ranker monotonicity. With all else equal, a younger signal (larger
timestamp, hence smaller age) scores at least as high as an older one, and a
signal with pointwise higher engagement counters scores at least as high. -/
theorem score_monotone_age_and_engagement :
    (∀ (now : ℝ) (s : Signal) (t1 t2 : ℝ), t1 ≤ t2 →
      assignedScore now { s with timestamp := some t1 } ≤
        assignedScore now { s with timestamp := some t2 }) ∧
    (∀ (now : ℝ) (s : Signal) (l1 l2 r1 r2 p1 p2 u1 u2 f1 f2 : ℤ),
      l1 ≤ l2 → r1 ≤ r2 → p1 ≤ p2 → u1 ≤ u2 → f1 ≤ f2 →
      assignedScore now { s with
            likes := PyVal.int l1
            retweets := PyVal.int r1
            replies := PyVal.int p1
            stars := PyVal.int u1
            forks := PyVal.int f1 } ≤
        assignedScore now { s with
            likes := PyVal.int l2
            retweets := PyVal.int r2
            replies := PyVal.int p2
            stars := PyVal.int u2
            forks := PyVal.int f2 }) := by
  constructor
  · intro now s t1 t2 ht
    set s1 : Signal := { s with timestamp := some t1 } with hs1
    set s2 : Signal := { s with timestamp := some t2 } with hs2
    have heng : engagementScoreE (detectTags s1) = engagementScoreE (detectTags s2) := rfl
    unfold assignedScore
    rw [scoreSignal_snd, scoreSignal_snd, ← heng]
    cases he : engagementScoreE (detectTags s1) with
    | error e => simp [Except.map]
    | ok eng =>
      simp only [Except.map]
      apply roundTo2_mono
      have hrec : recencyScore now (detectTags s1).timestamp ≤
          recencyScore now (detectTags s2).timestamp := by
        have e1 : (detectTags s1).timestamp = some t1 := rfl
        have e2 : (detectTags s2).timestamp = some t2 := rfl
        rw [e1, e2]
        exact recencyScore_mono now t1 t2 ht
      have hdet1 : (detectTags s1).source = (detectTags s2).source := rfl
      have hdet2 : (detectTags s1).detectedEcosystem = (detectTags s2).detectedEcosystem := rfl
      have hdet3 : (detectTags s1).detectedSector = (detectTags s2).detectedSector := rfl
      rw [hdet1, hdet2, hdet3]
      exact combineScore_mono hrec le_rfl
        (le_of_lt (ecosystemWeight_pos _)) (le_of_lt (sectorWeight_pos _))
  · intro now s l1 l2 r1 r2 p1 p2 u1 u2 f1 f2 hl hr hp hu hf
    set s1 : Signal := { s with
        likes := PyVal.int l1
        retweets := PyVal.int r1
        replies := PyVal.int p1
        stars := PyVal.int u1
        forks := PyVal.int f1 } with hs1
    set s2 : Signal := { s with
        likes := PyVal.int l2
        retweets := PyVal.int r2
        replies := PyVal.int p2
        stars := PyVal.int u2
        forks := PyVal.int f2 } with hs2
    have hraw1 : rawEngagement (detectTags s1) =
        Except.ok (l1 + 2 * r1 + p1 + 5 * u1 + 3 * f1) := rfl
    have hraw2 : rawEngagement (detectTags s2) =
        Except.ok (l2 + 2 * r2 + p2 + 5 * u2 + 3 * f2) := rfl
    have hrawle : l1 + 2 * r1 + p1 + 5 * u1 + 3 * f1 ≤
        l2 + 2 * r2 + p2 + 5 * u2 + 3 * f2 := by linarith
    by_cases hneg : l1 + 2 * r1 + p1 + 5 * u1 + 3 * f1 + 1 ≤ 0
    · have h1 : (scoreSignal now s1).2 = Except.error () := by
        rw [scoreSignal_snd]
        unfold engagementScoreE
        rw [hraw1]
        dsimp only
        rw [if_pos hneg]
        rfl
      have hz : assignedScore now s1 = 0 := by
        unfold assignedScore
        rw [h1]
      rw [hz]
      exact (assignedScore_bounds now s2).1
    · have hpos2 : ¬ (l2 + 2 * r2 + p2 + 5 * u2 + 3 * f2 + 1 ≤ 0) := by omega
      unfold assignedScore
      rw [scoreSignal_snd, scoreSignal_snd]
      unfold engagementScoreE
      rw [hraw1, hraw2]
      dsimp only
      rw [if_neg hneg, if_neg hpos2]
      simp only [Except.map]
      apply roundTo2_mono
      have heng : Real.logb 10 ((l1 + 2 * r1 + p1 + 5 * u1 + 3 * f1 : ℤ) + 1 : ℝ) / 3 ≤
          Real.logb 10 ((l2 + 2 * r2 + p2 + 5 * u2 + 3 * f2 : ℤ) + 1 : ℝ) / 3 := by
        have hx : (0 : ℝ) < ((l1 + 2 * r1 + p1 + 5 * u1 + 3 * f1 : ℤ) : ℝ) + 1 := by
          exact_mod_cast (by omega : (0 : ℤ) < l1 + 2 * r1 + p1 + 5 * u1 + 3 * f1 + 1)
        have hxy : ((l1 + 2 * r1 + p1 + 5 * u1 + 3 * f1 : ℤ) : ℝ) + 1 ≤
            ((l2 + 2 * r2 + p2 + 5 * u2 + 3 * f2 : ℤ) : ℝ) + 1 := by
          have := hrawle
          have hc : ((l1 + 2 * r1 + p1 + 5 * u1 + 3 * f1 : ℤ) : ℝ) ≤
              ((l2 + 2 * r2 + p2 + 5 * u2 + 3 * f2 : ℤ) : ℝ) := by exact_mod_cast this
          linarith
        have hlog := Real.logb_le_logb_of_le (by norm_num : (1 : ℝ) < 10) hx hxy
        linarith
      exact combineScore_mono le_rfl heng
        (le_of_lt (ecosystemWeight_pos _)) (le_of_lt (sectorWeight_pos _))

/-- Witness for C6: a news signal aged two hours against one aged one hour,
and unit engagement counters against doubled ones. -/
theorem score_monotone_age_and_engagement_witness :
    (assignedScore 0 { ({ source := "news" } : Signal) with timestamp := some (-7200) } ≤
      assignedScore 0 { ({ source := "news" } : Signal) with timestamp := some (-3600) }) ∧
    (assignedScore 0 { ({ source := "news" } : Signal) with
          likes := PyVal.int 1
          retweets := PyVal.int 1
          replies := PyVal.int 1
          stars := PyVal.int 1
          forks := PyVal.int 1 } ≤
      assignedScore 0 { ({ source := "news" } : Signal) with
          likes := PyVal.int 2
          retweets := PyVal.int 2
          replies := PyVal.int 2
          stars := PyVal.int 2
          forks := PyVal.int 2 }) := by
  constructor
  · exact score_monotone_age_and_engagement.1 0 { source := "news" }
      (-7200) (-3600) (by norm_num)
  · exact score_monotone_age_and_engagement.2 0 { source := "news" }
      1 2 1 2 1 2 1 2 1 2
      (by norm_num) (by norm_num) (by norm_num) (by norm_num) (by norm_num)

/-- C9: inserting the same signal twice is idempotent on the store: the first
call inserts it and returns 1, the second call is a silent no-op returning 0,
leaving the row count (and the rows themselves) unchanged. -/
theorem insert_same_signal_idempotent (nowDt : PyDateTime) (st : Store)
    (s : StoreSignal)
    (ht : pyStrip s.title ≠ "") (hu : pyStrip s.url ≠ "")
    (hnew : urlExists st (pyStrip s.url) = false) :
    (insertSignals nowDt st [s]).2 = 1 ∧
    (insertSignals nowDt (insertSignals nowDt st [s]).1 [s]).2 = 0 ∧
    (insertSignals nowDt (insertSignals nowDt st [s]).1 [s]).1 =
      (insertSignals nowDt st [s]).1 := by
  have hcond : ¬ (pyStrip s.title = "" ∨ pyStrip s.url = "") := by
    rintro (h | h)
    · exact ht h
    · exact hu h
  have hfirst : insertSignals nowDt st [s] =
      ({ rows := st.rows ++ [rowOf nowDt s] }, 1) := by
    simp [insertSignals, insertOne, hcond, hnew]
  have hdup : urlExists { rows := st.rows ++ [rowOf nowDt s] } (pyStrip s.url) = true := by
    simp [urlExists, rowOf]
  have hsecond : insertSignals nowDt ({ rows := st.rows ++ [rowOf nowDt s] } : Store) [s] =
      ({ rows := st.rows ++ [rowOf nowDt s] }, 0) := by
    simp [insertSignals, insertOne, hcond, hdup]
  rw [hfirst]
  simp [hsecond]

/-- Witness for C9: a concrete signal inserted twice into the empty store. -/
theorem insert_same_signal_idempotent_witness :
    (insertSignals ⟨2024, 1, 1, 0, 0, 0, 0, Option.none⟩ {}
      [{ title := "A", url := "https://a.com/p" }]).2 = 1 := by
  have h := insert_same_signal_idempotent ⟨2024, 1, 1, 0, 0, 0, 0, Option.none⟩ {}
    { title := "A", url := "https://a.com/p" }
    (by decide) (by decide) (by rfl)
  exact h.1

/-- C10: insert_signals silently skips every signal whose title or url is
blank after trimming (the batch behaves exactly like the batch with those
signals removed), and a signal that got the normalizer's default empty url
is never stored and contributes 0 with no error. -/
theorem insert_skips_blank_title_or_url :
    (∀ (nowDt : PyDateTime) (st : Store) (sigs : List StoreSignal),
      insertSignals nowDt st sigs =
        insertSignals nowDt st (sigs.filter keptByInsert)) ∧
    (∀ (nowDt nowDt2 : PyDateTime) (st : Store) (r : RawSignal),
      r.url = Option.none →
      (normalizeSignal nowDt2 r).url = "" ∧
      insertSignals nowDt st [normalizeSignal nowDt2 r] = (st, 0)) := by
  constructor
  · intro nowDt st sigs
    induction sigs generalizing st with
    | nil => rfl
    | cons s rest ih =>
      by_cases hv : (pyStrip s.title = "" ∨ pyStrip s.url = "")
      · have hk : keptByInsert s = false := by
          simp [keptByInsert, hv]
        have hskip : insertOne nowDt st s = (st, 0) := by
          simp [insertOne, hv]
        calc insertSignals nowDt st (s :: rest)
            = ((insertSignals nowDt st rest).1,
                0 + (insertSignals nowDt st rest).2) := by
              simp [insertSignals, hskip]
          _ = insertSignals nowDt st rest := by simp
          _ = insertSignals nowDt st (rest.filter keptByInsert) := ih st
          _ = insertSignals nowDt st ((s :: rest).filter keptByInsert) := by
              rw [List.filter_cons_of_neg (by simp [hk])]
      · have hk : keptByInsert s = true := by
          simp [keptByInsert, hv]
        have hstep : ∀ (st2 : Store) (l : List StoreSignal),
            insertSignals nowDt st2 (s :: l) =
            ((insertSignals nowDt (insertOne nowDt st2 s).1 l).1,
             (insertOne nowDt st2 s).2 +
               (insertSignals nowDt (insertOne nowDt st2 s).1 l).2) := by
          intro st2 l
          simp [insertSignals]
        rw [hstep st rest, List.filter_cons_of_pos (by simp [hk]),
          hstep st (rest.filter keptByInsert), ih]
  · intro nowDt nowDt2 st r hr
    have hurl : (normalizeSignal nowDt2 r).url = "" := by
      simp [normalizeSignal, hr]
    refine ⟨hurl, ?_⟩
    have hskip : insertOne nowDt st (normalizeSignal nowDt2 r) = (st, 0) := by
      have : pyStrip (normalizeSignal nowDt2 r).url = "" := by rw [hurl]; rfl
      simp [insertOne, this]
    simp [insertSignals, hskip]

/-- Witness for C10: a raw signal with a title but no url is normalized to an
empty url and never stored. -/
theorem insert_skips_blank_title_or_url_witness :
    (normalizeSignal ⟨2024, 1, 1, 0, 0, 0, 0, Option.none⟩
      { title := some "T" }).url = "" ∧
    insertSignals ⟨2024, 1, 2, 0, 0, 0, 0, Option.none⟩ {}
      [normalizeSignal ⟨2024, 1, 1, 0, 0, 0, 0, Option.none⟩ { title := some "T" }] =
      ({}, 0) :=
  insert_skips_blank_title_or_url.2 ⟨2024, 1, 2, 0, 0, 0, 0, Option.none⟩
    ⟨2024, 1, 1, 0, 0, 0, 0, Option.none⟩ {} { title := some "T" } rfl

theorem sqliteIface_always_raises (st : Store) (ch : String) :
    (sqliteStoreIface st).contentHashExists ch = Except.error () := by
  simp [sqliteStoreIface, sqliteStoreMethods]

/-- C2 evaluation: dedup bound to the real SQLiteStore behaves exactly like
dedup with no store at all — whatever previous runs put in the store, the
persistent near-duplicate check never drops a signal (content_hash_exists
does not exist on SQLiteStore; the AttributeError is swallowed and the
signal treated as not a duplicate). -/
theorem sqlite_persistent_dedup_is_inert (st : Store)
    (sigs : List DedupSignal) :
    dedupRun (some (sqliteStoreIface st)) sigs = dedupRun Option.none sigs := by
  have hstep : ∀ (dst : DedupState) (s : DedupSignal),
      dedupStep (some (sqliteStoreIface st)) dst s = dedupStep Option.none dst s := by
    intro dst s
    simp [dedupStep, sqliteIface_always_raises]
  unfold dedupRun
  generalize ({} : DedupState) = dst
  induction sigs generalizing dst with
  | nil => rfl
  | cons s rest ih =>
    simp [dedupList, hstep, ih]

/-- C1 evaluation: whatever the adapters do (including every one of them
raising), run_pipeline does not return a summary: the post-dedup stage
raises AttributeError (FeatureEngine.enrich when signals survived dedup,
SignalRanker.rank otherwise). -/
theorem run_pipeline_always_raises (st : Store)
    (ingesters : List IngestOutcome) :
    runPipelineModel st ingesters =
        Except.error (PyError.attributeError "FeatureEngine" "enrich") ∨
    runPipelineModel st ingesters =
        Except.error (PyError.attributeError "SignalRanker" "rank") := by
  unfold runPipelineModel
  by_cases h : (dedupRun (some (sqliteStoreIface st))
      ((ingesters.map runIngesterTimed).foldl (fun acc r => acc ++ r.2.1) [])).2.isEmpty
  · right
    simp [h, getattrCheck, sentimentAnalyzerMethods, signalRankerMethods]
    rfl
  · left
    simp [h, getattrCheck, featureEngineMethods]
    rfl

/-- C3 evaluation: the source signature of get_signals_since accepts only
(self, since). The build_daily_payload callsite passes keyword arguments
source and limit, and the telegram command callsites additionally pass
source positionally; both raise TypeError. A bare (self, since) call binds
fine. -/
theorem get_signals_since_rejects_source_limit :
    bindCall getSignalsSinceParams
        { numPositional := 2, keywordNames := ["source", "limit"] } =
      Except.error (PyError.typeError "got an unexpected keyword argument") ∧
    bindCall getSignalsSinceParams
        { numPositional := 3, keywordNames := ["limit"] } =
      Except.error (PyError.typeError "too many positional arguments") ∧
    bindCall getSignalsSinceParams
        { numPositional := 2, keywordNames := [] } = Except.ok () :=
  ⟨rfl, rfl, rfl⟩

/-- C4 evaluation: a funding record with date-only published value
"2024-01-05" is parsed at start of day, so it is already excluded at
since = 2024-01-05T23:00:00 (the spec requires full-day inclusion there)
and also excluded at since = 2024-01-06T00:00:01. -/
theorem date_only_funding_same_day_excluded :
    fundingKeptOfPublished ⟨2024, 1, 5, 23, 0, 0, 0, Option.none⟩ "2024-01-05" =
      some false ∧
    fundingKeptOfPublished ⟨2024, 1, 6, 0, 0, 1, 0, Option.none⟩ "2024-01-05" =
      some false := by
  decide

/-! ### C7 support: list scanning lemmas -/

theorem findChar_not_mem {c : Char} {cs : List Char} (h : c ∉ cs) :
    findChar c cs = Option.none := by
  induction cs with
  | nil => rfl
  | cons d ds ih =>
    have hd : ¬ d = c := fun he => h (he ▸ List.mem_cons_self d ds)
    have hds : c ∉ ds := fun hm => h (List.mem_cons_of_mem d hm)
    simp [findChar, hd, ih hds]

theorem findChar_append_cons {c : Char} {a b : List Char} (ha : c ∉ a) :
    findChar c (a ++ c :: b) = some a.length := by
  induction a with
  | nil => simp [findChar]
  | cons d ds ih =>
    have hd : ¬ d = c := fun h => ha (h ▸ List.mem_cons_self d ds)
    have hds : c ∉ ds := fun h => ha (List.mem_cons_of_mem d h)
    simp [findChar, hd, ih hds]

theorem splitOnceChar_not_mem {c : Char} {cs : List Char} (h : c ∉ cs) :
    splitOnceChar c cs = Option.none := by
  simp [splitOnceChar, findChar_not_mem h]

theorem take_append_cons_length {c : Char} (a b : List Char) :
    (a ++ c :: b).take a.length = a := by
  rw [List.take_append_eq_append_take]
  simp

theorem drop_append_cons_length {c : Char} (a b : List Char) :
    (a ++ c :: b).drop (a.length + 1) = b := by
  have : a ++ c :: b = (a ++ [c]) ++ b := by simp
  rw [this]
  have hl : (a ++ [c]).length = a.length + 1 := by simp
  rw [← hl, List.drop_left]

theorem splitOnceChar_append {c : Char} {a : List Char} (b : List Char)
    (ha : c ∉ a) :
    splitOnceChar c (a ++ c :: b) = some (a, b) := by
  simp only [splitOnceChar, findChar_append_cons ha]
  rw [take_append_cons_length, drop_append_cons_length]

theorem splitNetloc_append {nl rest : List Char}
    (hnl : ∀ c ∈ nl, ¬ isNetlocDelim c = true)
    (hrest : rest = [] ∨ ∃ d ds, rest = d :: ds ∧ isNetlocDelim d = true) :
    splitNetloc (nl ++ rest) = (nl, rest) := by
  have htake : (nl ++ rest).takeWhile (fun c => !isNetlocDelim c) = nl := by
    induction nl with
    | nil =>
      rcases hrest with rfl | ⟨d, ds, rfl, hd⟩
      · rfl
      · simp [List.takeWhile, hd]
    | cons x xs ih =>
      have hx : ¬ isNetlocDelim x = true := hnl x (List.mem_cons_self x xs)
      have hxs : ∀ c ∈ xs, ¬ isNetlocDelim c = true :=
        fun c hc => hnl c (List.mem_cons_of_mem x hc)
      simp only [List.cons_append, List.takeWhile_cons]
      simp only [Bool.not_eq_true] at hx ⊢
      rw [Bool.eq_false_iff] at hx
      simp [hx, ih hxs]
  simp only [splitNetloc, htake]
  rw [List.drop_left]

/-! ### C7 support: UTF-8 encode/decode roundtrip -/

theorem char_valid_nat (c : Char) :
    c.toNat < 55296 ∨ (57343 < c.toNat ∧ c.toNat < 1114112) := by
  rcases c.valid with h | ⟨h1, h2⟩
  · left
    exact h
  · right
    exact ⟨h1, h2⟩

theorem toNat_ofNat_valid {n : ℕ} (h : n.isValidChar) :
    (Char.ofNat n).toNat = n := by
  rw [Char.ofNat, dif_pos h]
  rfl

theorem utf8Bytes_lt (c : Char) : ∀ b ∈ utf8Bytes c, b < 256 := by
  intro b hb
  have hv := char_valid_nat c
  unfold utf8Bytes at hb
  dsimp only at hb
  by_cases h1 : c.toNat < 128
  · rw [if_pos h1] at hb
    simp at hb
    omega
  · rw [if_neg h1] at hb
    by_cases h2 : c.toNat < 2048
    · rw [if_pos h2] at hb
      simp at hb
      rcases hb with rfl | rfl <;> omega
    · rw [if_neg h2] at hb
      by_cases h3 : c.toNat < 65536
      · rw [if_pos h3] at hb
        simp at hb
        rcases hb with rfl | rfl | rfl <;> omega
      · rw [if_neg h3] at hb
        simp at hb
        rcases hb with rfl | rfl | rfl | rfl <;> omega

theorem decode_step1 {n : ℕ} (h : n < 128) (rest : List ℕ) :
    utf8DecodeReplace (n :: rest) = Char.ofNat n :: utf8DecodeReplace rest := by
  rw [utf8DecodeReplace.eq_def]
  simp [h]

theorem decode_step2 {b0 b1 : ℕ} (h0 : 194 ≤ b0 ∧ b0 ≤ 223)
    (h1 : 128 ≤ b1 ∧ b1 ≤ 191) (rest : List ℕ) :
    utf8DecodeReplace (b0 :: b1 :: rest) =
      Char.ofNat ((b0 - 192) * 64 + (b1 - 128)) :: utf8DecodeReplace rest := by
  rw [utf8DecodeReplace.eq_def]
  have hn : ¬ b0 < 128 := by omega
  have hr : (decide (194 ≤ b0) && decide (b0 ≤ 223)) = true := by
    simp; omega
  have hc : contByte b1 = true := by
    simp [contByte]; omega
  simp [hn, hr, hc]

theorem decode_step3 {b0 b1 b2 : ℕ} (h0 : 224 ≤ b0 ∧ b0 ≤ 239)
    (h1 : (if b0 = 224 then 160 else 128) ≤ b1 ∧
      b1 ≤ (if b0 = 237 then 159 else 191))
    (h2 : 128 ≤ b2 ∧ b2 ≤ 191) (rest : List ℕ) :
    utf8DecodeReplace (b0 :: b1 :: b2 :: rest) =
      Char.ofNat ((b0 - 224) * 4096 + (b1 - 128) * 64 + (b2 - 128)) ::
        utf8DecodeReplace rest := by
  rw [utf8DecodeReplace.eq_def]
  have hn : ¬ b0 < 128 := by omega
  have hr2 : ¬ (decide (194 ≤ b0) && decide (b0 ≤ 223)) = true := by
    simp; omega
  have hr3 : (decide (224 ≤ b0) && decide (b0 ≤ 239)) = true := by
    simp; omega
  have hcont : ((if b0 = 224 then 160 else 128) ≤ b1 &&
      b1 ≤ (if b0 = 237 then 159 else 191)) = true := by
    simp only [Bool.and_eq_true, decide_eq_true_eq]
    exact h1
  have hc2 : contByte b2 = true := by
    simp [contByte]; omega
  simp [hn, hr2, hr3, hcont, hc2]

theorem decode_step4 {b0 b1 b2 b3 : ℕ} (h0 : 240 ≤ b0 ∧ b0 ≤ 244)
    (h1 : (if b0 = 240 then 144 else 128) ≤ b1 ∧
      b1 ≤ (if b0 = 244 then 143 else 191))
    (h2 : 128 ≤ b2 ∧ b2 ≤ 191) (h3 : 128 ≤ b3 ∧ b3 ≤ 191) (rest : List ℕ) :
    utf8DecodeReplace (b0 :: b1 :: b2 :: b3 :: rest) =
      Char.ofNat ((b0 - 240) * 262144 + (b1 - 128) * 4096 + (b2 - 128) * 64 +
        (b3 - 128)) :: utf8DecodeReplace rest := by
  rw [utf8DecodeReplace.eq_def]
  have hn : ¬ b0 < 128 := by omega
  have hr2 : ¬ (decide (194 ≤ b0) && decide (b0 ≤ 223)) = true := by
    simp; omega
  have hr3 : ¬ (decide (224 ≤ b0) && decide (b0 ≤ 239)) = true := by
    simp; omega
  have hr4 : (decide (240 ≤ b0) && decide (b0 ≤ 244)) = true := by
    simp; omega
  have hcont : ((if b0 = 240 then 144 else 128) ≤ b1 &&
      b1 ≤ (if b0 = 244 then 143 else 191)) = true := by
    simp only [Bool.and_eq_true, decide_eq_true_eq]
    exact h1
  have hc2 : contByte b2 = true := by
    simp [contByte]; omega
  have hc3 : contByte b3 = true := by
    simp [contByte]; omega
  simp [hn, hr2, hr3, hr4, hcont, hc2, hc3]

theorem utf8DecodeReplace_encode_cons (c : Char) (rest : List ℕ) :
    utf8DecodeReplace (utf8Bytes c ++ rest) = c :: utf8DecodeReplace rest := by
  have hv := char_valid_nat c
  unfold utf8Bytes
  by_cases h1 : c.toNat < 128
  · rw [if_pos h1]
    simp only [List.cons_append, List.nil_append]
    rw [decode_step1 h1]
    rw [show Char.ofNat c.toNat = c from Char.ofNat_toNat c]
  · rw [if_neg h1]
    by_cases h2 : c.toNat < 2048
    · rw [if_pos h2]
      simp only [List.cons_append, List.nil_append]
      rw [decode_step2 (by omega) (by omega)]
      have : (192 + c.toNat / 64 - 192) * 64 + (128 + c.toNat % 64 - 128) =
          c.toNat := by omega
      rw [this, Char.ofNat_toNat]
    · rw [if_neg h2]
      by_cases h3 : c.toNat < 65536
      · rw [if_pos h3]
        simp only [List.cons_append, List.nil_append]
        have hb0 : 224 ≤ 224 + c.toNat / 4096 ∧ 224 + c.toNat / 4096 ≤ 239 := by
          omega
        have hb1 : (if 224 + c.toNat / 4096 = 224 then 160 else 128) ≤
            128 + c.toNat / 64 % 64 ∧
            128 + c.toNat / 64 % 64 ≤
              (if 224 + c.toNat / 4096 = 237 then 159 else 191) := by
          constructor
          · split <;> omega
          · split <;> omega
        rw [decode_step3 hb0 hb1 (by omega)]
        have : (224 + c.toNat / 4096 - 224) * 4096 +
            (128 + c.toNat / 64 % 64 - 128) * 64 + (128 + c.toNat % 64 - 128) =
            c.toNat := by omega
        rw [this, Char.ofNat_toNat]
      · rw [if_neg h3]
        simp only [List.cons_append, List.nil_append]
        have hb0 : 240 ≤ 240 + c.toNat / 262144 ∧ 240 + c.toNat / 262144 ≤ 244 := by
          omega
        have hb1 : (if 240 + c.toNat / 262144 = 240 then 144 else 128) ≤
            128 + c.toNat / 4096 % 64 ∧
            128 + c.toNat / 4096 % 64 ≤
              (if 240 + c.toNat / 262144 = 244 then 143 else 191) := by
          constructor
          · split <;> omega
          · split <;> omega
        rw [decode_step4 hb0 hb1 (by omega) (by omega)]
        have : (240 + c.toNat / 262144 - 240) * 262144 +
            (128 + c.toNat / 4096 % 64 - 128) * 4096 +
            (128 + c.toNat / 64 % 64 - 128) * 64 + (128 + c.toNat % 64 - 128) =
            c.toNat := by omega
        rw [this, Char.ofNat_toNat]

theorem utf8_roundtrip (s : List Char) :
    utf8DecodeReplace (s.flatMap utf8Bytes) = s := by
  induction s with
  | nil => simp [utf8DecodeReplace]
  | cons c cs ih =>
    rw [List.flatMap_cons, utf8DecodeReplace_encode_cons, ih]

/-! ### C7 support: quote/unquote roundtrip -/

theorem hexDigitUpper_isHex {n : ℕ} (h : n < 16) :
    isHexDigitCh (hexDigitUpper n) = true := by
  interval_cases n <;> decide

theorem hexVal_hexDigitUpper {n : ℕ} (h : n < 16) :
    hexVal (hexDigitUpper n) = n := by
  interval_cases n <;> decide

theorem hexDigitUpper_alwaysSafe {n : ℕ} (h : n < 16) :
    alwaysSafe (hexDigitUpper n) = true := by
  interval_cases n <;> decide

theorem pctScan_cons_plain {c : Char} (hc : ¬ c = '%') (hascii : c.toNat < 128)
    (t : List Char) :
    pctScan (c :: t) = Sum.inl c.toNat :: pctScan t := by
  rw [pctScan.eq_def]
  simp [hc, hascii]

theorem pctScan_triple {b : ℕ} (hb : b < 256) (t : List Char) :
    pctScan (pctEncodeByte b ++ t) = Sum.inl b :: pctScan t := by
  have hhi : b / 16 < 16 := by omega
  have hlo : b % 16 < 16 := by omega
  unfold pctEncodeByte
  simp only [List.cons_append, List.nil_append]
  rw [pctScan.eq_def]
  simp only [if_pos rfl]
  rw [hexDigitUpper_isHex hhi, hexDigitUpper_isHex hlo]
  simp only [Bool.and_self, if_pos rfl]
  rw [hexVal_hexDigitUpper hhi, hexVal_hexDigitUpper hlo]
  have hb2 : 16 * (b / 16) + b % 16 = b := by omega
  rw [hb2]
  simp

theorem pctScan_triples {bs : List ℕ} (hbs : ∀ b ∈ bs, b < 256) (t : List Char) :
    pctScan (bs.flatMap pctEncodeByte ++ t) = bs.map Sum.inl ++ pctScan t := by
  induction bs with
  | nil => simp
  | cons b rest ih =>
    rw [List.flatMap_cons, List.append_assoc,
      pctScan_triple (hbs b (List.mem_cons_self b rest)),
      ih (fun x hx => hbs x (List.mem_cons_of_mem b hx))]
    simp

theorem uint32_le_iff {a b : UInt32} : a ≤ b ↔ a.toNat ≤ b.toNat := by
  rw [UInt32.le_def, BitVec.le_def]
  exact Iff.rfl

theorem char_eq_iff_toNat {c d : Char} : c = d ↔ c.toNat = d.toNat := by
  constructor
  · rintro rfl; rfl
  · intro h
    exact Char.ext (UInt32.ext h)

theorem char_isUpper_range {c : Char} (h : c.isUpper = true) :
    65 ≤ c.toNat ∧ c.toNat ≤ 90 := by
  unfold Char.isUpper at h
  rw [Bool.and_eq_true] at h
  obtain ⟨h1, h2⟩ := h
  rw [decide_eq_true_eq] at h1 h2
  exact ⟨uint32_le_iff.mp h1, uint32_le_iff.mp h2⟩

theorem char_isLower_range {c : Char} (h : c.isLower = true) :
    97 ≤ c.toNat ∧ c.toNat ≤ 122 := by
  unfold Char.isLower at h
  rw [Bool.and_eq_true] at h
  obtain ⟨h1, h2⟩ := h
  rw [decide_eq_true_eq] at h1 h2
  exact ⟨uint32_le_iff.mp h1, uint32_le_iff.mp h2⟩

theorem char_isDigit_range {c : Char} (h : c.isDigit = true) :
    48 ≤ c.toNat ∧ c.toNat ≤ 57 := by
  unfold Char.isDigit at h
  rw [Bool.and_eq_true] at h
  obtain ⟨h1, h2⟩ := h
  rw [decide_eq_true_eq] at h1 h2
  exact ⟨uint32_le_iff.mp h1, uint32_le_iff.mp h2⟩

theorem char_isAlpha_ascii {c : Char} (h : c.isAlpha = true) : c.toNat < 128 := by
  unfold Char.isAlpha at h
  rcases Bool.or_eq_true_iff.mp h with h1 | h1
  · have := char_isUpper_range h1; omega
  · have := char_isLower_range h1; omega

theorem alwaysSafe_ascii {c : Char} (h : alwaysSafe c = true) : c.toNat < 128 := by
  unfold alwaysSafe at h
  rcases Bool.or_eq_true_iff.mp h with h1 | h1
  rcases Bool.or_eq_true_iff.mp h1 with h2 | h2
  rcases Bool.or_eq_true_iff.mp h2 with h3 | h3
  rcases Bool.or_eq_true_iff.mp h3 with h4 | h4
  rcases Bool.or_eq_true_iff.mp h4 with h5 | h5
  · exact char_isAlpha_ascii h5
  · have := char_isDigit_range h5; omega
  · rw [decide_eq_true_eq] at h4
    rw [h4]; decide
  · rw [decide_eq_true_eq] at h3
    rw [h3]; decide
  · rw [decide_eq_true_eq] at h2
    rw [h2]; decide
  · rw [decide_eq_true_eq] at h1
    rw [h1]; decide

theorem alwaysSafe_ne_pct {c : Char} (h : alwaysSafe c = true) : ¬ c = '%' := by
  intro he
  rw [he] at h
  exact absurd h (by decide)

theorem utf8Bytes_ascii {c : Char} (h : c.toNat < 128) :
    utf8Bytes c = [c.toNat] := by
  unfold utf8Bytes
  rw [if_pos h]

theorem pctScan_quoteWith {safe : List Char}
    (hsafe : ∀ c ∈ safe, c.toNat < 128 ∧ ¬ c = '%') (s : List Char) :
    pctScan (quoteWith safe s) = (s.flatMap utf8Bytes).map Sum.inl := by
  induction s with
  | nil => simp [quoteWith, pctScan]
  | cons c cs ih =>
    unfold quoteWith
    rw [List.flatMap_cons]
    unfold quoteWith at ih
    by_cases h : (alwaysSafe c || c ∈ safe) = true
    · rw [if_pos h]
      have hascii : c.toNat < 128 := by
        rcases Bool.or_eq_true_iff.mp h with h1 | h1
        · exact alwaysSafe_ascii h1
        · rw [decide_eq_true_eq] at h1
          exact (hsafe c h1).1
      have hpct : ¬ c = '%' := by
        rcases Bool.or_eq_true_iff.mp h with h1 | h1
        · exact alwaysSafe_ne_pct h1
        · rw [decide_eq_true_eq] at h1
          exact (hsafe c h1).2
      rw [List.singleton_append, pctScan_cons_plain hpct hascii, ih]
      rw [List.flatMap_cons, utf8Bytes_ascii hascii]
      rfl
    · rw [if_neg h]
      rw [pctScan_triples (utf8Bytes_lt c), ih]
      rw [List.flatMap_cons, List.map_append]

theorem decodeScanAux_all_bytes (acc : List ℕ) (bs : List ℕ) :
    decodeScanAux acc (bs.map Sum.inl) = utf8DecodeReplace (acc.reverse ++ bs) := by
  induction bs generalizing acc with
  | nil => simp [decodeScanAux]
  | cons b rest ih =>
    rw [List.map_cons]
    show decodeScanAux (b :: acc) (rest.map Sum.inl) = _
    rw [ih]
    simp

theorem pyUnquote_quoteWith {safe : List Char}
    (hsafe : ∀ c ∈ safe, c.toNat < 128 ∧ ¬ c = '%') (s : List Char) :
    pyUnquote (quoteWith safe s) = s := by
  unfold pyUnquote
  rw [pctScan_quoteWith hsafe, decodeScanAux_all_bytes]
  simp only [List.reverse_nil, List.nil_append]
  exact utf8_roundtrip s

theorem quoteWith_chars {safe s : List Char} {c : Char}
    (hc : c ∈ quoteWith safe s) :
    alwaysSafe c = true ∨ c ∈ safe ∨ c = '%' := by
  unfold quoteWith at hc
  rw [List.mem_flatMap] at hc
  obtain ⟨d, _, hcd⟩ := hc
  by_cases h : (alwaysSafe d || d ∈ safe) = true
  · rw [if_pos h] at hcd
    rw [List.mem_singleton] at hcd
    subst hcd
    rcases Bool.or_eq_true_iff.mp h with h1 | h1
    · exact Or.inl h1
    · rw [decide_eq_true_eq] at h1
      exact Or.inr (Or.inl h1)
  · rw [if_neg h] at hcd
    rw [List.mem_flatMap] at hcd
    obtain ⟨b, hbd, hcb⟩ := hcd
    have hblt : b < 256 := utf8Bytes_lt d b hbd
    unfold pctEncodeByte at hcb
    simp only [List.mem_cons, List.not_mem_nil, or_false] at hcb
    rcases hcb with rfl | rfl | rfl
    · exact Or.inr (Or.inr rfl)
    · left
      exact hexDigitUpper_alwaysSafe (by omega)
    · left
      exact hexDigitUpper_alwaysSafe (by omega)

theorem map_plus_space_of_no_plus {l : List Char} (h : '+' ∉ l) :
    l.map (fun c => if c = '+' then ' ' else c) = l := by
  induction l with
  | nil => rfl
  | cons c cs ih =>
    have hc : ¬ c = '+' := fun he => h (he ▸ List.mem_cons_self c cs)
    have hcs : '+' ∉ cs := fun hm => h (List.mem_cons_of_mem c hm)
    simp [hc, ih hcs]

theorem quoteWith_space_no_plus (s : List Char) : '+' ∉ quoteWith [' '] s := by
  intro hmem
  rcases quoteWith_chars hmem with h1 | h1 | h1
  · exact absurd h1 (by decide)
  · rw [List.mem_singleton] at h1
    cases h1
  · cases h1

theorem quoteWith_empty_no_plus (s : List Char) : '+' ∉ quoteWith [] s := by
  intro hmem
  rcases quoteWith_chars hmem with h1 | h1 | h1
  · exact absurd h1 (by decide)
  · cases h1
  · cases h1

/-- unquote_plus inverts quote_plus on every string. -/
theorem unquotePlus_quotePlus (s : List Char) : unquotePlus (quotePlus s) = s := by
  unfold unquotePlus quotePlus
  by_cases h : (' ' ∈ s)
  · rw [if_pos h, List.map_map]
    have hmap : ((quoteWith [' '] s).map
        ((fun c => if c = '+' then ' ' else c) ∘ fun c => if c = ' ' then '+' else c)) =
        quoteWith [' '] s := by
      have hid : ((quoteWith [' '] s).map
          ((fun c => if c = '+' then ' ' else c) ∘ fun c => if c = ' ' then '+' else c)) =
          (quoteWith [' '] s).map id := by
        apply List.map_congr_left
        intro c hc
        by_cases hsp : c = ' '
        · subst hsp
          simp
        · have hplus : ¬ c = '+' := fun he =>
            quoteWith_space_no_plus s (he ▸ hc)
          simp [hsp, hplus]
      rw [hid, List.map_id]
    rw [hmap]
    exact pyUnquote_quoteWith (by decide) s
  · rw [if_neg h]
    rw [map_plus_space_of_no_plus (quoteWith_empty_no_plus s)]
    exact pyUnquote_quoteWith (by decide) s

/-! ### C7 support: parse_qsl is a left inverse of urlencode -/

theorem quotePlus_chars {s : List Char} {c : Char} (hc : c ∈ quotePlus s) :
    alwaysSafe c = true ∨ c = '+' ∨ c = '%' := by
  unfold quotePlus at hc
  by_cases h : (' ' ∈ s)
  · rw [if_pos h] at hc
    rw [List.mem_map] at hc
    obtain ⟨d, hd, hcd⟩ := hc
    subst hcd
    by_cases hds : d = ' '
    · rw [if_pos hds]
      exact Or.inr (Or.inl rfl)
    · rw [if_neg hds]
      rcases quoteWith_chars hd with h1 | h1 | h1
      · exact Or.inl h1
      · rw [List.mem_singleton] at h1
        exact absurd h1 hds
      · exact Or.inr (Or.inr h1)
  · rw [if_neg h] at hc
    rcases quoteWith_chars hc with h1 | h1 | h1
    · exact Or.inl h1
    · cases h1
    · exact Or.inr (Or.inr h1)

theorem quotePlus_not_mem {x : Char} (hx1 : alwaysSafe x = false)
    (hx2 : ¬ x = '+') (hx3 : ¬ x = '%') (s : List Char) : x ∉ quotePlus s := by
  intro hmem
  rcases quotePlus_chars hmem with h1 | h1 | h1
  · rw [h1] at hx1; cases hx1
  · exact hx2 h1
  · exact hx3 h1

theorem utf8Bytes_ne_nil (c : Char) : utf8Bytes c ≠ [] := by
  unfold utf8Bytes
  dsimp only
  by_cases h1 : c.toNat < 128
  · rw [if_pos h1]; simp
  · rw [if_neg h1]
    by_cases h2 : c.toNat < 2048
    · rw [if_pos h2]; simp
    · rw [if_neg h2]
      by_cases h3 : c.toNat < 65536
      · rw [if_pos h3]; simp
      · rw [if_neg h3]; simp

theorem quoteItem_ne_nil (safe : List Char) (c : Char) :
    (if alwaysSafe c || c ∈ safe then [c]
     else (utf8Bytes c).flatMap pctEncodeByte) ≠ [] := by
  split
  · simp
  · cases hb : utf8Bytes c with
    | nil => exact absurd hb (utf8Bytes_ne_nil c)
    | cons b bs =>
      rw [List.flatMap_cons]
      simp [pctEncodeByte]

theorem quoteWith_ne_nil (safe : List Char) {v : List Char} (hv : v ≠ []) :
    quoteWith safe v ≠ [] := by
  cases v with
  | nil => exact absurd rfl hv
  | cons c cs =>
    unfold quoteWith
    rw [List.flatMap_cons]
    intro hcon
    rw [List.append_eq_nil] at hcon
    exact quoteItem_ne_nil safe c hcon.1

theorem quotePlus_ne_nil {v : List Char} (hv : v ≠ []) : quotePlus v ≠ [] := by
  unfold quotePlus
  split
  · intro hcon
    rw [List.map_eq_nil_iff] at hcon
    exact quoteWith_ne_nil [' '] hv hcon
  · exact quoteWith_ne_nil [] hv

theorem qslPiece_encode {k v : List Char} (hv : v ≠ []) :
    qslPiece (quotePlus k ++ '=' :: quotePlus v) = some (k, v) := by
  unfold qslPiece
  have hne : (quotePlus k ++ '=' :: quotePlus v).isEmpty = false := by
    cases hq : quotePlus k <;> rfl
  rw [hne]
  simp only [Bool.false_eq_true, if_false]
  rw [splitOnceChar_append _ (quotePlus_not_mem (by decide) (by decide) (by decide) k)]
  have hvne : (quotePlus v).isEmpty = false := by
    have := quotePlus_ne_nil hv
    cases hq : quotePlus v
    · exact absurd hq this
    · rfl
  simp only [hvne, Bool.false_eq_true, if_false]
  rw [unquotePlus_quotePlus, unquotePlus_quotePlus]

theorem splitOnChar_no_sep {c : Char} {x : List Char} (h : c ∉ x) :
    splitOnChar c x = [x] := by
  induction x with
  | nil => rfl
  | cons d ds ih =>
    have hd : ¬ d = c := fun he => h (he ▸ List.mem_cons_self d ds)
    have hds : c ∉ ds := fun hm => h (List.mem_cons_of_mem d hm)
    rw [splitOnChar, if_neg hd, ih hds]

theorem splitOnChar_append_sep {c : Char} {x : List Char} (h : c ∉ x)
    (z : List Char) :
    splitOnChar c (x ++ c :: z) = x :: splitOnChar c z := by
  induction x with
  | nil => simp [splitOnChar]
  | cons d ds ih =>
    have hd : ¬ d = c := fun he => h (he ▸ List.mem_cons_self d ds)
    have hds : c ∉ ds := fun hm => h (List.mem_cons_of_mem d hm)
    rw [List.cons_append, splitOnChar, if_neg hd, ih hds]

theorem splitOnChar_joinAmp {pieces : List (List Char)} (hne : pieces ≠ [])
    (hnosep : ∀ p ∈ pieces, '&' ∉ p) :
    splitOnChar '&' (joinAmp pieces) = pieces := by
  induction pieces with
  | nil => exact absurd rfl hne
  | cons p rest ih =>
    cases rest with
    | nil =>
      show splitOnChar '&' (joinAmp [p]) = [p]
      rw [joinAmp]
      exact splitOnChar_no_sep (hnosep p (List.mem_cons_self p []))
    | cons q qs =>
      show splitOnChar '&' (joinAmp (p :: q :: qs)) = p :: q :: qs
      rw [joinAmp, splitOnChar_append_sep (hnosep p (List.mem_cons_self p _))]
      · rw [ih (List.cons_ne_nil q qs)
          (fun x hx => hnosep x (List.mem_cons_of_mem p hx))]
      · exact List.cons_ne_nil q qs

theorem piece_no_amp (k v : List Char) :
    '&' ∉ quotePlus k ++ '=' :: quotePlus v := by
  intro hmem
  rcases List.mem_append.mp hmem with h | h
  · exact quotePlus_not_mem (by decide) (by decide) (by decide) k h
  · rcases List.mem_cons.mp h with h1 | h1
    · cases h1
    · exact quotePlus_not_mem (by decide) (by decide) (by decide) v h1

theorem filterMap_encodePairs (flat : List (List Char × List Char))
    (hval : ∀ q ∈ flat, q.2 ≠ []) :
    ((flat.map fun q => quotePlus q.1 ++ '=' :: quotePlus q.2).filterMap
      qslPiece) = flat := by
  induction flat with
  | nil => rfl
  | cons q rest ih =>
    rw [List.map_cons, List.filterMap_cons,
      qslPiece_encode (hval q (List.mem_cons_self q rest)),
      ih (fun x hx => hval x (List.mem_cons_of_mem q hx))]

theorem pieces_eq_map (L : List (List Char × List (List Char))) :
    (L.flatMap fun p => p.2.map fun v => quotePlus p.1 ++ '=' :: quotePlus v) =
    ((L.flatMap fun p => p.2.map fun v => (p.1, v)).map
      fun q => quotePlus q.1 ++ '=' :: quotePlus q.2) := by
  rw [List.map_flatMap]
  congr 1
  funext p
  rw [List.map_map]
  rfl

theorem parseQsl_urlencode (L : List (List Char × List (List Char)))
    (hval : ∀ p ∈ L, ∀ v ∈ p.2, v ≠ []) :
    parseQsl (urlencodeSorted L) =
      L.flatMap fun p => p.2.map fun v => (p.1, v) := by
  unfold parseQsl urlencodeSorted
  by_cases hp : (L.flatMap fun p => p.2.map fun v =>
      quotePlus p.1 ++ '=' :: quotePlus v) = []
  · rw [hp]
    have hflat : (L.flatMap fun p => p.2.map fun v => (p.1, v)) = [] := by
      have := pieces_eq_map L
      rw [hp] at this
      exact (List.map_eq_nil_iff.mp this.symm)
    rw [hflat]
    rfl
  · have hnosep : ∀ piece ∈ (L.flatMap fun p => p.2.map fun v =>
        quotePlus p.1 ++ '=' :: quotePlus v), '&' ∉ piece := by
      intro piece hpc
      rw [List.mem_flatMap] at hpc
      obtain ⟨p, _, hpc2⟩ := hpc
      rw [List.mem_map] at hpc2
      obtain ⟨v, _, rfl⟩ := hpc2
      exact piece_no_amp p.1 v
    rw [splitOnChar_joinAmp hp hnosep, pieces_eq_map]
    apply filterMap_encodePairs
    intro q hq
    rw [List.mem_flatMap] at hq
    obtain ⟨p, hp2, hq2⟩ := hq
    rw [List.mem_map] at hq2
    obtain ⟨v, hv, rfl⟩ := hq2
    exact hval p hp2 v hv

theorem addToDict_cons_ne {p : List Char × List (List Char)}
    {rest : List (List Char × List (List Char))} {k : List Char}
    (v : List Char) (hk : ¬ p.1 = k) :
    addToDict (p :: rest) k v = p :: addToDict rest k v := by
  rw [addToDict.eq_def]
  simp [hk]

theorem addToDict_fresh {d : List (List Char × List (List Char))}
    {k : List Char} (v : List Char) (h : k ∉ d.map Prod.fst) :
    addToDict d k v = d ++ [(k, [v])] := by
  induction d with
  | nil => rfl
  | cons p rest ih =>
    have hk : ¬ p.1 = k := by
      intro he
      exact h (by simp [he])
    have hrest : k ∉ rest.map Prod.fst := by
      intro hm
      exact h (by simp [hm])
    rw [addToDict_cons_ne v hk, ih hrest, List.cons_append]

theorem addToDict_last {d : List (List Char × List (List Char))}
    {k : List Char} (acc : List (List Char)) (v : List Char)
    (h : k ∉ d.map Prod.fst) :
    addToDict (d ++ [(k, acc)]) k v = d ++ [(k, acc ++ [v])] := by
  induction d with
  | nil =>
    show addToDict [(k, acc)] k v = [(k, acc ++ [v])]
    rw [addToDict.eq_def]
    simp
  | cons p rest ih =>
    have hk : ¬ p.1 = k := by
      intro he
      exact h (by simp [he])
    have hrest : k ∉ rest.map Prod.fst := by
      intro hm
      exact h (by simp [hm])
    show addToDict ((p :: rest) ++ [(k, acc)]) k v = _
    rw [List.cons_append, addToDict.eq_def]
    simp only [hk, if_false]
    rw [show (rest ++ [(k, acc)] : List _) = rest ++ [(k, acc)] from rfl]
    have := ih hrest
    rw [this]
    rfl

theorem foldl_addToDict_same_key (k : List Char) (vs : List (List Char)) :
    ∀ (D : List (List Char × List (List Char))) (acc : List (List Char)),
    k ∉ D.map Prod.fst →
    ((vs.map fun v => (k, v)).foldl (fun d q => addToDict d q.1 q.2)
      (D ++ [(k, acc)])) = D ++ [(k, acc ++ vs)] := by
  induction vs with
  | nil =>
    intro D acc _
    simp
  | cons v vtail ih =>
    intro D acc h
    rw [List.map_cons, List.foldl_cons]
    show (vtail.map fun v => (k, v)).foldl (fun d q => addToDict d q.1 q.2)
      (addToDict (D ++ [(k, acc)]) k v) = _
    rw [addToDict_last acc v h, ih D (acc ++ [v]) h]
    simp

theorem foldl_addToDict_grouped (L : List (List Char × List (List Char))) :
    ∀ D : List (List Char × List (List Char)),
    (L.map Prod.fst).Nodup →
    (∀ k ∈ L.map Prod.fst, k ∉ D.map Prod.fst) →
    (∀ p ∈ L, p.2 ≠ []) →
    ((L.flatMap fun p => p.2.map fun v => (p.1, v)).foldl
      (fun d q => addToDict d q.1 q.2) D) = D ++ L := by
  induction L with
  | nil =>
    intro D _ _ _
    simp
  | cons p rest ih =>
    intro D hnodup hdisj hne
    rw [List.flatMap_cons, List.foldl_append]
    have hp1 : p.1 ∉ D.map Prod.fst :=
      hdisj p.1 (by simp)
    have hinner : ((p.2.map fun v => (p.1, v)).foldl
        (fun d q => addToDict d q.1 q.2) D) = D ++ [(p.1, p.2)] := by
      obtain ⟨v0, vtail, hv⟩ : ∃ v0 vtail, p.2 = v0 :: vtail := by
        cases hp2 : p.2 with
        | nil => exact absurd hp2 (hne p (by simp))
        | cons v0 vtail => exact ⟨v0, vtail, rfl⟩
      rw [hv, List.map_cons, List.foldl_cons]
      show ((vtail.map fun v => (p.1, v)).foldl (fun d q => addToDict d q.1 q.2)
        (addToDict D p.1 v0)) = _
      rw [addToDict_fresh v0 hp1, foldl_addToDict_same_key p.1 vtail D [v0] hp1]
      rfl
    rw [hinner]
    have hnodup2 : (rest.map Prod.fst).Nodup := by
      rw [List.map_cons, List.nodup_cons] at hnodup
      exact hnodup.2
    have hdisj2 : ∀ k ∈ rest.map Prod.fst, k ∉ (D ++ [(p.1, p.2)]).map Prod.fst := by
      intro k hk
      rw [List.map_append, List.mem_append]
      rintro (h1 | h1)
      · exact hdisj k (by simp [hk]) h1
      · rw [List.map_cons, List.nodup_cons] at hnodup
        simp only [List.map_cons, List.map_nil, List.mem_singleton] at h1
        exact hnodup.1 (h1 ▸ hk)
    have hne2 : ∀ q ∈ rest, q.2 ≠ [] := fun q hq => hne q (List.mem_cons_of_mem p hq)
    rw [ih (D ++ [(p.1, p.2)]) hnodup2 hdisj2 hne2]
    simp

theorem parseQs_urlencode (L : List (List Char × List (List Char)))
    (hnodup : (L.map Prod.fst).Nodup) (hne : ∀ p ∈ L, p.2 ≠ [])
    (hval : ∀ p ∈ L, ∀ v ∈ p.2, v ≠ []) :
    parseQs (urlencodeSorted L) = L := by
  unfold parseQs
  rw [parseQsl_urlencode L hval]
  have := foldl_addToDict_grouped L [] hnodup (by simp) hne
  simpa using this

/-! ### C7 support: key order and dict invariants -/

theorem uint32_lt_iff {a b : UInt32} : a < b ↔ a.toNat < b.toNat := by
  rw [UInt32.lt_def, BitVec.lt_def]
  exact Iff.rfl

theorem char_lt_iff {c d : Char} : c < d ↔ c.toNat < d.toNat := by
  rw [Char.lt_iff_val_lt_val]
  exact uint32_lt_iff

theorem lexLeCh_refl (a : List Char) : lexLeCh a a = true := by
  induction a with
  | nil => rfl
  | cons x xs ih => rw [lexLeCh, if_pos rfl]; exact ih

theorem lexLeCh_total (a b : List Char) :
    lexLeCh a b = true ∨ lexLeCh b a = true := by
  induction a generalizing b with
  | nil => left; rfl
  | cons x xs ih =>
    cases b with
    | nil => right; rfl
    | cons y ys =>
      by_cases hxy : x = y
      · subst hxy
        rw [lexLeCh, if_pos rfl, lexLeCh, if_pos rfl]
        exact ih ys
      · have hyx : ¬ y = x := fun h => hxy h.symm
        rw [lexLeCh, if_neg hxy, lexLeCh, if_neg hyx]
        have hne : x.toNat ≠ y.toNat := fun h => hxy (char_eq_iff_toNat.mpr h)
        rcases Nat.lt_or_ge x.toNat y.toNat with h | h
        · left
          rw [decide_eq_true_eq]
          exact char_lt_iff.mpr h
        · right
          rw [decide_eq_true_eq]
          exact char_lt_iff.mpr (by omega)

theorem lexLeCh_trans {a : List Char} : ∀ {b c : List Char},
    lexLeCh a b = true → lexLeCh b c = true → lexLeCh a c = true := by
  induction a with
  | nil => intro b c _ _; rfl
  | cons x xs ih =>
    intro b c h1 h2
    cases b with
    | nil => rw [lexLeCh] at h1; cases h1
    | cons y ys =>
      cases c with
      | nil => rw [lexLeCh] at h2; cases h2
      | cons z zs =>
        rw [lexLeCh] at h1 h2 ⊢
        by_cases hxy : x = y
        · subst hxy
          rw [if_pos rfl] at h1
          by_cases hxz : x = z
          · subst hxz
            rw [if_pos rfl] at h2 ⊢
            exact ih h1 h2
          · rw [if_neg hxz] at h2 ⊢
            exact h2
        · rw [if_neg hxy, decide_eq_true_eq] at h1
          by_cases hyz : y = z
          · subst hyz
            rw [if_neg hxy, decide_eq_true_eq]
            exact h1
          · rw [if_neg hyz, decide_eq_true_eq] at h2
            have hxz : x < z := Char.lt_trans h1 h2
            have hne : ¬ x = z := fun he => absurd (he ▸ hxz) (Char.lt_irrefl z)
            rw [if_neg hne, decide_eq_true_eq]
            exact hxz

theorem orderedInsertQs_perm (p : List Char × List (List Char))
    (l : List (List Char × List (List Char))) :
    (orderedInsertQs p l).Perm (p :: l) := by
  induction l with
  | nil => exact List.Perm.refl _
  | cons q rest ih =>
    rw [orderedInsertQs]
    split
    · exact List.Perm.refl _
    · exact (ih.cons q).trans (List.Perm.swap p q rest)

theorem sortQs_perm (l : List (List Char × List (List Char))) :
    (sortQs l).Perm l := by
  induction l with
  | nil => exact List.Perm.refl _
  | cons p rest ih =>
    exact (orderedInsertQs_perm p (sortQs rest)).trans (ih.cons p)

theorem orderedInsertQs_pairwise {p : List Char × List (List Char)}
    {l : List (List Char × List (List Char))}
    (hl : l.Pairwise (fun x y => lexLeCh x.1 y.1 = true)) :
    (orderedInsertQs p l).Pairwise (fun x y => lexLeCh x.1 y.1 = true) := by
  induction l with
  | nil => simp [orderedInsertQs]
  | cons q rest ih =>
    rw [List.pairwise_cons] at hl
    rw [orderedInsertQs]
    split
    · rename_i hpq
      rw [List.pairwise_cons]
      refine ⟨?_, List.Pairwise.cons hl.1 hl.2⟩
      intro x hx
      rcases List.mem_cons.mp hx with rfl | hx2
      · exact hpq
      · exact lexLeCh_trans hpq (hl.1 x hx2)
    · rename_i hpq
      have hqp : lexLeCh q.1 p.1 = true := by
        rcases lexLeCh_total p.1 q.1 with h | h
        · exact absurd h hpq
        · exact h
      rw [List.pairwise_cons]
      refine ⟨?_, ih hl.2⟩
      intro x hx
      have hx2 := (orderedInsertQs_perm p rest).mem_iff.mp hx
      rcases List.mem_cons.mp hx2 with rfl | hx3
      · exact hqp
      · exact hl.1 x hx3

theorem sortQs_pairwise (l : List (List Char × List (List Char))) :
    (sortQs l).Pairwise (fun x y => lexLeCh x.1 y.1 = true) := by
  induction l with
  | nil => exact List.Pairwise.nil
  | cons p rest ih => exact orderedInsertQs_pairwise ih

theorem sortQs_of_pairwise {l : List (List Char × List (List Char))}
    (hl : l.Pairwise (fun x y => lexLeCh x.1 y.1 = true)) : sortQs l = l := by
  induction l with
  | nil => rfl
  | cons p rest ih =>
    rw [List.pairwise_cons] at hl
    show orderedInsertQs p (sortQs rest) = p :: rest
    rw [ih hl.2]
    cases rest with
    | nil => rfl
    | cons q qs =>
      rw [orderedInsertQs, if_pos (hl.1 q (List.mem_cons_self q qs))]

theorem addToDict_keys (d : List (List Char × List (List Char)))
    (k : List Char) (v : List Char) :
    (addToDict d k v).map Prod.fst =
      if k ∈ d.map Prod.fst then d.map Prod.fst else d.map Prod.fst ++ [k] := by
  induction d with
  | nil => simp [addToDict]
  | cons p rest ih =>
    by_cases hk : p.1 = k
    · rw [addToDict.eq_def]
      simp only [hk, if_pos rfl]
      have : k ∈ (p :: rest).map Prod.fst := by simp [hk]
      rw [if_pos this, if_pos trivial, List.map_cons, List.map_cons, hk]
    · rw [addToDict_cons_ne v hk, List.map_cons, ih, List.map_cons]
      by_cases hm : k ∈ rest.map Prod.fst
      · rw [if_pos hm, if_pos (by simp [hm])]
      · rw [if_neg hm, if_neg (by
          simp only [List.mem_cons]
          rintro (h | h)
          · exact hk h.symm
          · exact hm h)]
        rfl

theorem addToDict_values (P : List Char → Prop)
    {d : List (List Char × List (List Char))} {k v : List Char}
    (hd : ∀ p ∈ d, p.2 ≠ [] ∧ ∀ w ∈ p.2, P w) (hv : P v) :
    ∀ p ∈ addToDict d k v, p.2 ≠ [] ∧ ∀ w ∈ p.2, P w := by
  induction d with
  | nil =>
    intro p hp
    rw [show addToDict [] k v = [(k, [v])] from rfl, List.mem_singleton] at hp
    subst hp
    exact ⟨by simp, by simpa using hv⟩
  | cons q rest ih =>
    intro p hp
    by_cases hk : q.1 = k
    · rw [addToDict.eq_def] at hp
      simp only [hk, if_pos rfl] at hp
      rcases List.mem_cons.mp hp with rfl | hp2
      · have hq := hd q (List.mem_cons_self q rest)
        constructor
        · simp
        · intro w hw
          rcases List.mem_append.mp hw with h | h
          · exact hq.2 w h
          · rw [List.mem_singleton] at h
            exact h ▸ hv
      · exact hd p (List.mem_cons_of_mem q hp2)
    · rw [addToDict_cons_ne v hk] at hp
      rcases List.mem_cons.mp hp with rfl | hp2
      · exact hd p (List.mem_cons_self p rest)
      · exact ih (fun r hr => hd r (List.mem_cons_of_mem q hr)) p hp2

theorem foldl_addToDict_inv (pairs : List (List Char × List Char))
    (hpairs : ∀ r ∈ pairs, r.2 ≠ []) :
    ∀ d, (d.map Prod.fst).Nodup → (∀ p ∈ d, p.2 ≠ [] ∧ ∀ v ∈ p.2, v ≠ []) →
    ((pairs.foldl (fun d q => addToDict d q.1 q.2) d).map Prod.fst).Nodup ∧
    ∀ p ∈ pairs.foldl (fun d q => addToDict d q.1 q.2) d,
      p.2 ≠ [] ∧ ∀ v ∈ p.2, v ≠ [] := by
  induction pairs with
  | nil =>
    intro d h1 h2
    exact ⟨h1, h2⟩
  | cons r rest ih =>
    intro d h1 h2
    rw [List.foldl_cons]
    apply ih (fun x hx => hpairs x (List.mem_cons_of_mem r hx))
    · rw [addToDict_keys]
      split
      · exact h1
      · rename_i hnm
        rw [List.nodup_append]
        exact ⟨h1, List.nodup_singleton _, by
          intro a ha hb
          rw [List.mem_singleton] at hb
          exact hnm (hb ▸ ha)⟩
    · exact addToDict_values _ h2 (hpairs r (List.mem_cons_self r rest))

theorem pctScan_ne_nil {s : List Char} (hs : s ≠ []) : pctScan s ≠ [] := by
  cases s with
  | nil => exact absurd rfl hs
  | cons c rest =>
    rw [pctScan.eq_def]
    dsimp only
    by_cases hc : c = '%'
    · rw [if_pos hc]
      cases rest with
      | nil => simp
      | cons c1 rest1 =>
        cases rest1 with
        | nil => simp
        | cons c2 rest2 =>
          dsimp only
          split <;> simp
    · rw [if_neg hc]
      simp

theorem utf8DecodeReplace_ne_nil {bs : List ℕ} (hbs : bs ≠ []) :
    utf8DecodeReplace bs ≠ [] := by
  cases bs with
  | nil => exact absurd rfl hbs
  | cons b rest =>
    rw [utf8DecodeReplace.eq_def]
    dsimp only
    repeat' split
    all_goals simp

theorem decodeScanAux_ne_nil : ∀ (l : List (Sum ℕ Char)) (acc : List ℕ),
    acc ≠ [] ∨ l ≠ [] → decodeScanAux acc l ≠ [] := by
  intro l
  induction l with
  | nil =>
    intro acc h
    rcases h with h | h
    · exact utf8DecodeReplace_ne_nil (by simpa using h)
    · exact absurd rfl h
  | cons x rest ih =>
    intro acc _
    cases x with
    | inl b =>
      show decodeScanAux (b :: acc) rest ≠ []
      exact ih (b :: acc) (Or.inl (by simp))
    | inr c =>
      show utf8DecodeReplace acc.reverse ++ c :: decodeScanAux [] rest ≠ []
      simp

theorem unquotePlus_ne_nil {s : List Char} (hs : s ≠ []) : unquotePlus s ≠ [] := by
  have hm : (s.map fun c => if c = '+' then ' ' else c) ≠ [] := by
    simpa using hs
  exact decodeScanAux_ne_nil _ [] (Or.inr (pctScan_ne_nil hm))

theorem parseQsl_values_ne_nil (qs : List Char) :
    ∀ r ∈ parseQsl qs, r.2 ≠ [] := by
  intro r hr
  rw [parseQsl] at hr
  rcases List.mem_filterMap.mp hr with ⟨nv, _, hp⟩
  rw [qslPiece] at hp
  split at hp
  · cases hp
  · split at hp
    · cases hp
    · rename_i p _
      split at hp
      · cases hp
      · rename_i hpe
        rw [Option.some_inj] at hp
        rw [← hp]
        exact unquotePlus_ne_nil (by simpa [List.isEmpty_iff] using hpe)

theorem parseQs_invariants (qs : List Char) :
    ((parseQs qs).map Prod.fst).Nodup ∧
    ∀ p ∈ parseQs qs, p.2 ≠ [] ∧ ∀ v ∈ p.2, v ≠ [] := by
  unfold parseQs
  exact foldl_addToDict_inv (parseQsl qs) (parseQsl_values_ne_nil qs) []
    (by simp) (by simp)

theorem newQuery_parse_fixpoint (q : List Char) :
    parseQs (urlencodeSorted (sortQs ((parseQs q).filter fun kv => !isStripParam kv.1))) =
      sortQs ((parseQs q).filter fun kv => !isStripParam kv.1) := by
  have hinv := parseQs_invariants q
  have hFsub : ((parseQs q).filter fun kv => !isStripParam kv.1) ⊆ parseQs q :=
    fun x hx => List.mem_of_mem_filter hx
  have hperm := sortQs_perm ((parseQs q).filter fun kv => !isStripParam kv.1)
  apply parseQs_urlencode
  · have h1 : (((parseQs q).filter fun kv => !isStripParam kv.1).map Prod.fst).Nodup :=
      List.Nodup.sublist ((List.filter_sublist _).map Prod.fst) hinv.1
    exact (hperm.map Prod.fst).nodup_iff.mpr h1
  · intro p hp
    exact (hinv.2 p (hFsub (hperm.mem_iff.mp hp))).1
  · intro p hp
    exact (hinv.2 p (hFsub (hperm.mem_iff.mp hp))).2

theorem newQuery_idem (q : List Char) :
    urlencodeSorted (sortQs ((parseQs (urlencodeSorted (sortQs ((parseQs q).filter
        fun kv => !isStripParam kv.1)))).filter fun kv => !isStripParam kv.1)) =
      urlencodeSorted (sortQs ((parseQs q).filter fun kv => !isStripParam kv.1)) := by
  rw [newQuery_parse_fixpoint]
  have hfix : (sortQs ((parseQs q).filter fun kv => !isStripParam kv.1)).filter
      (fun kv => !isStripParam kv.1) =
      sortQs ((parseQs q).filter fun kv => !isStripParam kv.1) := by
    apply List.filter_eq_self.mpr
    intro p hp
    have := (sortQs_perm _).mem_iff.mp hp
    exact (List.mem_filter.mp this).2
  rw [hfix, sortQs_of_pairwise (sortQs_pairwise _)]

/-! ### C7 support: scanning inversions and case-folding facts -/

theorem findChar_none_inv {c : Char} : ∀ {cs : List Char},
    findChar c cs = Option.none → c ∉ cs := by
  intro cs
  induction cs with
  | nil => intro _ hm; cases hm
  | cons d rest ih =>
    intro h hm
    rw [findChar] at h
    by_cases hd : d = c
    · rw [if_pos hd] at h; cases h
    · rw [if_neg hd] at h
      cases hf : findChar c rest with
      | none =>
        rcases List.mem_cons.mp hm with h1 | h1
        · exact hd h1.symm
        · exact ih hf h1
      | some j => rw [hf] at h; cases h

theorem findChar_mem_some {c : Char} {cs : List Char} (h : c ∈ cs) :
    ∃ i, findChar c cs = some i := by
  cases hf : findChar c cs with
  | none => exact absurd h (findChar_none_inv hf)
  | some i => exact ⟨i, rfl⟩

theorem findChar_some_split {c : Char} : ∀ {cs : List Char} {i : ℕ},
    findChar c cs = some i → ∃ a b, cs = a ++ c :: b ∧ a.length = i ∧ c ∉ a := by
  intro cs
  induction cs with
  | nil => intro i h; cases h
  | cons d rest ih =>
    intro i h
    rw [findChar] at h
    by_cases hd : d = c
    · rw [if_pos hd] at h
      rw [Option.some_inj] at h
      subst hd
      exact ⟨[], rest, by simp, by simp [← h], by simp⟩
    · rw [if_neg hd] at h
      cases hf : findChar c rest with
      | none => rw [hf] at h; cases h
      | some j =>
        rw [hf] at h
        rw [Option.some_inj] at h
        obtain ⟨a, b, rfl, hl, hna⟩ := ih hf
        refine ⟨d :: a, b, by simp, by simp [hl, ← h], ?_⟩
        intro hm
        rcases List.mem_cons.mp hm with h1 | h1
        · exact hd h1.symm
        · exact hna h1

theorem findChar_cons_ne {c d : Char} (rest : List Char) (hd : ¬ d = c) :
    findChar c (d :: rest) =
      match findChar c rest with
      | some i => some (i + 1)
      | Option.none => Option.none := by
  rw [findChar, if_neg hd]

theorem rfindChar_not_mem {c : Char} {cs : List Char} (h : c ∉ cs) :
    rfindChar c cs = Option.none := by
  rw [rfindChar, findChar_not_mem (by simpa using h)]

theorem rfindChar_none_inv {c : Char} {cs : List Char}
    (h : rfindChar c cs = Option.none) : c ∉ cs := by
  rw [rfindChar] at h
  cases hf : findChar c cs.reverse with
  | none =>
    intro hm
    exact findChar_none_inv hf (by simpa using hm)
  | some j => rw [hf] at h; cases h

theorem rfindChar_append {c : Char} (a b : List Char) (hb : c ∉ b) :
    rfindChar c (a ++ c :: b) = some a.length := by
  rw [rfindChar]
  have hrev : (a ++ c :: b).reverse = b.reverse ++ c :: a.reverse := by simp
  rw [hrev, findChar_append_cons (by simpa using hb)]
  dsimp only
  congr 1
  simp only [List.length_append, List.length_cons, List.length_reverse]
  omega

theorem rfindChar_some_split {c : Char} {cs : List Char} {i : ℕ}
    (h : rfindChar c cs = some i) :
    ∃ a b, cs = a ++ c :: b ∧ a.length = i ∧ c ∉ b := by
  rw [rfindChar] at h
  cases hf : findChar c cs.reverse with
  | none => rw [hf] at h; cases h
  | some j =>
    rw [hf] at h
    dsimp only at h
    rw [Option.some_inj] at h
    obtain ⟨ra, rb, hrev, hlen, hna⟩ := findChar_some_split hf
    have hcs : cs = rb.reverse ++ c :: ra.reverse := by
      have h2 := congrArg List.reverse hrev
      simpa using h2
    refine ⟨rb.reverse, ra.reverse, hcs, ?_, by simpa using hna⟩
    have hlcs : cs.length = ra.length + 1 + rb.length := by
      have h3 := congrArg List.length hrev
      simp only [List.length_reverse, List.length_append, List.length_cons] at h3
      omega
    simp only [List.length_reverse]
    omega

theorem findCharFrom_none {c : Char} {start : ℕ} {cs : List Char}
    (h : c ∉ cs.drop start) : findCharFrom c start cs = Option.none := by
  rw [findCharFrom, findChar_not_mem h]

theorem findCharFrom_some {c : Char} {start : ℕ} {cs : List Char} {j : ℕ}
    (h : findChar c (cs.drop start) = some j) :
    findCharFrom c start cs = some (start + j) := by
  rw [findCharFrom, h]

theorem char_le_iff {c d : Char} : c ≤ d ↔ c.toNat ≤ d.toNat := by
  rw [Char.le_def]
  exact uint32_le_iff

theorem char_isAlpha_range {c : Char} (h : c.isAlpha = true) :
    (65 ≤ c.toNat ∧ c.toNat ≤ 90) ∨ (97 ≤ c.toNat ∧ c.toNat ≤ 122) := by
  unfold Char.isAlpha at h
  rcases Bool.or_eq_true_iff.mp h with h1 | h1
  · exact Or.inl (char_isUpper_range h1)
  · exact Or.inr (char_isLower_range h1)

theorem char_isLower_of_range {c : Char} (h1 : 97 ≤ c.toNat) (h2 : c.toNat ≤ 122) :
    c.isLower = true := by
  unfold Char.isLower
  rw [Bool.and_eq_true, decide_eq_true_eq, decide_eq_true_eq]
  exact ⟨uint32_le_iff.mpr h1, uint32_le_iff.mpr h2⟩

theorem toLower_spec (c : Char) :
    (65 ≤ c.toNat ∧ c.toNat ≤ 90 ∧ c.toLower = Char.ofNat (c.toNat + 32)) ∨
    (¬(65 ≤ c.toNat ∧ c.toNat ≤ 90) ∧ c.toLower = c) := by
  unfold Char.toLower
  dsimp only
  by_cases h : c.toNat ≥ 65 ∧ c.toNat ≤ 90
  · rw [if_pos h]
    exact Or.inl ⟨h.1, h.2, rfl⟩
  · rw [if_neg h]
    exact Or.inr ⟨h, rfl⟩

theorem toLower_toNat (c : Char) :
    c.toLower.toNat =
      if 65 ≤ c.toNat ∧ c.toNat ≤ 90 then c.toNat + 32 else c.toNat := by
  rcases toLower_spec c with ⟨h1, h2, h3⟩ | ⟨h, h3⟩
  · rw [h3, if_pos ⟨h1, h2⟩, toNat_ofNat_valid (Or.inl (by omega))]
  · rw [h3, if_neg h]

theorem toLower_idem (c : Char) : c.toLower.toLower = c.toLower := by
  rw [char_eq_iff_toNat]
  simp only [toLower_toNat]
  split_ifs <;> omega

theorem pyLower_idem (s : List Char) : pyLower (pyLower s) = pyLower s := by
  unfold pyLower
  rw [List.map_map]
  apply List.map_congr_left
  intro c _
  exact toLower_idem c

theorem isAlpha_toLower {c : Char} (h : c.isAlpha = true) :
    c.toLower.isAlpha = true := by
  unfold Char.isAlpha
  rw [Bool.or_eq_true_iff]
  right
  rcases char_isAlpha_range h with h1 | h1 <;>
    [skip; skip] <;>
    · apply char_isLower_of_range <;> rw [toLower_toNat] <;> split_ifs <;> omega

theorem isSchemeChar_toLower {c : Char} (h : isSchemeChar c = true) :
    isSchemeChar c.toLower = true := by
  rcases toLower_spec c with ⟨h1, h2, h3⟩ | ⟨_, h3⟩
  · unfold isSchemeChar at h ⊢
    rw [h3]
    have ht : (Char.ofNat (c.toNat + 32)).toNat = c.toNat + 32 :=
      toNat_ofNat_valid (Or.inl (by omega))
    have hl : (Char.ofNat (c.toNat + 32)).isLower = true :=
      char_isLower_of_range (by omega) (by omega)
    have ha : (Char.ofNat (c.toNat + 32)).isAlpha = true := by
      unfold Char.isAlpha
      rw [Bool.or_eq_true_iff]
      exact Or.inr hl
    simp [ha]
  · rw [h3]
    exact h

/-! ### C7 support: scheme detection lemmas -/

theorem splitScheme_cases (url : List Char) :
    splitScheme url = ([], url) ∨
    ∃ c cs b, url = (c :: cs) ++ ':' :: b ∧
      splitScheme url = (pyLower (c :: cs), b) ∧
      c.isAlpha = true ∧ (c :: cs).all isSchemeChar = true := by
  cases hf : findChar ':' url with
  | none =>
    left
    unfold splitScheme
    rw [hf]
  | some i =>
    by_cases hi : 0 < i
    · obtain ⟨a, b, hurl, hlen, hna⟩ := findChar_some_split hf
      cases a with
      | nil =>
        exfalso
        simp at hlen
        omega
      | cons c cs =>
        have htake : url.take i = c :: cs := by
          rw [hurl, ← hlen, take_append_cons_length]
        have hdrop : url.drop (i + 1) = b := by
          rw [hurl, ← hlen, drop_append_cons_length]
        by_cases hchk : (c.isAlpha && (c :: cs).all isSchemeChar) = true
        · right
          have hchk2 := hchk
          rw [Bool.and_eq_true] at hchk2
          refine ⟨c, cs, b, hurl, ?_, hchk2.1, hchk2.2⟩
          unfold splitScheme
          rw [hf]
          dsimp only
          rw [if_pos hi, htake]
          dsimp only
          rw [if_pos hchk, hdrop]
        · left
          unfold splitScheme
          rw [hf]
          dsimp only
          rw [if_pos hi, htake]
          dsimp only
          rw [if_neg hchk]
    · left
      unfold splitScheme
      rw [hf]
      dsimp only
      rw [if_neg hi]

theorem splitScheme_scheme_prefix {c : Char} {cs T : List Char}
    (halpha : c.isAlpha = true) (hsch : ((c :: cs).all isSchemeChar) = true)
    (hlow : pyLower (c :: cs) = c :: cs) :
    splitScheme ((c :: cs) ++ ':' :: T) = (c :: cs, T) := by
  have hnc : ':' ∉ (c :: cs) := by
    intro hmem
    have h1 := (List.all_eq_true.mp hsch) ':' hmem
    exact absurd h1 (by decide)
  have hf : findChar ':' ((c :: cs) ++ ':' :: T) = some (c :: cs).length :=
    findChar_append_cons hnc
  unfold splitScheme
  rw [hf]
  dsimp only
  rw [if_pos (by simp), take_append_cons_length]
  dsimp only
  rw [if_pos (by rw [halpha, hsch]; rfl), hlow, drop_append_cons_length]

theorem splitScheme_head_nonalpha {c : Char} {rest : List Char}
    (h : c.isAlpha = false) : splitScheme (c :: rest) = ([], c :: rest) := by
  cases hf : findChar ':' (c :: rest) with
  | none =>
    unfold splitScheme
    rw [hf]
  | some i =>
    by_cases hi : 0 < i
    · obtain ⟨j, rfl⟩ : ∃ j, i = j + 1 := ⟨i - 1, by omega⟩
      unfold splitScheme
      rw [hf]
      dsimp only
      rw [if_pos hi, List.take_succ_cons]
      dsimp only
      rw [if_neg (by rw [h]; simp)]
    · unfold splitScheme
      rw [hf]
      dsimp only
      rw [if_neg hi]

theorem splitScheme_empty_inv {U : List Char} {i : ℕ}
    (hss : splitScheme U = ([], U)) (hf : findChar ':' U = some i) (hi : 0 < i) :
    ∀ c cs, U.take i = c :: cs → (c.isAlpha && (c :: cs).all isSchemeChar) = false := by
  intro c cs htake
  by_contra hne
  rw [Bool.not_eq_false] at hne
  unfold splitScheme at hss
  rw [hf] at hss
  dsimp only at hss
  rw [if_pos hi, htake] at hss
  dsimp only at hss
  rw [if_pos hne] at hss
  have h1 : pyLower (c :: cs) = [] := congrArg Prod.fst hss
  simp [pyLower] at h1

theorem splitScheme_prefix_invalid {U1 PR T : List Char}
    (hss : splitScheme U1 = ([], U1)) (hpre : ∃ suf, U1 = PR ++ suf)
    (hT : T = [] ∨ ∃ Q, T = '?' :: Q) :
    splitScheme (PR ++ T) = ([], PR ++ T) := by
  obtain ⟨suf, hU1⟩ := hpre
  cases hw : findChar ':' (PR ++ T) with
  | none =>
    unfold splitScheme
    rw [hw]
  | some i =>
    by_cases hi : 0 < i
    · obtain ⟨a, b, hab, hlen, hna⟩ := findChar_some_split hw
      have hlenPRT : PR.length + T.length = i + 1 + b.length := by
        have h0 := congrArg List.length hab
        simp at h0
        omega
      have hinvalid : ∀ c cs, (PR ++ T).take i = c :: cs →
          (c.isAlpha && (c :: cs).all isSchemeChar) = false := by
        intro c cs htake
        have ha_eq : a = c :: cs := by
          rw [← htake, hab, ← hlen, List.take_left]
        by_cases hiPR : i < PR.length
        · -- the colon lies inside PR, so it is also the first colon of U1
          have htake1 : PR.take (i + 1) = a ++ [':'] := by
            have h1 : (PR ++ T).take (i + 1) = PR.take (i + 1) := by
              rw [List.take_append_eq_append_take,
                show i + 1 - PR.length = 0 from by omega, List.take_zero,
                List.append_nil]
            have h2 : (PR ++ T).take (i + 1) = a ++ [':'] := by
              rw [hab, ← hlen,
                show a.length + 1 = (a ++ [':']).length from by simp,
                show a ++ ':' :: b = (a ++ [':']) ++ b from by simp,
                List.take_left]
            rw [← h1, h2]
          have hU1take : U1.take (i + 1) = a ++ [':'] := by
            rw [hU1, List.take_append_eq_append_take,
              show i + 1 - PR.length = 0 from by omega, List.take_zero,
              List.append_nil, htake1]
          have hU1dec : U1 = a ++ ':' :: U1.drop (i + 1) := by
            conv_lhs => rw [← List.take_append_drop (i + 1) U1]
            rw [hU1take]
            simp
          have hfU1 : findChar ':' U1 = some i := by
            rw [hU1dec, findChar_append_cons hna, hlen]
          have hU1takei : U1.take i = c :: cs := by
            rw [hU1dec, ← hlen, take_append_cons_length, ha_eq]
          exact splitScheme_empty_inv hss hfU1 hi c cs hU1takei
        · -- the colon sits at or past the end of PR
          rcases hT with rfl | ⟨Q, rfl⟩
          · exfalso
            simp at hlenPRT
            omega
          · by_cases hie : i = PR.length
            · exfalso
              have h2 := List.append_inj hab (by omega : PR.length = a.length)
              have h3 := h2.2
              injection h3 with h4 h5
              exact absurd h4 (by decide)
            · have hmem : '?' ∈ a := by
                have ha2 : a = (PR ++ '?' :: Q).take i := by
                  rw [hab, ← hlen, List.take_left]
                rw [ha2, List.take_append_eq_append_take,
                  List.take_of_length_le (by omega : PR.length ≤ i)]
                obtain ⟨j, hj⟩ : ∃ j, i - PR.length = j + 1 :=
                  ⟨i - PR.length - 1, by omega⟩
                rw [hj, List.take_succ_cons]
                exact List.mem_append.mpr (Or.inr (List.mem_cons_self _ _))
              have hall : (c :: cs).all isSchemeChar = false := by
                by_contra hne
                rw [Bool.not_eq_false] at hne
                have h5 := List.all_eq_true.mp hne '?' (ha_eq ▸ hmem)
                exact absurd h5 (by decide)
              rw [hall, Bool.and_false]
      obtain ⟨c, cs, htake⟩ : ∃ c cs, (PR ++ T).take i = c :: cs := by
        cases hcase : (PR ++ T).take i with
        | nil =>
          exfalso
          rcases List.take_eq_nil_iff.mp hcase with h | h
          · omega
          · rw [h] at hw
            cases hw
        | cons c cs => exact ⟨c, cs, rfl⟩
      unfold splitScheme
      rw [hw]
      dsimp only
      rw [if_pos hi, htake]
      dsimp only
      rw [if_neg (by rw [hinvalid c cs htake]; simp)]
    · unfold splitScheme
      rw [hw]
      dsimp only
      rw [if_neg hi]

/-! ### C7 support: params split stability -/

theorem reconstructParams_no_semi {x : List Char} (h : ';' ∉ x) :
    reconstructParams x = x := by
  unfold reconstructParams
  rw [if_neg h]
  simp

theorem splitParams_no_slash {a b : List Char} (hsl : '/' ∉ a ++ ';' :: b)
    (hna : ';' ∉ a) :
    splitParams (a ++ ';' :: b) = (a, b) := by
  unfold splitParams
  rw [rfindChar_not_mem hsl]
  dsimp only
  rw [findChar_append_cons hna]
  dsimp only
  rw [take_append_cons_length, drop_append_cons_length]

theorem splitParams_slash_no_semi {d e : List Char} (he : '/' ∉ e)
    (hse : ';' ∉ e) :
    splitParams (d ++ '/' :: e) = (d ++ '/' :: e, []) := by
  unfold splitParams
  rw [rfindChar_append d e he]
  dsimp only
  rw [findCharFrom_none (by
    rw [List.drop_left]
    intro hm
    rcases List.mem_cons.mp hm with h | h
    · exact absurd h (by decide)
    · exact hse h)]

theorem splitParams_slash_semi {d e1 e2 : List Char}
    (he : '/' ∉ e1 ++ ';' :: e2) (hs1 : ';' ∉ e1) :
    splitParams (d ++ '/' :: (e1 ++ ';' :: e2)) = (d ++ '/' :: e1, e2) := by
  unfold splitParams
  rw [rfindChar_append d _ he]
  dsimp only
  have hfc : findChar ';' ((d ++ '/' :: (e1 ++ ';' :: e2)).drop d.length) =
      some (e1.length + 1) := by
    rw [List.drop_left,
      show '/' :: (e1 ++ ';' :: e2) = ('/' :: e1) ++ ';' :: e2 from by simp,
      findChar_append_cons (by
        intro hm
        rcases List.mem_cons.mp hm with h | h
        · exact absurd h (by decide)
        · exact hs1 h)]
    simp
  rw [findCharFrom_some hfc]
  dsimp only
  rw [show d.length + (e1.length + 1) = (d ++ '/' :: e1).length from by simp,
    show d ++ '/' :: (e1 ++ ';' :: e2) = (d ++ '/' :: e1) ++ ';' :: e2 from by simp,
    take_append_cons_length, drop_append_cons_length]

theorem reconstructParams_idem (x : List Char) :
    reconstructParams (reconstructParams x) = reconstructParams x := by
  by_cases hsemi : ';' ∈ x
  case neg => rw [reconstructParams_no_semi hsemi, reconstructParams_no_semi hsemi]
  case pos =>
  cases hrf : rfindChar '/' x with
  | none =>
    have hsl : '/' ∉ x := rfindChar_none_inv hrf
    obtain ⟨i0, hfc⟩ := findChar_mem_some hsemi
    obtain ⟨a, b, rfl, hlen, hna⟩ := findChar_some_split hfc
    have hsp : splitParams (a ++ ';' :: b) = (a, b) := splitParams_no_slash hsl hna
    have hrx : reconstructParams (a ++ ';' :: b) =
        if b ≠ [] then a ++ ';' :: b else a := by
      unfold reconstructParams
      rw [if_pos hsemi, hsp]
    by_cases hb : b = []
    · subst hb
      rw [hrx, if_neg (by simp)]
      exact reconstructParams_no_semi hna
    · rw [hrx, if_pos hb, hrx, if_pos hb]
  | some ls =>
    obtain ⟨d, e, rfl, hdl, hde⟩ := rfindChar_some_split hrf
    by_cases hse : ';' ∈ e
    · obtain ⟨j, hj⟩ := findChar_mem_some hse
      obtain ⟨e1, e2, rfl, hel, hne1⟩ := findChar_some_split hj
      have hsp := @splitParams_slash_semi d e1 e2 hde hne1
      have hrx : reconstructParams (d ++ '/' :: (e1 ++ ';' :: e2)) =
          if e2 ≠ [] then (d ++ '/' :: e1) ++ ';' :: e2 else d ++ '/' :: e1 := by
        unfold reconstructParams
        rw [if_pos hsemi, hsp]
      by_cases he2 : e2 = []
      · subst he2
        rw [hrx, if_neg (by simp)]
        by_cases hsd : ';' ∈ d ++ '/' :: e1
        · have hsp2 : splitParams (d ++ '/' :: e1) = (d ++ '/' :: e1, []) :=
            splitParams_slash_no_semi
              (fun hm => hde (List.mem_append.mpr (Or.inl hm))) hne1
          unfold reconstructParams
          rw [if_pos hsd, hsp2]
          simp
        · exact reconstructParams_no_semi hsd
      · rw [hrx, if_pos he2,
          show (d ++ '/' :: e1) ++ ';' :: e2 = d ++ '/' :: (e1 ++ ';' :: e2) from
            by simp,
          hrx, if_pos he2]
        simp
    · have hsp : splitParams (d ++ '/' :: e) = (d ++ '/' :: e, []) :=
        splitParams_slash_no_semi hde hse
      have hrx : reconstructParams (d ++ '/' :: e) = d ++ '/' :: e := by
        unfold reconstructParams
        rw [if_pos hsemi, hsp]
        simp
      rw [hrx, hrx]

theorem reconstructParams_slash {y : List Char} (hy : reconstructParams y = y) :
    reconstructParams ('/' :: y) = '/' :: y := by
  by_cases hsemi : ';' ∈ y
  case neg =>
    refine reconstructParams_no_semi ?_
    intro hm
    rcases List.mem_cons.mp hm with h | h
    · exact absurd h (by decide)
    · exact hsemi h
  case pos =>
  have hsemi2 : ';' ∈ '/' :: y := List.mem_cons_of_mem _ hsemi
  cases hrf : rfindChar '/' y with
  | none =>
    have hsl : '/' ∉ y := rfindChar_none_inv hrf
    obtain ⟨i0, hfc⟩ := findChar_mem_some hsemi
    obtain ⟨a, b, rfl, hlen, hna⟩ := findChar_some_split hfc
    have hsp1 : splitParams (a ++ ';' :: b) = (a, b) := splitParams_no_slash hsl hna
    have hsp2 : splitParams ('/' :: (a ++ ';' :: b)) = ('/' :: a, b) := by
      have h2 := @splitParams_slash_semi ([] : List Char) a b hsl hna
      simpa using h2
    have hry : reconstructParams (a ++ ';' :: b) =
        if b ≠ [] then a ++ ';' :: b else a := by
      unfold reconstructParams
      rw [if_pos hsemi, hsp1]
    have hry2 : reconstructParams ('/' :: (a ++ ';' :: b)) =
        if b ≠ [] then ('/' :: a) ++ ';' :: b else '/' :: a := by
      unfold reconstructParams
      rw [if_pos hsemi2, hsp2]
    rw [hry2]
    by_cases hb : b = []
    · exfalso
      subst hb
      rw [hry, if_neg (by simp)] at hy
      have h3 := congrArg List.length hy
      simp at h3
    · rw [if_pos hb]
      simp
  | some ls =>
    obtain ⟨d, e, rfl, hdl, hde⟩ := rfindChar_some_split hrf
    by_cases hse : ';' ∈ e
    · obtain ⟨j, hj⟩ := findChar_mem_some hse
      obtain ⟨e1, e2, rfl, hel, hne1⟩ := findChar_some_split hj
      have hsp1 := @splitParams_slash_semi d e1 e2 hde hne1
      have hsp2 : splitParams ('/' :: (d ++ '/' :: (e1 ++ ';' :: e2))) =
          ('/' :: (d ++ '/' :: e1), e2) := by
        have h2 := @splitParams_slash_semi ('/' :: d) e1 e2 hde hne1
        simpa using h2
      have hry : reconstructParams (d ++ '/' :: (e1 ++ ';' :: e2)) =
          if e2 ≠ [] then (d ++ '/' :: e1) ++ ';' :: e2 else d ++ '/' :: e1 := by
        unfold reconstructParams
        rw [if_pos hsemi, hsp1]
      have hry2 : reconstructParams ('/' :: (d ++ '/' :: (e1 ++ ';' :: e2))) =
          if e2 ≠ [] then ('/' :: (d ++ '/' :: e1)) ++ ';' :: e2
          else '/' :: (d ++ '/' :: e1) := by
        unfold reconstructParams
        rw [if_pos hsemi2, hsp2]
      rw [hry2]
      by_cases he2 : e2 = []
      · exfalso
        subst he2
        rw [hry, if_neg (by simp)] at hy
        have h3 := congrArg List.length hy
        simp at h3
      · rw [if_pos he2]
        simp
    · have hsp2 : splitParams ('/' :: (d ++ '/' :: e)) =
          ('/' :: (d ++ '/' :: e), []) := by
        have h2 := @splitParams_slash_no_semi ('/' :: d) e hde hse
        simpa using h2
      unfold reconstructParams
      rw [if_pos hsemi2, hsp2]
      simp

/-! ### C7 support: character sets of the rebuilt URL -/

theorem joinAmp_chars : ∀ {pieces : List (List Char)} {c : Char},
    c ∈ joinAmp pieces → c = '&' ∨ ∃ p ∈ pieces, c ∈ p := by
  intro pieces
  induction pieces with
  | nil => intro c hc; cases hc
  | cons x xs ih =>
    intro c hc
    cases xs with
    | nil =>
      right
      exact ⟨x, by simp, hc⟩
    | cons y ys =>
      rw [show joinAmp (x :: y :: ys) = x ++ '&' :: joinAmp (y :: ys) from rfl] at hc
      rcases List.mem_append.mp hc with h | h
      · right
        exact ⟨x, by simp, h⟩
      · rcases List.mem_cons.mp h with h1 | h1
        · exact Or.inl h1
        · rcases ih h1 with h2 | ⟨p, hp, hcp⟩
          · exact Or.inl h2
          · right
            exact ⟨p, List.mem_cons_of_mem x hp, hcp⟩

theorem urlencodeSorted_chars {L : List (List Char × List (List Char))} {c : Char}
    (hc : c ∈ urlencodeSorted L) :
    alwaysSafe c = true ∨ c = '%' ∨ c = '+' ∨ c = '&' ∨ c = '=' := by
  unfold urlencodeSorted at hc
  rcases joinAmp_chars hc with h | ⟨p, hp, hcp⟩
  · exact Or.inr (Or.inr (Or.inr (Or.inl h)))
  · rcases List.mem_flatMap.mp hp with ⟨kv, _, hpk⟩
    rcases List.mem_map.mp hpk with ⟨v, _, rfl⟩
    rcases List.mem_append.mp hcp with h1 | h1
    · rcases quotePlus_chars h1 with h2 | h2 | h2
      · exact Or.inl h2
      · exact Or.inr (Or.inr (Or.inl h2))
      · exact Or.inr (Or.inl h2)
    · rcases List.mem_cons.mp h1 with h1 | h1
      · exact Or.inr (Or.inr (Or.inr (Or.inr h1)))
      · rcases quotePlus_chars h1 with h2 | h2 | h2
        · exact Or.inl h2
        · exact Or.inr (Or.inr (Or.inl h2))
        · exact Or.inr (Or.inl h2)

theorem alwaysSafe_ranges {c : Char} (h : alwaysSafe c = true) :
    (65 ≤ c.toNat ∧ c.toNat ≤ 90) ∨ (97 ≤ c.toNat ∧ c.toNat ≤ 122) ∨
    (48 ≤ c.toNat ∧ c.toNat ≤ 57) ∨ c.toNat = 95 ∨ c.toNat = 46 ∨
    c.toNat = 45 ∨ c.toNat = 126 := by
  unfold alwaysSafe at h
  rcases Bool.or_eq_true_iff.mp h with h1 | h1
  rcases Bool.or_eq_true_iff.mp h1 with h2 | h2
  rcases Bool.or_eq_true_iff.mp h2 with h3 | h3
  rcases Bool.or_eq_true_iff.mp h3 with h4 | h4
  rcases Bool.or_eq_true_iff.mp h4 with h5 | h5
  · rcases char_isAlpha_range h5 with h6 | h6
    · exact Or.inl h6
    · exact Or.inr (Or.inl h6)
  · exact Or.inr (Or.inr (Or.inl (char_isDigit_range h5)))
  · rw [decide_eq_true_eq] at h4
    rw [h4]
    right; right; right; left; rfl
  · rw [decide_eq_true_eq] at h3
    rw [h3]
    right; right; right; right; left; rfl
  · rw [decide_eq_true_eq] at h2
    rw [h2]
    right; right; right; right; right; left; rfl
  · rw [decide_eq_true_eq] at h1
    rw [h1]
    right; right; right; right; right; right; rfl

theorem urlencodeSorted_char_facts {L : List (List Char × List (List Char))} :
    ∀ c ∈ urlencodeSorted L,
      ¬c = '#' ∧ ¬c = '\t' ∧ ¬c = '\r' ∧ ¬c = '\n' := by
  intro c hc
  rcases urlencodeSorted_chars hc with h | h | h | h | h
  · have hr := alwaysSafe_ranges h
    refine ⟨?_, ?_, ?_, ?_⟩ <;> intro he <;> rw [char_eq_iff_toNat] at he <;>
      revert he <;>
      · intro he
        rcases hr with h6 | h6 | h6 | h6 | h6 | h6 | h6 <;> simp at he <;> omega
  all_goals
    subst h
    exact ⟨by decide, by decide, by decide, by decide⟩

theorem removeUnsafeBytes_eq_self {x : List Char}
    (h : ∀ c ∈ x, ¬c = '\t' ∧ ¬c = '\r' ∧ ¬c = '\n') :
    removeUnsafeBytes x = x := by
  unfold removeUnsafeBytes
  apply List.filter_eq_self.mpr
  intro c hc
  obtain ⟨h1, h2, h3⟩ := h c hc
  simp [h1, h2, h3]

theorem removeUnsafeBytes_chars {x : List Char} :
    ∀ c ∈ removeUnsafeBytes x, ¬c = '\t' ∧ ¬c = '\r' ∧ ¬c = '\n' := by
  intro c hc
  unfold removeUnsafeBytes at hc
  have h2 := (List.mem_filter.mp hc).2
  simp only [Bool.not_eq_true', Bool.or_eq_false_iff, decide_eq_false_iff_not] at h2
  exact ⟨h2.1.1, h2.1.2, h2.2⟩

theorem toLower_not_unsafe {c : Char} (h : ¬c = '\t' ∧ ¬c = '\r' ∧ ¬c = '\n') :
    ¬c.toLower = '\t' ∧ ¬c.toLower = '\r' ∧ ¬c.toLower = '\n' := by
  rcases toLower_spec c with ⟨h1, h2, h3⟩ | ⟨_, h3⟩
  · rw [h3]
    have ht : (Char.ofNat (c.toNat + 32)).toNat = c.toNat + 32 :=
      toNat_ofNat_valid (Or.inl (by omega))
    refine ⟨?_, ?_, ?_⟩ <;> intro he <;> rw [char_eq_iff_toNat, ht] at he <;>
      revert he <;> simp
  · rw [h3]
    exact h

/-! ### C7 support: rebuilding urlunsplit and reparsing its output -/

theorem urlunsplit_branch1 {S N PR Q : List Char}
    (hcond : N ≠ [] ∨ (PR ≠ [] ∧ PR.take 2 = ['/', '/'])) :
    urlunsplit S N PR Q [] =
      (if S = [] then [] else S ++ [':']) ++
      ('/' :: '/' :: (N ++
        ((if PR ≠ [] ∧ PR.take 1 ≠ ['/'] then '/' :: PR else PR) ++
          if Q = [] then [] else '?' :: Q))) := by
  unfold urlunsplit
  dsimp only
  rw [if_pos hcond]
  rw [if_neg (by simp : ¬(([] : List Char) ≠ []))]
  by_cases hS : S = [] <;> by_cases hQ : Q = [] <;>
    by_cases hP : PR ≠ [] ∧ PR.take 1 ≠ ['/'] <;>
    simp [hS, hQ, hP, List.append_assoc]

theorem urlunsplit_branch2 {S N PR Q : List Char}
    (hcond : ¬(N ≠ [] ∨ (PR ≠ [] ∧ PR.take 2 = ['/', '/']))) :
    urlunsplit S N PR Q [] =
      (if S = [] then [] else S ++ [':']) ++
      (PR ++ if Q = [] then [] else '?' :: Q) := by
  unfold urlunsplit
  dsimp only
  rw [if_neg hcond]
  rw [if_neg (by simp : ¬(([] : List Char) ≠ []))]
  by_cases hS : S = [] <;> by_cases hQ : Q = [] <;>
    simp [hS, hQ, List.append_assoc]

theorem pyUrlsplit_of_stages {W S rest N PR0 Q : List Char}
    (hrm : removeUnsafeBytes W = W)
    (hsch : splitScheme W = (S, rest))
    (hrest : rest = '/' :: '/' :: (N ++ (PR0 ++ if Q = [] then [] else '?' :: Q)))
    (hN : ∀ c ∈ N, isNetlocDelim c = false)
    (hBr : bracketsOk N = true)
    (hPR0 : PR0 = [] ∨ ∃ t, PR0 = '/' :: t)
    (hPh : '#' ∉ PR0) (hPq : '?' ∉ PR0) (hQh : '#' ∉ Q) :
    pyUrlsplit W = some ⟨S, N, PR0, Q, []⟩ := by
  have hqa : PR0 ++ (if Q = [] then [] else '?' :: Q) = [] ∨
      ∃ d ds, PR0 ++ (if Q = [] then [] else '?' :: Q) = d :: ds ∧
        isNetlocDelim d = true := by
    rcases hPR0 with rfl | ⟨t, rfl⟩
    · by_cases hQ : Q = []
      · left
        simp [hQ]
      · right
        exact ⟨'?', Q, by simp [hQ], by decide⟩
    · right
      exact ⟨'/', t ++ (if Q = [] then [] else '?' :: Q), by simp, by decide⟩
  have hnet : splitNetloc (N ++ (PR0 ++ if Q = [] then [] else '?' :: Q)) =
      (N, PR0 ++ if Q = [] then [] else '?' :: Q) :=
    splitNetloc_append (fun c hc => by simp [hN c hc]) hqa
  have hfrag : '#' ∉ PR0 ++ (if Q = [] then [] else '?' :: Q) := by
    intro hm
    rcases List.mem_append.mp hm with h | h
    · exact hPh h
    · by_cases hQ : Q = []
      · rw [if_pos hQ] at h
        cases h
      · rw [if_neg hQ] at h
        rcases List.mem_cons.mp h with h1 | h1
        · exact absurd h1 (by decide)
        · exact hQh h1
  unfold pyUrlsplit
  dsimp only
  rw [hrm, hsch]
  dsimp only
  rw [hrest]
  rw [if_pos (by simp : ('/' :: '/' :: (N ++ (PR0 ++
    if Q = [] then [] else '?' :: Q))).take 2 = ['/', '/'])]
  rw [show ('/' :: '/' :: (N ++ (PR0 ++
    if Q = [] then [] else '?' :: Q))).drop 2 = N ++ (PR0 ++
    if Q = [] then [] else '?' :: Q) from by simp]
  rw [hnet]
  dsimp only
  rw [hBr]
  rw [if_neg (by simp)]
  rw [splitOnceChar_not_mem hfrag]
  dsimp only
  by_cases hQ : Q = []
  · rw [if_pos hQ, List.append_nil, splitOnceChar_not_mem hPq]
    rw [hQ]
  · rw [if_neg hQ, splitOnceChar_append Q hPq]

theorem splitScheme_nil : splitScheme ([] : List Char) = ([], []) := rfl

theorem pyUrlsplit_of_stages2 {W S rest PR Q : List Char}
    (hrm : removeUnsafeBytes W = W)
    (hsch : splitScheme W = (S, rest))
    (hrest : rest = PR ++ if Q = [] then [] else '?' :: Q)
    (htk2 : ¬ rest.take 2 = ['/', '/'])
    (hPh : '#' ∉ PR) (hPq : '?' ∉ PR) (hQh : '#' ∉ Q) :
    pyUrlsplit W = some ⟨S, [], PR, Q, []⟩ := by
  have hfrag : '#' ∉ PR ++ (if Q = [] then [] else '?' :: Q) := by
    intro hm
    rcases List.mem_append.mp hm with h | h
    · exact hPh h
    · by_cases hQ : Q = []
      · rw [if_pos hQ] at h
        cases h
      · rw [if_neg hQ] at h
        rcases List.mem_cons.mp h with h1 | h1
        · exact absurd h1 (by decide)
        · exact hQh h1
  unfold pyUrlsplit
  dsimp only
  rw [hrm, hsch]
  dsimp only
  rw [if_neg htk2]
  dsimp only
  rw [show (!bracketsOk ([] : List Char)) = false from by decide]
  rw [if_neg (by simp)]
  rw [hrest, splitOnceChar_not_mem hfrag]
  dsimp only
  by_cases hQ : Q = []
  · rw [if_pos hQ, List.append_nil, splitOnceChar_not_mem hPq]
    rw [hQ]
  · rw [if_neg hQ, splitOnceChar_append Q hPq]

/-- Re-parsing the unsplit of parse-shaped components recovers the same
scheme, query and empty fragment, and unparsing the result rebuilds the
same string. -/
theorem pyUrlparse_unsplit_roundtrip (S N PR Q : List Char)
    (hS : S = [] ∨ ∃ c cs, S = c :: cs ∧ c.isAlpha = true ∧
        (c :: cs).all isSchemeChar = true ∧ pyLower S = S)
    (hSF : S = [] → N = [] → ¬(PR ≠ [] ∧ PR.take 2 = ['/', '/']) →
        PR = [] ∨ (∃ c rest, PR = c :: rest ∧ c.isAlpha = false) ∨
        ∃ U1 suf, splitScheme U1 = ([], U1) ∧ U1 = PR ++ suf)
    (hN : ∀ c ∈ N, isNetlocDelim c = false)
    (hBr : bracketsOk N = true)
    (hPh : '#' ∉ PR) (hPq : '?' ∉ PR)
    (hstab : reconstructParams PR = PR)
    (hsafe : ∀ c ∈ S ++ N ++ PR, ¬c = '\t' ∧ ¬c = '\r' ∧ ¬c = '\n')
    (hQh : '#' ∉ Q)
    (hQsafe : ∀ c ∈ Q, ¬c = '\t' ∧ ¬c = '\r' ∧ ¬c = '\n') :
    ∃ N2 P2 R2,
      pyUrlparse (urlunsplit S N PR Q []) = some ⟨S, N2, P2, R2, Q, []⟩ ∧
      urlunparse ⟨S, N2, P2, R2, Q, []⟩ = urlunsplit S N PR Q [] := by
  have hsafeS : ∀ c ∈ S, ¬c = '\t' ∧ ¬c = '\r' ∧ ¬c = '\n' :=
    fun c hc => hsafe c (List.mem_append.mpr (Or.inl (List.mem_append.mpr (Or.inl hc))))
  have hsafeN : ∀ c ∈ N, ¬c = '\t' ∧ ¬c = '\r' ∧ ¬c = '\n' :=
    fun c hc => hsafe c (List.mem_append.mpr (Or.inl (List.mem_append.mpr (Or.inr hc))))
  have hsafePR : ∀ c ∈ PR, ¬c = '\t' ∧ ¬c = '\r' ∧ ¬c = '\n' :=
    fun c hc => hsafe c (List.mem_append.mpr (Or.inr hc))
  by_cases hcond : N ≠ [] ∨ (PR ≠ [] ∧ PR.take 2 = ['/', '/'])
  · -- the netloc branch of urlunsplit
    set PR0 := if PR ≠ [] ∧ PR.take 1 ≠ ['/'] then '/' :: PR else PR with hPR0def
    have hW := @urlunsplit_branch1 S N PR Q hcond
    rw [← hPR0def] at hW
    have hPR0shape : PR0 = [] ∨ ∃ t, PR0 = '/' :: t := by
      rw [hPR0def]
      split
      · right
        exact ⟨PR, rfl⟩
      · rename_i h
        by_cases hPRnil : PR = []
        · left
          exact hPRnil
        · right
          have h1 : PR.take 1 = ['/'] := by
            by_contra h2
            exact h ⟨hPRnil, h2⟩
          cases PR with
          | nil => exact absurd rfl hPRnil
          | cons a t =>
            have ha : a = '/' := by
              have h3 : ([a] : List Char) = ['/'] := h1
              injection h3 with h4 _
            exact ⟨t, by rw [ha]⟩
    have hPR0mem : ∀ c ∈ PR0, c = '/' ∨ c ∈ PR := by
      intro c hc
      rw [hPR0def] at hc
      split at hc
      · rcases List.mem_cons.mp hc with h | h
        · exact Or.inl h
        · exact Or.inr h
      · exact Or.inr hc
    have hPh0 : '#' ∉ PR0 := by
      intro hm
      rcases hPR0mem _ hm with h | h
      · exact absurd h (by decide)
      · exact hPh h
    have hPq0 : '?' ∉ PR0 := by
      intro hm
      rcases hPR0mem _ hm with h | h
      · exact absurd h (by decide)
      · exact hPq h
    have hstab0 : reconstructParams PR0 = PR0 := by
      rw [hPR0def]
      split
      · exact reconstructParams_slash hstab
      · exact hstab
    have hsafeW : removeUnsafeBytes (urlunsplit S N PR Q []) =
        urlunsplit S N PR Q [] := by
      rw [hW]
      apply removeUnsafeBytes_eq_self
      intro c hc
      rcases List.mem_append.mp hc with h | h
      · split at h
        · cases h
        · rcases List.mem_append.mp h with h1 | h1
          · exact hsafeS c h1
          · rw [List.mem_singleton] at h1
            subst h1
            exact ⟨by decide, by decide, by decide⟩
      · rcases List.mem_cons.mp h with h1 | h1
        · subst h1
          exact ⟨by decide, by decide, by decide⟩
        · rcases List.mem_cons.mp h1 with h2 | h2
          · subst h2
            exact ⟨by decide, by decide, by decide⟩
          · rcases List.mem_append.mp h2 with h3 | h3
            · exact hsafeN c h3
            · rcases List.mem_append.mp h3 with h4 | h4
              · rcases hPR0mem c h4 with h5 | h5
                · subst h5
                  exact ⟨by decide, by decide, by decide⟩
                · exact hsafePR c h5
              · split at h4
                · cases h4
                · rcases List.mem_cons.mp h4 with h5 | h5
                  · subst h5
                    exact ⟨by decide, by decide, by decide⟩
                  · exact hQsafe c h5
    obtain ⟨rest, hsch, hrest⟩ :
        ∃ rest, splitScheme (urlunsplit S N PR Q []) = (S, rest) ∧
          rest = '/' :: '/' :: (N ++ (PR0 ++ if Q = [] then [] else '?' :: Q)) := by
      rcases hS with rfl | ⟨c, cs, rfl, halpha, hschc, hlow⟩
      · refine ⟨_, ?_, rfl⟩
        rw [hW]
        rw [show (if ([] : List Char) = [] then ([] : List Char) else [] ++ [':']) =
          [] from by simp, List.nil_append]
        exact splitScheme_head_nonalpha (by decide)
      · refine ⟨_, ?_, rfl⟩
        rw [hW]
        rw [show (if (c :: cs : List Char) = [] then ([] : List Char)
          else (c :: cs) ++ [':']) = (c :: cs) ++ [':'] from by simp,
          List.append_assoc, List.singleton_append]
        exact splitScheme_scheme_prefix halpha hschc hlow
    have hsplit := pyUrlsplit_of_stages hsafeW hsch hrest hN hBr hPR0shape
      hPh0 hPq0 hQh
    obtain ⟨P2, R2, hpq⟩ :
        ∃ P2 R2, (if ';' ∈ PR0 then splitParams PR0 else (PR0, [])) = (P2, R2) :=
      ⟨_, _, rfl⟩
    have hrec : (if R2 ≠ [] then P2 ++ ';' :: R2 else P2) = PR0 := by
      unfold reconstructParams at hstab0
      rw [hpq] at hstab0
      dsimp only at hstab0
      exact hstab0
    refine ⟨N, P2, R2, ?_, ?_⟩
    · unfold pyUrlparse
      rw [hsplit]
      dsimp only
      rw [hpq]
    · unfold urlunparse
      dsimp only
      rw [hrec]
      have hcond2 : N ≠ [] ∨ (PR0 ≠ [] ∧ PR0.take 2 = ['/', '/']) := by
        rcases hcond with h | ⟨h1, h2⟩
        · exact Or.inl h
        · right
          have hPR0eq : PR0 = PR := by
            rw [hPR0def, if_neg]
            rintro ⟨_, h4⟩
            apply h4
            cases PR with
            | nil => exact absurd rfl h1
            | cons a t =>
              cases t with
              | nil =>
                exfalso
                have h5 : ([a] : List Char) = ['/', '/'] := h2
                simp at h5
              | cons b t2 =>
                have h5 : ([a, b] : List Char) = ['/', '/'] := h2
                injection h5 with h6 _
                rw [show (a :: b :: t2 : List Char).take 1 = [a] from rfl, h6]
          rw [hPR0eq]
          exact ⟨h1, h2⟩
      rw [urlunsplit_branch1 hcond2, hW]
      rw [show (if PR0 ≠ [] ∧ PR0.take 1 ≠ ['/'] then '/' :: PR0 else PR0) =
        PR0 from by
          rw [if_neg]
          rintro ⟨h1, h2⟩
          rcases hPR0shape with h3 | ⟨t, h3⟩
          · exact h1 h3
          · exact h2 (by rw [h3]; rfl)]
  · -- the plain branch of urlunsplit
    have hNe : N = [] := by
      by_contra h
      exact hcond (Or.inl h)
    have hnPR : ¬(PR ≠ [] ∧ PR.take 2 = ['/', '/']) := fun h => hcond (Or.inr h)
    subst hNe
    have hW := @urlunsplit_branch2 S [] PR Q hcond
    have hsafeW : removeUnsafeBytes (urlunsplit S [] PR Q []) =
        urlunsplit S [] PR Q [] := by
      rw [hW]
      apply removeUnsafeBytes_eq_self
      intro c hc
      rcases List.mem_append.mp hc with h | h
      · split at h
        · cases h
        · rcases List.mem_append.mp h with h1 | h1
          · exact hsafeS c h1
          · rw [List.mem_singleton] at h1
            subst h1
            exact ⟨by decide, by decide, by decide⟩
      · rcases List.mem_append.mp h with h1 | h1
        · exact hsafePR c h1
        · split at h1
          · cases h1
          · rcases List.mem_cons.mp h1 with h5 | h5
            · subst h5
              exact ⟨by decide, by decide, by decide⟩
            · exact hQsafe c h5
    obtain ⟨rest, hsch, hrest⟩ :
        ∃ rest, splitScheme (urlunsplit S [] PR Q []) = (S, rest) ∧
          rest = PR ++ if Q = [] then [] else '?' :: Q := by
      rcases hS with rfl | ⟨c, cs, rfl, halpha, hschc, hlow⟩
      · refine ⟨_, ?_, rfl⟩
        rw [hW]
        rw [show (if ([] : List Char) = [] then ([] : List Char) else [] ++ [':']) =
          [] from by simp, List.nil_append]
        rcases hSF rfl rfl hnPR with rfl | ⟨c, r, hcr, hna⟩ |
          ⟨U1, suf, hss, hU1⟩
        · by_cases hQ : Q = []
          · rw [if_pos hQ]
            exact splitScheme_nil
          · rw [if_neg hQ, List.nil_append]
            exact splitScheme_head_nonalpha (by decide)
        · rw [hcr, List.cons_append]
          exact splitScheme_head_nonalpha hna
        · exact splitScheme_prefix_invalid hss ⟨suf, hU1⟩ (by
            by_cases hQ : Q = []
            · left
              rw [if_pos hQ]
            · right
              exact ⟨Q, by rw [if_neg hQ]⟩)
      · refine ⟨_, ?_, rfl⟩
        rw [hW]
        rw [show (if (c :: cs : List Char) = [] then ([] : List Char)
          else (c :: cs) ++ [':']) = (c :: cs) ++ [':'] from by simp,
          List.append_assoc, List.singleton_append]
        exact splitScheme_scheme_prefix halpha hschc hlow
    have htk2 : ¬(PR ++ if Q = [] then [] else '?' :: Q).take 2 = ['/', '/'] := by
      cases PR with
      | nil =>
        by_cases hQ : Q = []
        · rw [if_pos hQ]
          simp
        · rw [if_neg hQ, List.nil_append]
          intro h
          have h2 : ('?' :: Q).take 2 = '?' :: Q.take 1 := rfl
          rw [h2] at h
          injection h with h3 _
          exact absurd h3 (by decide)
      | cons c1 t1 =>
        cases t1 with
        | nil =>
          by_cases hQ : Q = []
          · rw [if_pos hQ, List.append_nil]
            intro h
            have h2 : ([c1] : List Char).take 2 = [c1] := rfl
            rw [h2] at h
            simp at h
          · rw [if_neg hQ]
            intro h
            have h2 : (([c1] : List Char) ++ '?' :: Q).take 2 = [c1, '?'] := rfl
            rw [h2] at h
            injection h with _ h3
            injection h3 with h4 _
            exact absurd h4 (by decide)
        | cons c2 t2 =>
          intro h
          apply hnPR
          refine ⟨by simp, ?_⟩
          have h2 : ((c1 :: c2 :: t2 : List Char) ++
            if Q = [] then [] else '?' :: Q).take 2 = [c1, c2] := by
            by_cases hQ : Q = []
            · rw [if_pos hQ, List.append_nil]
              rfl
            · rw [if_neg hQ]
              rfl
          rw [h2] at h
          rw [show (c1 :: c2 :: t2 : List Char).take 2 = [c1, c2] from rfl, h]
    rw [← hrest] at htk2
    have hsplit := pyUrlsplit_of_stages2 hsafeW hsch hrest htk2 hPh hPq hQh
    obtain ⟨P2, R2, hpq⟩ :
        ∃ P2 R2, (if ';' ∈ PR then splitParams PR else (PR, [])) = (P2, R2) :=
      ⟨_, _, rfl⟩
    have hrec : (if R2 ≠ [] then P2 ++ ';' :: R2 else P2) = PR := by
      unfold reconstructParams at hstab
      rw [hpq] at hstab
      dsimp only at hstab
      exact hstab
    refine ⟨[], P2, R2, ?_, ?_⟩
    · unfold pyUrlparse
      rw [hsplit]
      dsimp only
      rw [hpq]
    · unfold urlunparse
      dsimp only
      rw [hrec]

/-! ### C7 support: parse postconditions -/

theorem splitOnceChar_some_split {c : Char} {x a b : List Char}
    (h : splitOnceChar c x = some (a, b)) : x = a ++ c :: b ∧ c ∉ a := by
  unfold splitOnceChar at h
  cases hf : findChar c x with
  | none => rw [hf] at h; cases h
  | some i =>
    rw [hf] at h
    dsimp only at h
    rw [Option.some_inj] at h
    obtain ⟨a', b', rfl, hlen, hna⟩ := findChar_some_split hf
    have hta : (a' ++ c :: b').take i = a' := by
      rw [← hlen, take_append_cons_length]
    have htb : (a' ++ c :: b').drop (i + 1) = b' := by
      rw [← hlen, drop_append_cons_length]
    rw [hta, htb] at h
    rw [Prod.mk.injEq] at h
    obtain ⟨h1, h2⟩ := h
    subst h1
    subst h2
    exact ⟨rfl, hna⟩

theorem splitOnceChar_none_inv {c : Char} {x : List Char}
    (h : splitOnceChar c x = Option.none) : c ∉ x := by
  unfold splitOnceChar at h
  cases hf : findChar c x with
  | none => exact findChar_none_inv hf
  | some i => rw [hf] at h; cases h

theorem isNetlocDelim_elim {d : Char} (h : isNetlocDelim d = true) :
    d = '/' ∨ d = '?' ∨ d = '#' := by
  unfold isNetlocDelim at h
  rcases Bool.or_eq_true_iff.mp h with h1 | h1
  rcases Bool.or_eq_true_iff.mp h1 with h2 | h2
  · exact Or.inl (by rwa [decide_eq_true_eq] at h2)
  · exact Or.inr (Or.inl (by rwa [decide_eq_true_eq] at h2))
  · exact Or.inr (Or.inr (by rwa [decide_eq_true_eq] at h1))

theorem scheme_shape_of_pyLower {c : Char} {cs : List Char}
    (halpha : c.isAlpha = true) (hall : (c :: cs).all isSchemeChar = true) :
    ∃ c' cs', pyLower (c :: cs) = c' :: cs' ∧ c'.isAlpha = true ∧
      (c' :: cs').all isSchemeChar = true ∧
      pyLower (pyLower (c :: cs)) = pyLower (c :: cs) := by
  refine ⟨c.toLower, pyLower cs, rfl, isAlpha_toLower halpha, ?_, pyLower_idem _⟩
  rw [show (c.toLower :: pyLower cs : List Char) = pyLower (c :: cs) from rfl]
  rw [List.all_eq_true]
  intro x hx
  rcases List.mem_map.mp hx with ⟨y, hy, rfl⟩
  exact isSchemeChar_toLower (List.all_eq_true.mp hall y hy)

theorem reconstructParams_pre (x : List Char) :
    ∃ s, x = reconstructParams x ++ s := by
  by_cases hsemi : ';' ∈ x
  case neg =>
    exact ⟨[], by rw [reconstructParams_no_semi hsemi, List.append_nil]⟩
  case pos =>
  cases hrf : rfindChar '/' x with
  | none =>
    have hsl : '/' ∉ x := rfindChar_none_inv hrf
    obtain ⟨i0, hfc⟩ := findChar_mem_some hsemi
    obtain ⟨a, b, rfl, hlen, hna⟩ := findChar_some_split hfc
    have hsp : splitParams (a ++ ';' :: b) = (a, b) := splitParams_no_slash hsl hna
    have hrx : reconstructParams (a ++ ';' :: b) =
        if b ≠ [] then a ++ ';' :: b else a := by
      unfold reconstructParams
      rw [if_pos hsemi, hsp]
    by_cases hb : b = []
    · subst hb
      rw [hrx, if_neg (by simp)]
      exact ⟨[';'], by simp⟩
    · rw [hrx, if_pos hb]
      exact ⟨[], by simp⟩
  | some ls =>
    obtain ⟨d, e, rfl, hdl, hde⟩ := rfindChar_some_split hrf
    by_cases hse : ';' ∈ e
    · obtain ⟨j, hj⟩ := findChar_mem_some hse
      obtain ⟨e1, e2, rfl, hel, hne1⟩ := findChar_some_split hj
      have hsp := @splitParams_slash_semi d e1 e2 hde hne1
      have hrx : reconstructParams (d ++ '/' :: (e1 ++ ';' :: e2)) =
          if e2 ≠ [] then (d ++ '/' :: e1) ++ ';' :: e2 else d ++ '/' :: e1 := by
        unfold reconstructParams
        rw [if_pos hsemi, hsp]
      by_cases he2 : e2 = []
      · subst he2
        rw [hrx, if_neg (by simp)]
        exact ⟨[';'], by simp⟩
      · rw [hrx, if_pos he2]
        exact ⟨[], by simp⟩
    · have hsp : splitParams (d ++ '/' :: e) = (d ++ '/' :: e, []) :=
        splitParams_slash_no_semi hde hse
      have hrx : reconstructParams (d ++ '/' :: e) = d ++ '/' :: e := by
        unfold reconstructParams
        rw [if_pos hsemi, hsp]
        simp
      exact ⟨[], by rw [hrx, List.append_nil]⟩

theorem splitHead_facts (c : Char) (x : List Char) :
    ∃ a b, (match splitOnceChar c x with
      | some q => q
      | Option.none => (x, [])) = (a, b) ∧ c ∉ a ∧ ∃ s, x = a ++ s := by
  cases h3 : splitOnceChar c x with
  | none => exact ⟨x, [], rfl, splitOnceChar_none_inv h3, [], by simp⟩
  | some q =>
    obtain ⟨A, B⟩ := q
    obtain ⟨hdec, hna⟩ := splitOnceChar_some_split h3
    exact ⟨A, B, rfl, hna, c :: B, hdec⟩

theorem pyUrlsplit_post {url : List Char} {sp : SplitParts}
    (hsp : pyUrlsplit url = some sp) :
    (sp.scheme = [] ∨ ∃ c cs, sp.scheme = c :: cs ∧ c.isAlpha = true ∧
        (c :: cs).all isSchemeChar = true ∧ pyLower sp.scheme = sp.scheme) ∧
    (∀ c ∈ sp.netloc, isNetlocDelim c = false) ∧
    bracketsOk sp.netloc = true ∧
    '#' ∉ sp.path ∧ '?' ∉ sp.path ∧
    (∀ c ∈ sp.scheme ++ sp.netloc ++ sp.path,
      ¬c = '\t' ∧ ¬c = '\r' ∧ ¬c = '\n') ∧
    (sp.scheme = [] → sp.netloc = [] →
      sp.path = [] ∨ (∃ t, sp.path = '/' :: t) ∨
      (∃ suf, removeUnsafeBytes url = sp.path ++ suf ∧
        splitScheme (removeUnsafeBytes url) = ([], removeUnsafeBytes url))) := by
  unfold pyUrlsplit at hsp
  dsimp only at hsp
  obtain ⟨U, hU⟩ : ∃ U, removeUnsafeBytes url = U := ⟨_, rfl⟩
  rw [hU] at hsp ⊢
  have hUsafe : ∀ c ∈ U, ¬c = '\t' ∧ ¬c = '\r' ∧ ¬c = '\n' := by
    rw [← hU]
    exact removeUnsafeBytes_chars
  obtain ⟨S1, T1, hp1⟩ : ∃ a b, splitScheme U = (a, b) := ⟨_, _, rfl⟩
  rw [hp1] at hsp
  dsimp only at hsp
  have hschemefacts : (S1 = [] ∧ T1 = U) ∨
      ∃ c cs b, U = (c :: cs) ++ ':' :: b ∧ S1 = pyLower (c :: cs) ∧ T1 = b ∧
        c.isAlpha = true ∧ (c :: cs).all isSchemeChar = true := by
    rcases splitScheme_cases U with h | ⟨c, cs, b, hdec, h, halpha, hall⟩
    · rw [hp1, Prod.mk.injEq] at h
      exact Or.inl ⟨h.1, h.2⟩
    · rw [hp1, Prod.mk.injEq] at h
      exact Or.inr ⟨c, cs, b, hdec, h.1, h.2, halpha, hall⟩
  have hT1sub : ∀ x ∈ T1, x ∈ U := by
    rcases hschemefacts with ⟨_, rfl⟩ | ⟨c, cs, b, hdec, _, rfl, _, _⟩
    · exact fun x hx => hx
    · intro x hx
      rw [hdec]
      exact List.mem_append.mpr (Or.inr (List.mem_cons_of_mem _ hx))
  have hS1scheme : S1 = [] ∨ ∃ c cs, S1 = c :: cs ∧ c.isAlpha = true ∧
      (c :: cs).all isSchemeChar = true ∧ pyLower S1 = S1 := by
    rcases hschemefacts with ⟨h1, _⟩ | ⟨c, cs, b, _, hS1, _, halpha, hall⟩
    · exact Or.inl h1
    · right
      obtain ⟨c', cs', heq, ha', hall', hlow'⟩ := scheme_shape_of_pyLower halpha hall
      exact ⟨c', cs', by rw [hS1, heq], ha', hall', by
        rw [hS1, ← heq] at *
        rw [hS1]
        exact hlow'⟩
  have hS1safe : ∀ x ∈ S1, ¬x = '\t' ∧ ¬x = '\r' ∧ ¬x = '\n' := by
    rcases hschemefacts with ⟨rfl, _⟩ | ⟨c, cs, b, hdec, hS1, _, _, _⟩
    · intro x hx
      cases hx
    · intro x hx
      rw [hS1] at hx
      rcases List.mem_map.mp hx with ⟨y, hy, rfl⟩
      apply toLower_not_unsafe
      apply hUsafe
      rw [hdec]
      exact List.mem_append.mpr (Or.inl hy)
  have hSF0 : S1 = [] → splitScheme U = ([], U) ∧ T1 = U := by
    intro hS1e
    rcases hschemefacts with ⟨_, rfl⟩ | ⟨c, cs, b, _, hS1, _, _, _⟩
    · rw [hp1, hS1e]
      exact ⟨rfl, rfl⟩
    · exfalso
      rw [hS1e] at hS1
      have : pyLower (c :: cs) = c.toLower :: pyLower cs := rfl
      rw [this] at hS1
      cases hS1
  by_cases htk : T1.take 2 = ['/', '/']
  · -- netloc branch
    rw [if_pos htk] at hsp
    obtain ⟨N1, R2, hnet⟩ : ∃ a b, splitNetloc (T1.drop 2) = (a, b) := ⟨_, _, rfl⟩
    rw [hnet] at hsp
    dsimp only at hsp
    have hnet2 : N1 = (T1.drop 2).takeWhile (fun c => !isNetlocDelim c) ∧
        R2 = (T1.drop 2).drop
          (((T1.drop 2).takeWhile (fun c => !isNetlocDelim c)).length) := by
      unfold splitNetloc at hnet
      rw [Prod.mk.injEq] at hnet
      exact ⟨hnet.1.symm, hnet.2.symm⟩
    have hN1mem : ∀ c ∈ N1, isNetlocDelim c = false := by
      rw [hnet2.1]
      intro c hc
      have h2 := List.mem_takeWhile_imp hc
      simpa using h2
    have hN1sub : ∀ x ∈ N1, x ∈ U := by
      rw [hnet2.1]
      intro x hx
      exact hT1sub x (List.drop_subset 2 T1
        ((List.takeWhile_sublist _).subset hx))
    have hR2sub : ∀ x ∈ R2, x ∈ U := by
      rw [hnet2.2]
      intro x hx
      exact hT1sub x (List.drop_subset 2 T1 (List.drop_subset _ _ hx))
    have hR2head : N1 = [] →
        R2 = [] ∨ ∃ d ds, R2 = d :: ds ∧ isNetlocDelim d = true := by
      intro hN1e
      rw [hN1e] at hnet2
      cases hdrop : T1.drop 2 with
      | nil =>
        left
        rw [hnet2.2, hdrop]
        rfl
      | cons d ds =>
        rw [hdrop] at hnet2
        by_cases hd : isNetlocDelim d = true
        · right
          refine ⟨d, ds, ?_, hd⟩
          rw [hnet2.2]
          have h5 : (d :: ds).takeWhile (fun c => !isNetlocDelim c) = [] := by
            rw [List.takeWhile_cons, if_neg (by simp [hd])]
          rw [h5]
          rfl
        · exfalso
          have h5 : (d :: ds).takeWhile (fun c => !isNetlocDelim c) =
              d :: ds.takeWhile (fun c => !isNetlocDelim c) := by
            rw [List.takeWhile_cons, if_pos (by simp [Bool.eq_false_iff.mpr hd])]
          rw [h5] at hnet2
          cases hnet2.1
    by_cases hbr : bracketsOk N1 = true
    · rw [show (!bracketsOk N1) = false from by rw [hbr]; rfl] at hsp
      rw [if_neg (by simp)] at hsp
      obtain ⟨P3, F3, h3eq, h3not, s3, h3pre⟩ := splitHead_facts '#' R2
      rw [h3eq] at hsp
      dsimp only at hsp
      obtain ⟨P4, Q4, h4eq, h4not, s4, h4pre⟩ := splitHead_facts '?' P3
      rw [h4eq] at hsp
      dsimp only at hsp
      rw [Option.some_inj] at hsp
      subst hsp
      have hP4subP3 : ∀ x ∈ P4, x ∈ P3 := by
        intro x hx
        rw [h4pre]
        exact List.mem_append.mpr (Or.inl hx)
      have hP4subU : ∀ x ∈ P4, x ∈ U := by
        intro x hx
        apply hR2sub
        rw [h3pre]
        exact List.mem_append.mpr (Or.inl (hP4subP3 x hx))
      refine ⟨hS1scheme, hN1mem, hbr, ?_, h4not, ?_, ?_⟩
      · intro hm
        exact h3not (hP4subP3 _ hm)
      · intro x hx
        rcases List.mem_append.mp hx with h | h
        · rcases List.mem_append.mp h with h1 | h1
          · exact hS1safe x h1
          · exact hUsafe x (hN1sub x h1)
        · exact hUsafe x (hP4subU x h)
      · intro _ hN1e
        rcases hR2head hN1e with hR2e | ⟨d, ds, hR2d, hdelim⟩
        · left
          have h6 := h3pre
          rw [hR2e] at h6
          have hP3e : P3 = [] := (List.append_eq_nil.mp h6.symm).1
          have h7 := h4pre
          rw [hP3e] at h7
          exact (List.append_eq_nil.mp h7.symm).1
        · cases hP4 : P4 with
          | nil => exact Or.inl rfl
          | cons p ps =>
            right
            left
            have hdp : p = d := by
              have h6 : R2 = (p :: ps) ++ (s4 ++ s3) := by
                rw [h3pre, h4pre, hP4, List.append_assoc]
              rw [hR2d] at h6
              injection h6 with h7 _
              exact h7.symm
            have hpmem : p ∈ P4 := by
              rw [hP4]
              exact List.mem_cons_self p ps
            rcases isNetlocDelim_elim (hdp ▸ hdelim) with h8 | h8 | h8
            · exact ⟨ps, by
                show p :: ps = '/' :: ps
                rw [h8]⟩
            · exact absurd (h8 ▸ hpmem) h4not
            · exact absurd (h8 ▸ hpmem) (fun hm => h3not (hP4subP3 _ hm))
    · exfalso
      rw [show (!bracketsOk N1) = true from by
        rw [Bool.eq_false_iff.mpr hbr]; rfl] at hsp
      rw [if_pos rfl] at hsp
      cases hsp
  · -- no netloc branch
    rw [if_neg htk] at hsp
    dsimp only at hsp
    rw [show (!bracketsOk ([] : List Char)) = false from by decide] at hsp
    rw [if_neg (by simp)] at hsp
    obtain ⟨P3, F3, h3eq, h3not, s3, h3pre⟩ := splitHead_facts '#' T1
    rw [h3eq] at hsp
    dsimp only at hsp
    obtain ⟨P4, Q4, h4eq, h4not, s4, h4pre⟩ := splitHead_facts '?' P3
    rw [h4eq] at hsp
    dsimp only at hsp
    rw [Option.some_inj] at hsp
    subst hsp
    have hP4subP3 : ∀ x ∈ P4, x ∈ P3 := by
      intro x hx
      rw [h4pre]
      exact List.mem_append.mpr (Or.inl hx)
    have hP4subU : ∀ x ∈ P4, x ∈ U := by
      intro x hx
      apply hT1sub
      rw [h3pre]
      exact List.mem_append.mpr (Or.inl (hP4subP3 x hx))
    refine ⟨hS1scheme, ?_, rfl, ?_, h4not, ?_, ?_⟩
    · intro c hc
      cases hc
    · intro hm
      exact h3not (hP4subP3 _ hm)
    · intro x hx
      rcases List.mem_append.mp hx with h | h
      · rcases List.mem_append.mp h with h1 | h1
        · exact hS1safe x h1
        · cases h1
      · exact hUsafe x (hP4subU x h)
    · intro hS1e _
      obtain ⟨hss, hT1U⟩ := hSF0 hS1e
      right
      right
      refine ⟨s4 ++ s3, ?_, hss⟩
      rw [← hT1U, h3pre, h4pre, List.append_assoc]

theorem pyUrlparse_post {url : List Char} {p : UrlParts} {PR : List Char}
    (hp : pyUrlparse url = some p)
    (hPR : PR = if p.params ≠ [] then p.path ++ ';' :: p.params else p.path) :
    (p.scheme = [] ∨ ∃ c cs, p.scheme = c :: cs ∧ c.isAlpha = true ∧
        (c :: cs).all isSchemeChar = true ∧ pyLower p.scheme = p.scheme) ∧
    (∀ c ∈ p.netloc, isNetlocDelim c = false) ∧
    bracketsOk p.netloc = true ∧
    '#' ∉ PR ∧ '?' ∉ PR ∧
    reconstructParams PR = PR ∧
    (∀ c ∈ p.scheme ++ p.netloc ++ PR, ¬c = '\t' ∧ ¬c = '\r' ∧ ¬c = '\n') ∧
    (p.scheme = [] → p.netloc = [] → ¬(PR ≠ [] ∧ PR.take 2 = ['/', '/']) →
      PR = [] ∨ (∃ c rest, PR = c :: rest ∧ c.isAlpha = false) ∨
      ∃ U1 suf, splitScheme U1 = ([], U1) ∧ U1 = PR ++ suf) := by
  unfold pyUrlparse at hp
  cases hsp : pyUrlsplit url with
  | none =>
    rw [hsp] at hp
    cases hp
  | some sp =>
    rw [hsp] at hp
    dsimp only at hp
    rw [Option.some_inj] at hp
    subst hp
    obtain ⟨hsch, hnl, hbr, hph, hpq, hsafe, hF6sp⟩ := pyUrlsplit_post hsp
    have hPRrec : PR = reconstructParams sp.path := by
      rw [hPR]
      unfold reconstructParams
      rfl
    obtain ⟨spre, hspre⟩ := reconstructParams_pre sp.path
    have hspre2 : sp.path = PR ++ spre := by
      rw [hPRrec]
      exact hspre
    have hPRsub : ∀ c ∈ PR, c ∈ sp.path := by
      intro c hc
      rw [hspre2]
      exact List.mem_append.mpr (Or.inl hc)
    refine ⟨hsch, hnl, hbr, ?_, ?_, ?_, ?_, ?_⟩
    · exact fun hm => hph (hPRsub _ hm)
    · exact fun hm => hpq (hPRsub _ hm)
    · rw [hPRrec]
      exact reconstructParams_idem sp.path
    · intro c hc
      rcases List.mem_append.mp hc with h | h
      · exact hsafe c (List.mem_append.mpr (Or.inl h))
      · exact hsafe c (List.mem_append.mpr (Or.inr (hPRsub c h)))
    · intro hse hne _
      rcases hF6sp hse hne with hpe | ⟨t, hpt⟩ | ⟨suf, hUdec, hss⟩
      · left
        rw [hPRrec, hpe]
        rfl
      · cases hPRc : PR with
        | nil => exact Or.inl rfl
        | cons q qs =>
          right
          left
          refine ⟨q, qs, rfl, ?_⟩
          have h7 : ('/' : Char) :: t = (q :: qs) ++ spre := by
            rw [← hpt, hspre2, hPRc]
          have h8 : q = '/' := by
            rw [List.cons_append] at h7
            injection h7 with h9 _
            exact h9.symm
          rw [h8]
          decide
      · right
        right
        exact ⟨removeUnsafeBytes url, spre ++ suf, hss, by
          rw [hUdec, hspre2, List.append_assoc]⟩

theorem normalizeUrl_empty : normalizeUrl "" = "" := by
  unfold normalizeUrl
  rw [if_pos rfl]

/-- normalize_url is idempotent on every input string. -/
theorem normalizeUrl_idem_aux (u : String) :
    normalizeUrl (normalizeUrl u) = normalizeUrl u := by
  by_cases hu : u = ""
  · rw [hu, normalizeUrl_empty, normalizeUrl_empty]
  · cases hp : pyUrlparse u.data with
    | none =>
      have h1 : normalizeUrl u = u := by
        unfold normalizeUrl
        rw [if_neg hu, hp]
      rw [h1, h1]
    | some p =>
      have hv : normalizeUrl u = String.mk (urlunparse { p with
          query := urlencodeSorted (sortQs ((parseQs p.query).filter
            fun kv => !isStripParam kv.1)), fragment := [] }) := by
        unfold normalizeUrl
        rw [if_neg hu, hp]
      obtain ⟨hS, hN, hBr, hPh, hPq, hstab, hsafe, hF6⟩ := pyUrlparse_post hp rfl
      have hQh : '#' ∉ urlencodeSorted (sortQs ((parseQs p.query).filter
          fun kv => !isStripParam kv.1)) := by
        intro hm
        exact (urlencodeSorted_char_facts _ hm).1 rfl
      have hQsafe : ∀ c ∈ urlencodeSorted (sortQs ((parseQs p.query).filter
          fun kv => !isStripParam kv.1)),
          ¬c = '\t' ∧ ¬c = '\r' ∧ ¬c = '\n' :=
        fun c hc => (urlencodeSorted_char_facts c hc).2
      obtain ⟨N2, P2, R2, hparse2, hunparse2⟩ :=
        pyUrlparse_unsplit_roundtrip p.scheme p.netloc
          (if p.params ≠ [] then p.path ++ ';' :: p.params else p.path)
          (urlencodeSorted (sortQs ((parseQs p.query).filter
            fun kv => !isStripParam kv.1)))
          hS hF6 hN hBr hPh hPq hstab hsafe hQh hQsafe
      have hv2 : normalizeUrl u = String.mk (urlunsplit p.scheme p.netloc
          (if p.params ≠ [] then p.path ++ ';' :: p.params else p.path)
          (urlencodeSorted (sortQs ((parseQs p.query).filter
            fun kv => !isStripParam kv.1))) []) := hv
      rw [hv2]
      by_cases hW : String.mk (urlunsplit p.scheme p.netloc
          (if p.params ≠ [] then p.path ++ ';' :: p.params else p.path)
          (urlencodeSorted (sortQs ((parseQs p.query).filter
            fun kv => !isStripParam kv.1))) []) = ""
      · rw [hW]
        exact normalizeUrl_empty
      · unfold normalizeUrl
        rw [if_neg hW]
        rw [show (String.mk (urlunsplit p.scheme p.netloc
          (if p.params ≠ [] then p.path ++ ';' :: p.params else p.path)
          (urlencodeSorted (sortQs ((parseQs p.query).filter
            fun kv => !isStripParam kv.1))) [])).data = urlunsplit p.scheme
          p.netloc (if p.params ≠ [] then p.path ++ ';' :: p.params else p.path)
          (urlencodeSorted (sortQs ((parseQs p.query).filter
            fun kv => !isStripParam kv.1))) [] from rfl]
        rw [hparse2]
        dsimp only
        rw [newQuery_idem p.query]
        rw [hunparse2]

unseal pctScan utf8DecodeReplace in
theorem normalizeUrl_concrete :
    normalizeUrl "https://a.com/p?utm_source=x&utm_medium=y#frag" =
      "https://a.com/p" := by rfl

/-- C7: URL normalization is idempotent — for every URL string,
normalize(normalize(url)) equals normalize(url) — and on the concrete input
https://a.com/p?utm_source=x&utm_medium=y#frag it strips the tracking
parameters and the fragment, yielding https://a.com/p. -/
theorem url_normalization_idempotent :
    (∀ u : String, normalizeUrl (normalizeUrl u) = normalizeUrl u) ∧
    normalizeUrl "https://a.com/p?utm_source=x&utm_medium=y#frag" =
      "https://a.com/p" :=
  ⟨normalizeUrl_idem_aux, normalizeUrl_concrete⟩

end Intel
